import Mathlib

/-!
# SuperSchedulers: batch scheduling simulators

A shallow embedding of the two C++ sources of the repository,
`geminiversion.cpp` (simulateFIFO / simulateSJF / simulateSRT over a
`std::vector<Process>` with a ready queue of pointers) and
`SchedulingAlgorithms.cpp` (simulate_FIFO over a `finished` bit vector),
followed by theorems about them.

Conventions of the embedding.

* A C++ `int` is a Lean `Int`.  Signed overflow is undefined behaviour in C++,
  so the model describes the executions in which no `int` computation
  overflows; `std::numeric_limits<int>::max()` is the constant `INT_MAX`, and
  the fact that an `int` field cannot exceed it is an explicit hypothesis
  (`InIntRange`) where the code depends on it.  The clock of a simulator is
  the one `int` that grows: a theorem that depends on its values takes the
  hypothesis that the run fits the range of `int` (`NoOverflow`) and states
  that every state of the run is in range (`FIFOInRange`, `SJFInRange`,
  `SRTInRange`, `BatchInRange`).
* A `Process*` into the `processes` vector is the index of the element; the
  pointer dereference is `deref`.
* A `while` loop is run with fuel by `runLoop`: the result is `none` when the
  fuel runs out and `some s` when the loop is left in state `s`.
* The `double` returned by a simulator is the exact rational it denotes.
* `std::sort` is an insertion sort.  The comparators of the source are strict
  total orders whenever the ids are pairwise distinct, so that every correct
  sort then returns the same queue.
-/

namespace SuperSchedulers

/-! ## geminiversion.cpp : the process record -/

/-- The record `struct Process` of geminiversion.cpp, field by field. -/
structure Process where
  id : Int
  arrivalTime : Int
  totalCpuTime : Int
  remainingCpuTime : Int
  completionTime : Int
  turnaroundTime : Int
  active : Bool
deriving DecidableEq, Repr

/-- The constructor `Process::Process(p_id, arr, cpu)`: the remaining time is
the burst time, completion and turnaround are the sentinel `-1`, and the
process is inactive. -/
def Process.create (p_id arr cpu : Int) : Process :=
  { id := p_id, arrivalTime := arr, totalCpuTime := cpu, remainingCpuTime := cpu,
    completionTime := -1, turnaroundTime := -1, active := false }

instance : Inhabited Process := ⟨Process.create 0 0 0⟩

/-- The value `std::numeric_limits<int>::max()` for a 32-bit `int`. -/
def INT_MAX : Int := 2147483647

/-- The comparator `Process::compareArrival`. -/
def Process.compareArrival (a b : Process) : Bool :=
  if a.arrivalTime ≠ b.arrivalTime then decide (a.arrivalTime < b.arrivalTime)
  else decide (a.id < b.id)

/-- The comparator `Process::compareTotalCpuTime`. -/
def Process.compareTotalCpuTime (a b : Process) : Bool :=
  if a.totalCpuTime ≠ b.totalCpuTime then decide (a.totalCpuTime < b.totalCpuTime)
  else decide (a.id < b.id)

/-- The comparator `Process::compareRemainingCpuTime`. -/
def Process.compareRemainingCpuTime (a b : Process) : Bool :=
  if a.remainingCpuTime ≠ b.remainingCpuTime then
    decide (a.remainingCpuTime < b.remainingCpuTime)
  else decide (a.id < b.id)

/-- Dereference of a `Process*` that points at element `i` of `processes`. -/
def deref (ps : List Process) (i : Nat) : Process := ps.getD i default

/-- Insertion of one pointer into a queue that is sorted for `lt`. -/
def insertSorted (lt : Nat → Nat → Bool) (x : Nat) : List Nat → List Nat
  | [] => [x]
  | y :: ys => if lt x y then x :: y :: ys else y :: insertSorted lt x ys

/-- The call `std::sort(readyQueue.begin(), readyQueue.end(), comp)` on a queue
of pointers into `ps`. -/
def sortQueue (comp : Process → Process → Bool) (ps : List Process) (q : List Nat) :
    List Nat :=
  q.foldr (insertSorted (fun i j => comp (deref ps i) (deref ps j))) []

/-- The scan for the earliest future arrival among the processes without a
completion time, shared by the idle branch of the three simulators: the pair
`(nextArrivalTime, foundNext)`. -/
def nextArrival (ps : List Process) (t : Int) : Int × Bool :=
  ps.foldl
    (fun acc p =>
      if p.completionTime = -1 ∧ p.arrivalTime > t then (min acc.1 p.arrivalTime, true)
      else acc)
    (INT_MAX, false)

/-- A `while (guard) body` loop with fuel.  The body returns the new state and
whether it left the loop by `break`. -/
def runLoop {σ : Type} (guard : σ → Bool) (body : σ → σ × Bool) : Nat → σ → Option σ
  | 0, _ => none
  | fuel + 1, s =>
    if guard s then
      if (body s).2 then some (body s).1 else runLoop guard body fuel (body s).1
    else some s

/-- The state at the head of the loop after `k` complete iterations, when the
loop runs that long. -/
def iterLoop {σ : Type} (guard : σ → Bool) (body : σ → σ × Bool) : Nat → σ → Option σ
  | 0, s => some s
  | k + 1, s =>
    if guard s then
      if (body s).2 then none else iterLoop guard body k (body s).1
    else none

/-! ## geminiversion.cpp : simulateFIFO -/

/-- The local variables of `simulateFIFO` that live across iterations. -/
structure FIFOState where
  processes : List Process
  currentTime : Int
  completedProcesses : Int
  readyQueue : List Nat
deriving DecidableEq, Repr

/-- One turn of the arrival loop of `simulateFIFO` (lines 78-85) for the
process at index `i`. -/
def admitStepFIFO (t : Int) (st : List Process × List Nat) (i : Nat) :
    List Process × List Nat :=
  let p := deref st.1 i
  if p.active = false ∧ p.arrivalTime ≤ t ∧ p.completionTime = -1 then
    let ps := st.1.set i { p with active := true }
    (ps, sortQueue Process.compareArrival ps (st.2 ++ [i]))
  else st

/-- The arrival loop of `simulateFIFO`. -/
def admitFIFO (ps : List Process) (q : List Nat) (t : Int) : List Process × List Nat :=
  (List.range ps.length).foldl (admitStepFIFO t) (ps, q)

/-- The record of a process that completes at time `t` (the assignments of the
"Handle Completion" step, with the remaining time at zero). -/
def Process.complete (p : Process) (t : Int) : Process :=
  { p with remainingCpuTime := 0, completionTime := t,
           turnaroundTime := t - p.arrivalTime, active := false }

/-- The body of the `while` loop of `simulateFIFO` (lines 77-137).  The clock
`currentTime += totalCpuTime` is computed in `Int`: the definition follows the
source while the sum is at most `INT_MAX`, which `FIFOInRange` states of a
run. -/
def bodyFIFO (n : Int) (s : FIFOState) : FIFOState × Bool :=
  let a := admitFIFO s.processes s.readyQueue s.currentTime
  match a.2 with
  | [] =>
    let na := nextArrival a.1 s.currentTime
    if na.2 then
      ({ processes := a.1, currentTime := na.1,
         completedProcesses := s.completedProcesses, readyQueue := [] }, false)
    else if s.completedProcesses < n then
      ({ processes := a.1, currentTime := s.currentTime + 1,
         completedProcesses := s.completedProcesses, readyQueue := [] }, false)
    else
      ({ processes := a.1, currentTime := s.currentTime,
         completedProcesses := s.completedProcesses, readyQueue := [] }, true)
  | cur :: rest =>
    let p := deref a.1 cur
    let t := s.currentTime + p.totalCpuTime
    ({ processes := a.1.set cur (p.complete t), currentTime := t,
       completedProcesses := s.completedProcesses + 1, readyQueue := rest }, false)

/-- The state of `simulateFIFO` on entry to the loop. -/
def initFIFO (processes : List Process) : FIFOState :=
  { processes := processes, currentTime := 0, completedProcesses := 0, readyQueue := [] }

/-- The main loop of `simulateFIFO`. -/
def loopFIFO (fuel : Nat) (processes : List Process) (n : Int) : Option FIFOState :=
  runLoop (fun s => decide (s.completedProcesses < n)) (bodyFIFO n) fuel (initFIFO processes)

/-- The sum `totalTurnaroundTime` of the turnaround times that are not `-1`. -/
def totalTurnaround (ps : List Process) : ℚ :=
  ps.foldl (fun acc p => if p.turnaroundTime ≠ -1 then acc + (p.turnaroundTime : ℚ) else acc) 0

/-- The count `actualCompleted` of the turnaround times that are not `-1`. -/
def actualCompleted (ps : List Process) : Int :=
  ps.foldl (fun acc p => if p.turnaroundTime ≠ -1 then acc + 1 else acc) 0

/-- The value returned by `simulateFIFO` from the final state: the sum is
divided by the loop counter `completedProcesses`. -/
def averageFIFO (s : FIFOState) : ℚ :=
  if s.completedProcesses > 0 then totalTurnaround s.processes / (s.completedProcesses : ℚ)
  else 0

/-- The function `simulateFIFO(processes, n)`. -/
def simulateFIFO (fuel : Nat) (processes : List Process) (n : Int) : Option ℚ :=
  (loopFIFO fuel processes n).map averageFIFO

/-! ## geminiversion.cpp : simulateSJF and simulateSRT -/

/-- The local variables of `simulateSJF` and of `simulateSRT` that live across
iterations; `runningProcess` is `none` for `nullptr`. -/
structure SimState where
  processes : List Process
  currentTime : Int
  completedProcesses : Int
  readyQueue : List Nat
  runningProcess : Option Nat
deriving DecidableEq, Repr

/-- One turn of the arrival loop of `simulateSJF` (lines 163-172). -/
def admitStepSJF (t : Int) (running : Option Nat) (st : List Process × List Nat) (i : Nat) :
    List Process × List Nat :=
  let p := deref st.1 i
  if p.arrivalTime ≤ t ∧ p.completionTime = -1 ∧ p.active = false then
    if some i ≠ running then (st.1.set i { p with active := true }, st.2 ++ [i])
    else st
  else st

/-- The arrival loop of `simulateSJF`. -/
def admitSJF (ps : List Process) (q : List Nat) (running : Option Nat) (t : Int) :
    List Process × List Nat :=
  (List.range ps.length).foldl (admitStepSJF t running) (ps, q)

/-- The idle branch of `simulateSJF` (lines 184-216): the new time and whether
the loop is left by `break`. -/
def idleSJF (n : Int) (ps : List Process) (q : List Nat) (t c : Int) : Int × Bool :=
  let na := nextArrival ps t
  if na.2 then (na.1, false)
  else if c < n then
    if q ≠ [] then (t + 1, false)
    else if c = n then (t, true)
    else (t + 1, false)
  else (t, true)

/-- One time unit of the running process `r` at time `t` (already advanced),
shared by `simulateSJF` (lines 220-230) and `simulateSRT` (lines 315-325).
The clock `t` and `t - arrivalTime` are computed in `Int`: the definition
follows the source while `t` is at most `INT_MAX` and the arrival is not
negative, which `SJFInRange` and `SRTInRange` state of a run. -/
def runUnit (ps : List Process) (q : List Nat) (t c : Int) (r : Nat) : SimState :=
  let p := { deref ps r with remainingCpuTime := (deref ps r).remainingCpuTime - 1 }
  if p.remainingCpuTime = 0 then
    { processes := ps.set r { p with completionTime := t,
                                     turnaroundTime := t - p.arrivalTime, active := false },
      currentTime := t, completedProcesses := c + 1, readyQueue := q, runningProcess := none }
  else
    { processes := ps.set r p, currentTime := t, completedProcesses := c, readyQueue := q,
      runningProcess := some r }

/-- The selection of `simulateSJF` (lines 175-181): the queue and the running
process after the step. -/
def selectSJF (ps : List Process) (q : List Nat) (running : Option Nat) :
    List Nat × Option Nat :=
  if running = none ∧ q ≠ [] then
    let sorted := sortQueue Process.compareTotalCpuTime ps q
    (sorted.tail, sorted.head?)
  else (q, running)

/-- The body of the `while` loop of `simulateSJF` (lines 162-234). -/
def bodySJF (n : Int) (s : SimState) : SimState × Bool :=
  let a := admitSJF s.processes s.readyQueue s.runningProcess s.currentTime
  let sel := selectSJF a.1 a.2 s.runningProcess
  match sel.2 with
  | none =>
    let idle := idleSJF n a.1 sel.1 s.currentTime s.completedProcesses
    ({ processes := a.1, currentTime := idle.1, completedProcesses := s.completedProcesses,
       readyQueue := sel.1, runningProcess := none }, idle.2)
  | some r => (runUnit a.1 sel.1 (s.currentTime + 1) s.completedProcesses r, false)

/-- The state of `simulateSJF` and `simulateSRT` on entry to the loop. -/
def initSim (processes : List Process) : SimState :=
  { processes := processes, currentTime := 0, completedProcesses := 0, readyQueue := [],
    runningProcess := none }

/-- The main loop of `simulateSJF`. -/
def loopSJF (fuel : Nat) (processes : List Process) (n : Int) : Option SimState :=
  runLoop (fun s => decide (s.completedProcesses < n)) (bodySJF n) fuel (initSim processes)

/-- The value returned by `simulateSJF` and `simulateSRT` from the final
processes: the sum is divided by the recount `actualCompleted`. -/
def averageCompleted (ps : List Process) : ℚ :=
  if actualCompleted ps > 0 then totalTurnaround ps / (actualCompleted ps : ℚ) else 0

/-- The function `simulateSJF(processes, n)`. -/
def simulateSJF (fuel : Nat) (processes : List Process) (n : Int) : Option ℚ :=
  (loopSJF fuel processes n).map (fun s => averageCompleted s.processes)

/-- One turn of the arrival loop of `simulateSRT` (lines 265-275); the inner
loop over the ready queue compares ids. -/
def admitStepSRT (t : Int) (running : Option Nat) (st : List Process × List Nat) (i : Nat) :
    List Process × List Nat :=
  let p := deref st.1 i
  if p.arrivalTime ≤ t ∧ p.completionTime = -1 ∧ p.active = false then
    let alreadyInQueue := st.2.any (fun rp => decide ((deref st.1 rp).id = p.id))
    if alreadyInQueue = false ∧ some i ≠ running then
      (st.1.set i { p with active := true }, st.2 ++ [i])
    else st
  else st

/-- The arrival loop of `simulateSRT`. -/
def admitSRT (ps : List Process) (q : List Nat) (running : Option Nat) (t : Int) :
    List Process × List Nat :=
  (List.range ps.length).foldl (admitStepSRT t running) (ps, q)

/-- Step 2 of `simulateSRT` (lines 278-281): the running process goes back to
the ready queue. -/
def requeueSRT (q : List Nat) (running : Option Nat) : List Nat :=
  match running with
  | some r => q ++ [r]
  | none => q

/-- Step 3 of `simulateSRT` (lines 284-289): the queue and the running process
after the selection, which starts with no running process. -/
def selectSRT (ps : List Process) (q : List Nat) : List Nat × Option Nat :=
  if q ≠ [] then
    let sorted := sortQueue Process.compareRemainingCpuTime ps q
    (sorted.tail, sorted.head?)
  else (q, none)

/-- The process that `simulateSRT` runs in the iteration that starts in state
`s`, if any: arrivals, requeue, selection. -/
def chosenSRT (s : SimState) : Option Nat :=
  let a := admitSRT s.processes s.readyQueue s.runningProcess s.currentTime
  (selectSRT a.1 (requeueSRT a.2 s.runningProcess)).2

/-- The idle branch of `simulateSRT` (lines 292-311). -/
def idleSRT (n : Int) (ps : List Process) (t c : Int) : Int × Bool :=
  let na := nextArrival ps t
  if na.2 then (na.1, false)
  else if c < n then (t + 1, false)
  else (t, true)

/-- The body of the `while` loop of `simulateSRT` (lines 264-331). -/
def bodySRT (n : Int) (s : SimState) : SimState × Bool :=
  let a := admitSRT s.processes s.readyQueue s.runningProcess s.currentTime
  let sel := selectSRT a.1 (requeueSRT a.2 s.runningProcess)
  match sel.2 with
  | none =>
    let idle := idleSRT n a.1 s.currentTime s.completedProcesses
    ({ processes := a.1, currentTime := idle.1, completedProcesses := s.completedProcesses,
       readyQueue := sel.1, runningProcess := none }, idle.2)
  | some r => (runUnit a.1 sel.1 (s.currentTime + 1) s.completedProcesses r, false)

/-- The main loop of `simulateSRT`. -/
def loopSRT (fuel : Nat) (processes : List Process) (n : Int) : Option SimState :=
  runLoop (fun s => decide (s.completedProcesses < n)) (bodySRT n) fuel (initSim processes)

/-- The function `simulateSRT(processes, n)`. -/
def simulateSRT (fuel : Nat) (processes : List Process) (n : Int) : Option ℚ :=
  (loopSRT fuel processes n).map (fun s => averageCompleted s.processes)

/-- The scenario registry of the specification: P0(0,5), P1(1,3), P2(2,1). -/
def scenario : List Process :=
  [Process.create 0 0 5, Process.create 1 1 3, Process.create 2 2 1]

/-! ## Registries and loop invariants -/

/-- Every process of the registry is as the constructor leaves it. -/
def Fresh (ps : List Process) : Prop :=
  ∀ p ∈ ps, p = Process.create p.id p.arrivalTime p.totalCpuTime

/-- The arrival times are values of a 32-bit `int`. -/
def InIntRange (ps : List Process) : Prop := ∀ p ∈ ps, p.arrivalTime ≤ INT_MAX

/-- The ids of the registry are pairwise distinct. -/
def DistinctIds (ps : List Process) : Prop := (ps.map Process.id).Nodup

/-- What the three loops maintain for one process `p`, whose initial record is
`p0`, at simulated time `t`; `busy` says that a pointer to `p` is in the ready
queue or is the running process. -/
structure ProcInv (t : Int) (p0 p : Process) (busy : Prop) : Prop where
  id_eq : p.id = p0.id
  arr_eq : p.arrivalTime = p0.arrivalTime
  tot_eq : p.totalCpuTime = p0.totalCpuTime
  tot_pos : 1 ≤ p.totalCpuTime
  arr_le : p.arrivalTime ≤ INT_MAX
  active_iff : p.active = true ↔ busy
  rem_le : p.remainingCpuTime ≤ p.totalCpuTime
  pend_rem : p.completionTime = -1 → 1 ≤ p.remainingCpuTime
  pend_ta : p.completionTime = -1 → p.turnaroundTime = -1
  pend_idle : p.completionTime = -1 → p.active = false →
    p.remainingCpuTime = p.totalCpuTime
  pend_busy : p.completionTime = -1 → p.active = true →
    p.arrivalTime + (p.totalCpuTime - p.remainingCpuTime) ≤ t
  done_rem : p.completionTime ≠ -1 → p.remainingCpuTime = 0
  done_idle : p.completionTime ≠ -1 → p.active = false
  done_ta : p.completionTime ≠ -1 → p.turnaroundTime = p.completionTime - p.arrivalTime
  done_ge : p.completionTime ≠ -1 → p.arrivalTime + p.totalCpuTime ≤ p.completionTime
  done_le : p.completionTime ≠ -1 → p.completionTime ≤ t
  done_pos : p.completionTime ≠ -1 → 0 < p.completionTime

/-- The invariant of the three loops at the head of an iteration: `ps0` is the
registry the simulator was called with, `ps` the current vector, `t` the
current time, `c` the counter `completedProcesses`, `q` the ready queue and
`r` the running process. -/
structure Inv (ps0 ps : List Process) (t c : Int) (q : List Nat) (r : Option Nat) :
    Prop where
  len : ps.length = ps0.length
  time_nonneg : 0 ≤ t
  q_valid : ∀ i ∈ q, i < ps.length
  q_nodup : q.Nodup
  r_valid : ∀ i, r = some i → i < ps.length ∧ i ∉ q
  procs : ∀ i, i < ps.length →
    ProcInv t (deref ps0 i) (deref ps i) (i ∈ q ∨ r = some i)
  count : c = ∑ i in Finset.range ps.length,
    (if (deref ps i).completionTime = -1 then (0 : Int) else 1)

/-- The contribution of one process to the termination measure: the time it
still has to run, plus one while it has not arrived. -/
def weight (t : Int) (p : Process) : Nat :=
  p.remainingCpuTime.toNat + (if t < p.arrivalTime then 1 else 0)

/-- The termination measure of the three loops. -/
def potential (ps : List Process) (t : Int) : Nat :=
  ∑ i in Finset.range ps.length, weight t (deref ps i)

/-- What the arrival loop of each of the three simulators guarantees when it
starts from `(ps, q)` under the loop invariant and ends in `(ps1, q1)`: the
invariant still holds, only `active` flags changed, the queue only grew, and a
pending process that has arrived is active unless another queued pointer
carries its id. -/
structure AdmitPost (ps0 ps : List Process) (t c : Int) (q : List Nat) (r : Option Nat)
    (k : Nat) (ps1 : List Process) (q1 : List Nat) : Prop where
  inv : Inv ps0 ps1 t c q1 r
  same : ∀ i, ∃ b, deref ps1 i = { deref ps i with active := b }
  sub : ∀ i ∈ q, i ∈ q1
  admitted : ∀ i, i < k → (deref ps1 i).completionTime = -1 →
    (deref ps1 i).arrivalTime ≤ t →
    (deref ps1 i).active = true ∨ ∃ j ∈ q1, j ≠ i ∧ (deref ps1 j).id = (deref ps1 i).id

/-- The loop invariant on a state of `simulateFIFO`, which has no running
process across iterations. -/
def FIFOState.Ok (ps0 : List Process) (s : FIFOState) : Prop :=
  Inv ps0 s.processes s.currentTime s.completedProcesses s.readyQueue none

/-- The loop invariant on a state of `simulateSJF` or `simulateSRT`. -/
def SimState.Ok (ps0 : List Process) (s : SimState) : Prop :=
  Inv ps0 s.processes s.currentTime s.completedProcesses s.readyQueue s.runningProcess

/-- A queue of pointers is in order for the strict comparator `lt`: no later
element is strictly before an earlier one. -/
def SortedBy (lt : Nat → Nat → Bool) (l : List Nat) : Prop :=
  l.Pairwise (fun a b => lt b a = false)

/-- The process that `simulateSJF` selects in the iteration that starts in
state `s`, if the selection branch (no running process, ready queue not empty
after the arrivals) is taken. -/
def chosenSJF (s : SimState) : Option Nat :=
  let a := admitSJF s.processes s.readyQueue s.runningProcess s.currentTime
  if s.runningProcess = none ∧ a.2 ≠ [] then (selectSJF a.1 a.2 s.runningProcess).2 else none

/-- What the loop of `simulateFIFO` maintains in addition to the common
invariant: the ready queue is sorted by `compareArrival`, and a process that
has completed did so after every process that `compareArrival` puts before it
had completed, with room for its own burst. -/
structure FIFOOrder (ps0 : List Process) (s : FIFOState) : Prop where
  sorted : SortedBy (fun i j => Process.compareArrival (deref ps0 i) (deref ps0 j))
    s.readyQueue
  order : ∀ a b, a < ps0.length → b < ps0.length →
    Process.compareArrival (deref ps0 a) (deref ps0 b) = true →
    (deref s.processes b).completionTime ≠ -1 →
    (deref s.processes a).completionTime ≠ -1 ∧
      (deref s.processes a).completionTime + (deref ps0 b).totalCpuTime ≤
        (deref s.processes b).completionTime

/-! ## SchedulingAlgorithms.cpp : simulate_FIFO -/

/-- The record `struct Process` of SchedulingAlgorithms.cpp. -/
structure BatchProcess where
  pid : Int
  arrival : Int
  total : Int
  remaining : Int
  turnaround : Int
  active : Bool
deriving DecidableEq, Repr

instance : Inhabited BatchProcess := ⟨⟨0, 0, 0, 0, 0, false⟩⟩

/-- The record `{i, arrival, total, total, 0, false}` that `generate_processes`
pushes for process `i`. -/
def BatchProcess.generated (i arrival total : Int) : BatchProcess :=
  { pid := i, arrival := arrival, total := total, remaining := total, turnaround := 0,
    active := false }

/-- The local variables of `simulate_FIFO` that live across iterations. -/
structure BatchState where
  procs : List BatchProcess
  t : Int
  finished : List Bool
deriving DecidableEq, Repr

/-- The scan of `simulate_FIFO` (lines 38-44): the first index, in vector
order, of a process that is not finished and has arrived; `none` is `-1`. -/
def firstReady (s : BatchState) : Option Nat :=
  (List.range s.procs.length).find?
    (fun i => !(s.finished.getD i false) && decide ((s.procs.getD i default).arrival ≤ s.t))

/-- The inner loop `while (procs[idx].remaining > 0) { remaining--; t++; }`;
the fuel passed is the number of turns the loop makes.  The clock `t` is
computed in `Int`: the definition follows the source while `t` is at most
`INT_MAX`, which `BatchInRange` states of a run. -/
def runBurst : Nat → BatchProcess → Int → BatchProcess × Int
  | 0, p, t => (p, t)
  | fuel + 1, p, t =>
    if p.remaining > 0 then runBurst fuel { p with remaining := p.remaining - 1 } (t + 1)
    else (p, t)

/-- The body of the outer loop of `simulate_FIFO` (lines 38-52); it has no
`break`. -/
def body_FIFO (s : BatchState) : BatchState × Bool :=
  match firstReady s with
  | none => ({ s with t := s.t + 1 }, false)
  | some idx =>
    let b := runBurst (s.procs.getD idx default).remaining.toNat (s.procs.getD idx default) s.t
    ({ procs := s.procs.set idx { b.1 with turnaround := b.2 - b.1.arrival },
       t := b.2, finished := s.finished.set idx true }, false)

/-- The state of `simulate_FIFO` on entry to the outer loop. -/
def init_FIFO (procs : List BatchProcess) : BatchState :=
  { procs := procs, t := 0, finished := List.replicate procs.length false }

/-- The guard `count(finished.begin(), finished.end(), false) > 0`. -/
def unfinished (s : BatchState) : Bool := decide (s.finished.count false > 0)

/-- The outer loop of `simulate_FIFO`. -/
def loop_FIFO (fuel : Nat) (procs : List BatchProcess) : Option BatchState :=
  runLoop unfinished body_FIFO fuel (init_FIFO procs)

/-- The value `ATT` that `simulate_FIFO` prints. -/
def simulate_FIFO (fuel : Nat) (procs : List BatchProcess) : Option ℚ :=
  (loop_FIFO fuel procs).map
    (fun s => (s.procs.foldl (fun acc p => acc + (p.turnaround : ℚ)) 0) / (procs.length : ℚ))

/-- A registry that `generate_processes` can return, whose vector order is not
the order of arrival: P0 arrives at 3, P1 at 1 and P2 at 0. -/
def unsortedRegistry : List BatchProcess :=
  [BatchProcess.generated 0 3 1, BatchProcess.generated 1 1 1, BatchProcess.generated 2 0 5]

/-- The state of `simulate_FIFO` on `unsortedRegistry` after its first
iteration, in which P2 ran from 0 to 5. -/
def unsortedAfterOne : BatchState := (body_FIFO (init_FIFO unsortedRegistry)).1

/-- What the three loops maintain on a registry of one process that arrives
at `arr ≥ 0` with burst `cpu`: the process is waiting and the clock has not
passed its arrival, or it is running and has been since its arrival, or it
completed at `arr + cpu`. -/
def SingleOk (arr cpu : Int) (ps : List Process) (t c : Int) (q : List Nat)
    (r : Option Nat) : Prop :=
  ∃ p, ps = [p] ∧ p.arrivalTime = arr ∧ p.totalCpuTime = cpu ∧
    ((p.completionTime = -1 ∧ p.active = false ∧ p.remainingCpuTime = cpu ∧ t ≤ arr ∧
        c = 0 ∧ q = [] ∧ r = none) ∨
     (p.completionTime = -1 ∧ p.active = true ∧ 1 ≤ p.remainingCpuTime ∧
        t = arr + (cpu - p.remainingCpuTime) ∧ c = 0 ∧ q = [] ∧ r = some 0) ∨
     (p.completionTime = arr + cpu ∧ p.turnaroundTime = cpu ∧ c = 1))

/-! ## geminiversion.cpp : generateProcesses -/

/-- The random source of `generateProcesses`: the state of the engine `gen`,
the draw `arrival_dist(gen)` and the draw
`static_cast<int>(std::round(cpu_dist(gen)))`, each with the state it leaves
the engine in. -/
structure RandomSource (γ : Type) where
  gen : γ
  drawArrival : γ → Int × γ
  drawRoundedCpu : γ → Int × γ

/-- One turn of the loop of `generateProcesses` (lines 60-63): the vector and
the engine after the turn for index `i`. -/
def generateStep {γ : Type} (src : RandomSource γ) (st : List Process × γ) (i : Nat) :
    List Process × γ :=
  let a := src.drawArrival st.2
  let c := src.drawRoundedCpu a.2
  (st.1 ++ [Process.create i a.1 (max 1 c.1)], c.2)

/-- The function `generateProcesses(n, k, d, v, gen)`; the distribution
parameters `k`, `d`, `v` are part of the draws of the random source. -/
def generateProcesses {γ : Type} (n : Int) (src : RandomSource γ) : List Process :=
  ((List.range n.toNat).foldl (generateStep src) ([], src.gen)).1

/-- The state of the engine when turn `i` of the loop starts. -/
def engineAt {γ : Type} (src : RandomSource γ) : Nat → γ
  | 0 => src.gen
  | i + 1 => (src.drawRoundedCpu (src.drawArrival (engineAt src i)).2).2

/-- The arrival time drawn in turn `i`. -/
def arrivalAt {γ : Type} (src : RandomSource γ) (i : Nat) : Int :=
  (src.drawArrival (engineAt src i)).1

/-- The rounded burst sample drawn in turn `i`. -/
def roundedCpuAt {γ : Type} (src : RandomSource γ) (i : Nat) : Int :=
  (src.drawRoundedCpu (src.drawArrival (engineAt src i)).2).1

/-- The process that `simulateFIFO` takes from the front of the ready queue in
the iteration that starts in state `s`, if the queue is not empty after the
arrivals. -/
def chosenFIFO (s : FIFOState) : Option Nat :=
  (admitFIFO s.processes s.readyQueue s.currentTime).2.head?

/-- The sum of the turnaround times of the processes that have a completion
time. -/
def completedTurnaround (ps : List Process) : ℚ :=
  ((ps.filter (fun p => decide (p.completionTime ≠ -1))).map
    (fun p => (p.turnaroundTime : ℚ))).sum

/-- The number of processes that have a completion time. -/
def completedCount (ps : List Process) : Int :=
  ((ps.filter (fun p => decide (p.completionTime ≠ -1))).length : Int)

/-- The state of `simulateSRT` on the scenario registry after three
iterations, when P2 has just completed. -/
def scenarioAfterThreeSRT : SimState :=
  (bodySRT 3 (bodySRT 3 (bodySRT 3 (initSim scenario)).1).1).1

/-- The vector of `simulateSJF` when the idle branch is reached in the
iteration that starts in state `s`: the arrivals have been admitted. -/
def afterArrivalsSJF (s : SimState) : List Process :=
  (admitSJF s.processes s.readyQueue s.runningProcess s.currentTime).1

/-- The vector of `simulateSRT` when the idle branch is reached in the
iteration that starts in state `s`: the arrivals have been admitted. -/
def afterArrivalsSRT (s : SimState) : List Process :=
  (admitSRT s.processes s.readyQueue s.runningProcess s.currentTime).1

/-- A registry whose only process arrives at time 2, so that the simulators
start idle. -/
def lateArrival : List Process := [Process.create 0 2 1]

/-- What a non-preemptive loop (`simulateFIFO`, `simulateSJF`) maintains on
the vector `ps` at time `t` with running process `r`: a process that is
neither complete nor running has not run at all; the running process started,
at `t - (totalCpuTime - remainingCpuTime)`, after every completion so far; and
the execution intervals of two complete processes do not overlap. -/
structure NonPreempt (ps : List Process) (t : Int) (r : Option Nat) : Prop where
  fresh : ∀ i, i < ps.length → (deref ps i).completionTime = -1 → r ≠ some i →
    (deref ps i).remainingCpuTime = (deref ps i).totalCpuTime
  after : ∀ k, r = some k → ∀ j, j < ps.length → (deref ps j).completionTime ≠ -1 →
    (deref ps j).completionTime ≤
      t - ((deref ps k).totalCpuTime - (deref ps k).remainingCpuTime)
  apart : ∀ i j, i < ps.length → j < ps.length → i ≠ j →
    (deref ps i).completionTime ≠ -1 → (deref ps j).completionTime ≠ -1 →
    (deref ps i).completionTime ≤ (deref ps j).completionTime - (deref ps j).totalCpuTime ∨
    (deref ps j).completionTime ≤ (deref ps i).completionTime - (deref ps i).totalCpuTime

/-- The process `p`, selected at time `start`, is running since then, or has
completed at `start + totalCpuTime`. -/
def Tracked (p : Nat) (start : Int) (ps : List Process) (t : Int) (r : Option Nat) : Prop :=
  (r = some p ∧ (deref ps p).completionTime = -1 ∧
    t - ((deref ps p).totalCpuTime - (deref ps p).remainingCpuTime) = start) ∨
  ((deref ps p).completionTime ≠ -1 ∧
    (deref ps p).completionTime = start + (deref ps p).totalCpuTime)

/-! ## SchedulingAlgorithms.cpp : simulate_SJF and simulate_SRT -/

/-- One turn of the scan of `simulate_SJF` (lines 70-75): the pair
`(idx, min_time)`, with `none` for `-1`. -/
def scanStep_SJF (s : BatchState) (acc : Option Nat × Int) (i : Nat) : Option Nat × Int :=
  if s.finished.getD i false = false ∧ (s.procs.getD i default).arrival ≤ s.t ∧
      (s.procs.getD i default).total < acc.2 then
    (some i, (s.procs.getD i default).total)
  else acc

/-- The scan of `simulate_SJF`: the first index of a least `total` among the
processes that are not finished and have arrived. -/
def scan_SJF (s : BatchState) : Option Nat × Int :=
  (List.range s.procs.length).foldl (scanStep_SJF s) (none, INT_MAX)

/-- The body of the outer loop of `simulate_SJF` (lines 68-83); it has no
`break`. -/
def body_SJF (s : BatchState) : BatchState × Bool :=
  match (scan_SJF s).1 with
  | none => ({ s with t := s.t + 1 }, false)
  | some idx =>
    let b := runBurst (s.procs.getD idx default).remaining.toNat (s.procs.getD idx default) s.t
    ({ procs := s.procs.set idx { b.1 with turnaround := b.2 - b.1.arrival },
       t := b.2, finished := s.finished.set idx true }, false)

/-- The outer loop of `simulate_SJF`. -/
def loop_SJF (fuel : Nat) (procs : List BatchProcess) : Option BatchState :=
  runLoop unfinished body_SJF fuel (init_FIFO procs)

/-- The value `ATT` that the simulators of SchedulingAlgorithms.cpp print from
the final vector: the sum of the turnaround times divided by `n`.  For `n = 0`
the C++ value is `0.0 / 0`, a NaN, which the rationals do not have; the
theorems about `batchATT` take a non-empty vector. -/
def batchATT (n : Nat) (procs : List BatchProcess) : ℚ :=
  (procs.foldl (fun acc p => acc + (p.turnaround : ℚ)) 0) / (n : ℚ)

/-- The value `ATT` that `simulate_SJF` prints. -/
def simulate_SJF (fuel : Nat) (procs : List BatchProcess) : Option ℚ :=
  (loop_SJF fuel procs).map (fun s => batchATT procs.length s.procs)

/-- One turn of the scan of `simulate_SRT` (lines 101-106): the pair
`(idx, min_remaining)`. -/
def scanStep_SRT (s : BatchState) (acc : Option Nat × Int) (i : Nat) : Option Nat × Int :=
  if s.finished.getD i false = false ∧ (s.procs.getD i default).arrival ≤ s.t ∧
      (s.procs.getD i default).remaining < acc.2 ∧
      (s.procs.getD i default).remaining > 0 then
    (some i, (s.procs.getD i default).remaining)
  else acc

/-- The scan of `simulate_SRT`. -/
def scan_SRT (s : BatchState) : Option Nat × Int :=
  (List.range s.procs.length).foldl (scanStep_SRT s) (none, INT_MAX)

/-- The body of the loop of `simulate_SRT` (lines 99-114); it has no
`break`.  The clock `t` is computed in `Int`: the definition follows the
source while `t` is at most `INT_MAX`, which `BatchInRange` states of a
run. -/
def body_SRT (s : BatchState) : BatchState × Bool :=
  match (scan_SRT s).1 with
  | none => ({ s with t := s.t + 1 }, false)
  | some idx =>
    let p := { s.procs.getD idx default with
      remaining := (s.procs.getD idx default).remaining - 1 }
    if p.remaining = 0 then
      ({ procs := s.procs.set idx { p with turnaround := s.t + 1 - p.arrival },
         t := s.t + 1, finished := s.finished.set idx true }, false)
    else
      ({ procs := s.procs.set idx p, t := s.t + 1, finished := s.finished }, false)

/-- The loop of `simulate_SRT`. -/
def loop_SRT (fuel : Nat) (procs : List BatchProcess) : Option BatchState :=
  runLoop unfinished body_SRT fuel (init_FIFO procs)

/-- The value `ATT` that `simulate_SRT` prints. -/
def simulate_SRT (fuel : Nat) (procs : List BatchProcess) : Option ℚ :=
  (loop_SRT fuel procs).map (fun s => batchATT procs.length s.procs)

/-- The registry of geminiversion.cpp whose process at position `i` has the id
`i`, the arrival `jobs[i].1` and the burst `jobs[i].2`. -/
def registryOf (jobs : List (Int × Int)) : List Process :=
  (List.range jobs.length).map
    (fun (i : Nat) => Process.create (i : Int) (jobs.getD i (0, 0)).1 (jobs.getD i (0, 0)).2)

/-- The registry of SchedulingAlgorithms.cpp with the same jobs, as
`generate_processes` lays it out. -/
def batchRegistryOf (jobs : List (Int × Int)) : List BatchProcess :=
  (List.range jobs.length).map
    (fun (i : Nat) => BatchProcess.generated (i : Int) (jobs.getD i (0, 0)).1 (jobs.getD i (0, 0)).2)

/-! ## The makespan of a work-conserving schedule -/

/-- The processor time that the processes of `ps` still need. -/
def workLeft (ps : List Process) : Int :=
  ∑ i in Finset.range ps.length, (deref ps i).remainingCpuTime

/-- The processor time still needed by the processes that arrive at `a` or
later. -/
def tailWork (ps : List Process) (a : Int) : Int :=
  ∑ i in Finset.range ps.length,
    if a ≤ (deref ps i).arrivalTime then (deref ps i).remainingCpuTime else 0

/-- The time at which a processor that is never idle while work is waiting
finishes the work of `ps`, when it is free at time `t`: the largest of
`t + workLeft` and, for each process, its arrival plus the work that arrives
no earlier. It does not depend on the order of service. -/
def makespan (ps : List Process) (t : Int) : Int :=
  (List.range ps.length).foldl
    (fun m i => max m ((deref ps i).arrivalTime + tailWork ps (deref ps i).arrivalTime))
    (t + workLeft ps)

/-- The value `M` is the makespan of `ps` from time `t`. -/
structure IsMakespan (ps : List Process) (t M : Int) : Prop where
  base_le : t + workLeft ps ≤ M
  term_le : ∀ i, i < ps.length →
    (deref ps i).arrivalTime + tailWork ps (deref ps i).arrivalTime ≤ M
  attained : M = t + workLeft ps ∨ ∃ i, i < ps.length ∧
    M = (deref ps i).arrivalTime + tailWork ps (deref ps i).arrivalTime

/-- When every process has a completion time, one of them completed at the
current time `t`. -/
def LastAt (ps : List Process) (t : Int) : Prop :=
  (∀ i, i < ps.length → (deref ps i).completionTime ≠ -1) →
    ∃ i, i < ps.length ∧ (deref ps i).completionTime = t

/-! ## The two sources side by side -/

/-- A state of a simulator of SchedulingAlgorithms.cpp describes the same
point of the same schedule as the vector `gps` of geminiversion.cpp at time
`gt`: same clock, same arrivals, bursts and remaining times, `finished[i]`
exactly when process `i` has a completion time, and the same turnaround for
the processes that have one. -/
structure SameRun (gps : List Process) (gt : Int) (bs : BatchState) : Prop where
  time : bs.t = gt
  len_procs : bs.procs.length = gps.length
  len_fin : bs.finished.length = gps.length
  arrival : ∀ i, i < gps.length →
    (bs.procs.getD i default).arrival = (deref gps i).arrivalTime
  total : ∀ i, i < gps.length →
    (bs.procs.getD i default).total = (deref gps i).totalCpuTime
  remaining : ∀ i, i < gps.length →
    (bs.procs.getD i default).remaining = (deref gps i).remainingCpuTime
  finished : ∀ i, i < gps.length →
    (bs.finished.getD i false = true ↔ (deref gps i).completionTime ≠ -1)
  turnaround : ∀ i, i < gps.length → (deref gps i).completionTime ≠ -1 →
    (bs.procs.getD i default).turnaround = (deref gps i).turnaroundTime

/-- The process at position `i` is eligible for the scan of `simulate_SRT`. -/
def Eligible_SRT (s : BatchState) (i : Nat) : Prop :=
  s.finished.getD i false = false ∧ (s.procs.getD i default).arrival ≤ s.t ∧
    0 < (s.procs.getD i default).remaining

/-- The process at position `i` is eligible for the scan of `simulate_SJF`. -/
def Eligible_SJF (s : BatchState) (i : Nat) : Prop :=
  s.finished.getD i false = false ∧ (s.procs.getD i default).arrival ≤ s.t

/-- The vector `ps2` is `ps` after the process at position `r` has been served
to completion at time `T`: the other processes differ at most in `active`. -/
structure Served (ps ps2 : List Process) (r : Nat) (T : Int) : Prop where
  len : ps2.length = ps.length
  others : ∀ i, i ≠ r → ∃ b, deref ps2 i = { deref ps i with active := b }
  arrival : (deref ps2 r).arrivalTime = (deref ps r).arrivalTime
  total : (deref ps2 r).totalCpuTime = (deref ps r).totalCpuTime
  remaining : (deref ps2 r).remainingCpuTime = 0
  completion : (deref ps2 r).completionTime = T
  turnaround : (deref ps2 r).turnaroundTime = T - (deref ps r).arrivalTime

/-! ## Work in the system over time -/

/-- The work in the system at time `t`, each process counted for at most `θ`
units: the sum over the processes that have arrived of `min(rem, θ)`.  For
`θ = 1` it is the number of processes that have arrived and are not
complete. -/
def capSum (n : Nat) (arr rem : Nat → Int) (t θ : Int) : Int :=
  ∑ i in Finset.range n, if arr i ≤ t then min (rem i) θ else 0

/-- The schedule of the registry fits the range of `int`: no arrival is
negative, and the makespan of the registry from time 0, which is the largest
value that the clock of a simulator called with `n` at most the size takes, is
at most `INT_MAX`. -/
def NoOverflow (ps : List Process) : Prop :=
  (∀ p ∈ ps, 0 ≤ p.arrivalTime) ∧ makespan ps 0 ≤ INT_MAX

/-- The clock `t` and the times stored in the vector `ps` are values of a
32-bit `int`, and none but the sentinel `-1` is negative. -/
structure IntRange (ps : List Process) (t : Int) : Prop where
  clock : 0 ≤ t ∧ t ≤ INT_MAX
  completion : ∀ p ∈ ps, -1 ≤ p.completionTime ∧ p.completionTime ≤ INT_MAX
  turnaround : ∀ p ∈ ps, -1 ≤ p.turnaroundTime ∧ p.turnaroundTime ≤ INT_MAX

/-- Every state at the head of an iteration of `simulateFIFO(ps, n)`, the one
in which the loop is left included, is in the range of `int`. -/
def FIFOInRange (ps : List Process) (n : Int) : Prop :=
  ∀ (k : Nat) (s : FIFOState),
    iterLoop (fun s => decide (s.completedProcesses < n)) (bodyFIFO n) k (initFIFO ps) = some s →
    IntRange s.processes s.currentTime

/-- Every state at the head of an iteration of `simulateSJF(ps, n)` is in the
range of `int`. -/
def SJFInRange (ps : List Process) (n : Int) : Prop :=
  ∀ (k : Nat) (s : SimState),
    iterLoop (fun s => decide (s.completedProcesses < n)) (bodySJF n) k (initSim ps) = some s →
    IntRange s.processes s.currentTime

/-- Every state at the head of an iteration of `simulateSRT(ps, n)` is in the
range of `int`. -/
def SRTInRange (ps : List Process) (n : Int) : Prop :=
  ∀ (k : Nat) (s : SimState),
    iterLoop (fun s => decide (s.completedProcesses < n)) (bodySRT n) k (initSim ps) = some s →
    IntRange s.processes s.currentTime

/-- The clock `t` of a simulator of SchedulingAlgorithms.cpp, whose loop body
is `body`, is in the range of `int` at the head of every iteration. -/
def BatchInRange (body : BatchState → BatchState × Bool) (procs : List BatchProcess) : Prop :=
  ∀ (k : Nat) (s : BatchState),
    iterLoop unfinished body k (init_FIFO procs) = some s → 0 ≤ s.t ∧ s.t ≤ INT_MAX

/-! ## Theorems -/

theorem deref_set (ps : List Process) (i j : Nat) (v : Process) :
    deref (ps.set i v) j = if j = i ∧ i < ps.length then v else deref ps j := by
  unfold deref
  by_cases h : j = i
  · subst h
    by_cases hl : j < ps.length
    · simp [hl, List.getD_eq_getElem?_getD]
    · have h1 : ps.length ≤ j := by omega
      have h2 : (ps.set j v).length ≤ j := by simpa using h1
      simp [hl, List.getD_eq_getElem?_getD, List.getElem?_eq_none h1,
        List.getElem?_eq_none h2]
  · have h' : i ≠ j := fun e => h e.symm
    simp [h, List.getD_eq_getElem?_getD, List.getElem?_set_ne h']

theorem mem_iff_deref (ps : List Process) (p : Process) :
    p ∈ ps ↔ ∃ i, i < ps.length ∧ deref ps i = p := by
  unfold deref
  constructor
  · intro h
    obtain ⟨i, hi, e⟩ := List.getElem_of_mem h
    exact ⟨i, hi, by simp [List.getD_eq_getElem?_getD, List.getElem?_eq_getElem hi, e]⟩
  · rintro ⟨i, hi, e⟩
    rw [← e]
    simp [List.getD_eq_getElem?_getD, List.getElem?_eq_getElem hi]

theorem runLoop_terminates {σ : Type} (guard : σ → Bool) (body : σ → σ × Bool)
    (I : σ → Prop) (μ : σ → Nat)
    (hstep : ∀ s, I s → guard s = true →
      (body s).2 = false ∧ I (body s).1 ∧ μ (body s).1 < μ s) :
    ∀ (m : Nat) (s : σ), I s → μ s < m →
      ∃ s', runLoop guard body m s = some s' ∧ I s' ∧ guard s' = false := by
  intro m
  induction m with
  | zero => intro s _ h; omega
  | succ m ih =>
    intro s hI hμ
    by_cases hg : guard s = true
    · obtain ⟨hb, hI', hlt⟩ := hstep s hI hg
      obtain ⟨s', hs', h1, h2⟩ := ih (body s).1 hI' (by omega)
      exact ⟨s', by simp [runLoop, hg, hb, hs'], h1, h2⟩
    · exact ⟨s, by simp [runLoop, hg], hI, by simpa using hg⟩

theorem runLoop_invariant {σ : Type} (guard : σ → Bool) (body : σ → σ × Bool)
    (I : σ → Prop) (hstep : ∀ s, I s → guard s = true → I (body s).1) :
    ∀ (m : Nat) (s s' : σ), I s → runLoop guard body m s = some s' → I s' := by
  intro m
  induction m with
  | zero => intro s s' _ h; simp [runLoop] at h
  | succ m ih =>
    intro s s' hI h
    by_cases hg : guard s = true
    · by_cases hb : (body s).2 = true
      · simp [runLoop, hg, hb] at h
        rw [← h]; exact hstep s hI hg
      · simp [runLoop, hg, hb] at h
        exact ih _ _ (hstep s hI hg) h
    · simp [runLoop, hg] at h
      rw [← h]; exact hI

theorem iterLoop_invariant {σ : Type} (guard : σ → Bool) (body : σ → σ × Bool)
    (I : σ → Prop) (hstep : ∀ s, I s → guard s = true → I (body s).1) :
    ∀ (k : Nat) (s s' : σ), I s → iterLoop guard body k s = some s' → I s' := by
  intro k
  induction k with
  | zero => intro s s' hI h; simp [iterLoop] at h; rw [← h]; exact hI
  | succ k ih =>
    intro s s' hI h
    by_cases hg : guard s = true
    · by_cases hb : (body s).2 = true
      · simp [iterLoop, hg, hb] at h
      · simp [iterLoop, hg, hb] at h
        exact ih _ _ (hstep s hI hg) h
    · simp [iterLoop, hg] at h

theorem runLoop_mono {σ : Type} (guard : σ → Bool) (body : σ → σ × Bool) :
    ∀ (m k : Nat) (s s' : σ), runLoop guard body m s = some s' →
      runLoop guard body (m + k) s = some s' := by
  intro m
  induction m with
  | zero => intro k s s' h; simp [runLoop] at h
  | succ m ih =>
    intro k s s' h
    have e : m + 1 + k = (m + k) + 1 := by omega
    rw [e]
    by_cases hg : guard s = true
    · by_cases hb : (body s).2 = true
      · simp [runLoop, hg, hb] at h ⊢
        exact h
      · simp [runLoop, hg, hb] at h ⊢
        exact ih _ _ _ h
    · simp [runLoop, hg] at h ⊢
      exact h

theorem Inv_init (ps0 : List Process) (hf : Fresh ps0) (hr : InIntRange ps0)
    (hc : ∀ p ∈ ps0, 1 ≤ p.totalCpuTime) : Inv ps0 ps0 0 0 [] none := by
  have key : ∀ i, i < ps0.length → deref ps0 i ∈ ps0 := fun i hi =>
    (mem_iff_deref ps0 _).2 ⟨i, hi, rfl⟩
  refine ⟨rfl, le_refl _, by simp, List.nodup_nil, by simp, ?_, ?_⟩
  · intro i hi
    have hm := key i hi
    have e := hf _ hm
    have h1 := hr _ hm
    have h2 := hc _ hm
    generalize deref ps0 i = p at *
    rcases p with ⟨pid, a, tot, rem, comp, ta, act⟩
    simp only [Process.create, Process.mk.injEq, true_and] at e
    obtain ⟨e1, e2, e3, e4⟩ := e
    subst e1 e2 e3 e4
    constructor <;> simp_all
  · symm
    apply Finset.sum_eq_zero
    intro i hi
    have e := hf _ (key i (by simpa using hi))
    rw [e]; simp [Process.create]

theorem Inv_activate {ps0 ps : List Process} {t c : Int} {q q' : List Nat} {r : Option Nat}
    (h : Inv ps0 ps t c q r) (k : Nat) (hk : k < ps.length)
    (ha : (deref ps k).active = false) (harr : (deref ps k).arrivalTime ≤ t)
    (hc : (deref ps k).completionTime = -1) (hq : q'.Perm (q ++ [k])) :
    Inv ps0 (ps.set k { deref ps k with active := true }) t c q' r := by
  have P := h.procs k hk
  have hkq : ¬ (k ∈ q ∨ r = some k) := by
    intro hb; have := P.active_iff.2 hb; simp [ha] at this
  have hmem : ∀ i, i ∈ q' ↔ (i ∈ q ∨ i = k) := by
    intro i; rw [hq.mem_iff]; simp
  refine ⟨by simpa using h.len, h.time_nonneg, ?_, ?_, ?_, ?_, ?_⟩
  · intro i hi
    rcases (hmem i).1 hi with h1 | h1
    · simpa using h.q_valid i h1
    · simpa [h1] using hk
  · rw [hq.nodup_iff]
    rw [List.nodup_append]
    refine ⟨h.q_nodup, List.nodup_singleton _, ?_⟩
    intro a ha1 ha2
    simp at ha2; subst ha2
    exact hkq (Or.inl ha1)
  · intro i hi
    obtain ⟨h1, h2⟩ := h.r_valid i hi
    refine ⟨by simpa using h1, ?_⟩
    rw [hmem]
    rintro (h3 | h3)
    · exact h2 h3
    · subst h3; exact hkq (Or.inr hi)
  · intro i hi
    have hi' : i < ps.length := by simpa using hi
    rw [deref_set]
    by_cases e : i = k
    · subst e
      simp only [hk, and_self, if_true]
      have Q := P
      constructor <;> first
        | exact Q.id_eq | exact Q.arr_eq | exact Q.tot_eq | exact Q.tot_pos | exact Q.arr_le
        | exact Q.rem_le | exact Q.pend_rem | exact Q.pend_ta | exact Q.done_rem
        | exact Q.done_ta | exact Q.done_ge | exact Q.done_le | exact Q.done_pos
        | skip
      · simp [hmem]
      · simp
      · intro _ _
        have := Q.rem_le
        have := Q.pend_idle hc ha
        show (deref ps i).arrivalTime + ((deref ps i).totalCpuTime - (deref ps i).remainingCpuTime) ≤ t
        omega
      · intro h1; exact absurd hc h1
    · simp only [e, false_and, if_false]
      have Q := h.procs i hi'
      have hb : (i ∈ q' ∨ r = some i) ↔ (i ∈ q ∨ r = some i) := by
        rw [hmem]; simp [e]
      exact ⟨Q.id_eq, Q.arr_eq, Q.tot_eq, Q.tot_pos, Q.arr_le, by rw [hb]; exact Q.active_iff,
        Q.rem_le, Q.pend_rem, Q.pend_ta, Q.pend_idle, Q.pend_busy, Q.done_rem, Q.done_idle,
        Q.done_ta, Q.done_ge, Q.done_le, Q.done_pos⟩
  · rw [h.count]
    simp only [List.length_set]
    apply Finset.sum_congr rfl
    intro i _
    rw [deref_set]
    by_cases e : i = k
    · simp [e, hk]
    · simp [e]
theorem ProcInv.weaken {t t' : Int} {p0 p : Process} {b b' : Prop}
    (Q : ProcInv t p0 p b) (ht : t ≤ t') (hb : b' ↔ b) : ProcInv t' p0 p b' :=
  ⟨Q.id_eq, Q.arr_eq, Q.tot_eq, Q.tot_pos, Q.arr_le, Q.active_iff.trans hb.symm,
    Q.rem_le, Q.pend_rem, Q.pend_ta, Q.pend_idle,
    fun h1 h2 => le_trans (Q.pend_busy h1 h2) ht,
    Q.done_rem, Q.done_idle, Q.done_ta, Q.done_ge,
    fun h1 => le_trans (Q.done_le h1) ht, Q.done_pos⟩

theorem Inv_rebusy {ps0 ps : List Process} {t t' c : Int} {q q' : List Nat}
    {r r' : Option Nat} (h : Inv ps0 ps t c q r)
    (hb : ∀ i, (i ∈ q' ∨ r' = some i) ↔ (i ∈ q ∨ r = some i))
    (hn : q'.Nodup) (hr : ∀ i, r' = some i → i ∉ q') (ht : t ≤ t') :
    Inv ps0 ps t' c q' r' := by
  have valid : ∀ i, (i ∈ q ∨ r = some i) → i < ps.length := by
    rintro i (h1 | h1)
    · exact h.q_valid i h1
    · exact (h.r_valid i h1).1
  refine ⟨h.len, le_trans h.time_nonneg ht, ?_, hn, ?_, ?_, h.count⟩
  · intro i hi
    exact valid i ((hb i).1 (Or.inl hi))
  · intro i hi
    exact ⟨valid i ((hb i).1 (Or.inr hi)), hr i hi⟩
  · intro i hi
    exact (h.procs i hi).weaken ht (hb i)

theorem Inv_perm {ps0 ps : List Process} {t c : Int} {q q' : List Nat} {r : Option Nat}
    (h : Inv ps0 ps t c q r) (hq : q'.Perm q) : Inv ps0 ps t c q' r := by
  refine Inv_rebusy h (fun i => by rw [hq.mem_iff]) (hq.nodup_iff.2 h.q_nodup) ?_ (le_refl _)
  intro i hi
  rw [hq.mem_iff]
  exact (h.r_valid i hi).2

theorem Inv_time {ps0 ps : List Process} {t t' c : Int} {q : List Nat} {r : Option Nat}
    (h : Inv ps0 ps t c q r) (ht : t ≤ t') : Inv ps0 ps t' c q r :=
  Inv_rebusy h (fun _ => Iff.rfl) h.q_nodup (fun i hi => (h.r_valid i hi).2) ht

theorem Inv_requeue {ps0 ps : List Process} {t c : Int} {q : List Nat} {r : Option Nat}
    (h : Inv ps0 ps t c q r) : Inv ps0 ps t c (requeueSRT q r) none := by
  cases r with
  | none => exact h
  | some k =>
    have hk := (h.r_valid k rfl).2
    refine Inv_rebusy h ?_ ?_ (by simp) (le_refl _)
    · intro i
      simp only [requeueSRT, List.mem_append, List.mem_singleton, Option.some.injEq]
      constructor
      · rintro ((h1 | h1) | h1)
        · exact Or.inl h1
        · exact Or.inr h1.symm
        · simp at h1
      · rintro (h1 | h1)
        · exact Or.inl (Or.inl h1)
        · exact Or.inl (Or.inr h1.symm)
    · simp only [requeueSRT]
      rw [List.nodup_append]
      refine ⟨h.q_nodup, List.nodup_singleton _, ?_⟩
      intro a ha1 ha2
      simp at ha2; subst ha2
      exact hk ha1

theorem Inv_select {ps0 ps : List Process} {t c : Int} {k : Nat} {q : List Nat}
    (h : Inv ps0 ps t c (k :: q) none) : Inv ps0 ps t c q (some k) := by
  have hn := h.q_nodup
  rw [List.nodup_cons] at hn
  refine Inv_rebusy h ?_ hn.2 ?_ (le_refl _)
  · intro i
    simp only [List.mem_cons, Option.some.injEq]
    constructor
    · rintro (h1 | h1)
      · exact Or.inl (Or.inr h1)
      · exact Or.inl (Or.inl h1.symm)
    · rintro ((h1 | h1) | h1)
      · exact Or.inr h1.symm
      · exact Or.inl h1
      · simp at h1
  · intro i hi
    simp only [Option.some.injEq] at hi
    subst hi; exact hn.1

theorem sum_range_update (f g : Nat → Int) (n k : Nat) (hk : k < n)
    (h : ∀ i, i ≠ k → g i = f i) :
    ∑ i in Finset.range n, g i = ∑ i in Finset.range n, f i - f k + g k := by
  have hm : k ∈ Finset.range n := by simpa using hk
  rw [← Finset.add_sum_erase _ g hm, ← Finset.add_sum_erase _ f hm]
  have : ∑ x in (Finset.range n).erase k, g x = ∑ x in (Finset.range n).erase k, f x := by
    apply Finset.sum_congr rfl
    intro i hi
    exact h i (Finset.mem_erase.1 hi).1
  rw [this]; omega

theorem Inv_progress {ps0 ps : List Process} {t c : Int} {k : Nat} {q : List Nat}
    (h : Inv ps0 ps t c q (some k))
    (hrem : (deref ps k).remainingCpuTime - 1 ≠ 0) :
    Inv ps0 (ps.set k { deref ps k with
      remainingCpuTime := (deref ps k).remainingCpuTime - 1 }) (t + 1) c q (some k) := by
  have hk := (h.r_valid k rfl).1
  have P := h.procs k hk
  have hact : (deref ps k).active = true := P.active_iff.2 (Or.inr rfl)
  have hpend : (deref ps k).completionTime = -1 := by
    by_contra hne
    have := P.done_idle hne
    simp [hact] at this
  refine ⟨by simpa using h.len, by have := h.time_nonneg; omega, ?_, h.q_nodup, ?_, ?_, ?_⟩
  · intro i hi; simpa using h.q_valid i hi
  · intro i hi
    obtain ⟨h1, h2⟩ := h.r_valid i hi
    exact ⟨by simpa using h1, h2⟩
  · intro i hi
    have hi' : i < ps.length := by simpa using hi
    rw [deref_set]
    by_cases e : i = k
    · subst e
      simp only [hk, and_self, if_true]
      have h1 := P.pend_rem hpend
      have h2 := P.rem_le
      have h3 := P.pend_busy hpend hact
      refine ⟨P.id_eq, P.arr_eq, P.tot_eq, P.tot_pos, P.arr_le, ?_, ?_, ?_, P.pend_ta,
        ?_, ?_, ?_, P.done_idle, P.done_ta, P.done_ge, ?_, P.done_pos⟩
      · exact ⟨fun _ => Or.inr trivial, fun _ => hact⟩
      · show (deref ps i).remainingCpuTime - 1 ≤ (deref ps i).totalCpuTime
        omega
      · intro _
        show 1 ≤ (deref ps i).remainingCpuTime - 1
        omega
      · intro _ h4
        simp [hact] at h4
      · intro _ _
        show (deref ps i).arrivalTime +
          ((deref ps i).totalCpuTime - ((deref ps i).remainingCpuTime - 1)) ≤ t + 1
        omega
      · intro h4; exact absurd hpend h4
      · intro h4; exact absurd hpend h4
    · simp only [e, false_and, if_false]
      exact (h.procs i hi').weaken (by omega) Iff.rfl
  · rw [h.count]
    simp only [List.length_set]
    apply Finset.sum_congr rfl
    intro i _
    rw [deref_set]
    by_cases e : i = k
    · simp [e, hk]
    · simp [e]

theorem Inv_complete {ps0 ps : List Process} {t t' c : Int} {k : Nat} {q : List Nat}
    (h : Inv ps0 ps t c q (some k)) (ht : t < t')
    (hge : (deref ps k).arrivalTime + (deref ps k).totalCpuTime ≤ t') :
    Inv ps0 (ps.set k ((deref ps k).complete t')) t' (c + 1) q none := by
  have hk := (h.r_valid k rfl).1
  have hkq := (h.r_valid k rfl).2
  have P := h.procs k hk
  have hact : (deref ps k).active = true := P.active_iff.2 (Or.inr rfl)
  have hpend : (deref ps k).completionTime = -1 := by
    by_contra hne
    have := P.done_idle hne
    simp [hact] at this
  have h0 := h.time_nonneg
  refine ⟨by simpa using h.len, by omega, ?_, h.q_nodup, by simp, ?_, ?_⟩
  · intro i hi; simpa using h.q_valid i hi
  · intro i hi
    have hi' : i < ps.length := by simpa using hi
    rw [deref_set]
    by_cases e : i = k
    · subst e
      simp only [hk, and_self, if_true]
      have hne : (-1 : Int) ≠ t' := by omega
      have hne' : t' ≠ (-1 : Int) := by omega
      refine ⟨P.id_eq, P.arr_eq, P.tot_eq, P.tot_pos, P.arr_le, ?_, ?_, ?_, ?_,
        ?_, ?_, ?_, ?_, ?_, ?_, ?_, ?_⟩
      · simp [Process.complete, hkq]
      · have := P.tot_pos
        show (0 : Int) ≤ (deref ps i).totalCpuTime
        omega
      · intro h4; exact absurd h4 hne'
      · intro h4; exact absurd h4 hne'
      · intro h4; exact absurd h4 hne'
      · intro h4; exact absurd h4 hne'
      · intro _; rfl
      · intro _; rfl
      · intro _; rfl
      · intro _; exact hge
      · intro _; exact le_refl _
      · intro _; show 0 < t'; omega
    · simp only [e, false_and, if_false]
      refine (h.procs i hi').weaken (le_of_lt ht) ?_
      simp only [Option.some.injEq, or_false, reduceCtorEq]
      constructor
      · exact fun h1 => Or.inl h1
      · rintro (h1 | h1)
        · exact h1
        · exact absurd h1.symm e
  · rw [h.count]
    simp only [List.length_set]
    rw [sum_range_update
      (fun i => if (deref ps i).completionTime = -1 then (0 : Int) else 1)
      (fun i => if (deref (ps.set k ((deref ps k).complete t')) i).completionTime = -1
        then (0 : Int) else 1) ps.length k hk]
    · have hne' : t' ≠ (-1 : Int) := by omega
      simp [deref_set, hk, hpend, Process.complete, hne']
    · intro i hi
      simp [deref_set, hi]

theorem potential_lt {ps ps' : List Process} {t t' : Int} (hlen : ps'.length = ps.length)
    (hle : ∀ i, i < ps.length → weight t' (deref ps' i) ≤ weight t (deref ps i))
    (hlt : ∃ i, i < ps.length ∧ weight t' (deref ps' i) < weight t (deref ps i)) :
    potential ps' t' < potential ps t := by
  unfold potential
  rw [hlen]
  apply Finset.sum_lt_sum
  · intro i hi; exact hle i (by simpa using hi)
  · obtain ⟨i, hi, h⟩ := hlt
    exact ⟨i, by simpa using hi, h⟩

theorem foldl_range_induction {σ : Type} (f : σ → Nat → σ) (P : Nat → σ → Prop) (n : Nat)
    (init : σ) (h0 : P 0 init) (hs : ∀ k s, k < n → P k s → P (k + 1) (f s k)) :
    P n ((List.range n).foldl f init) := by
  have key : ∀ m, m ≤ n → P m ((List.range m).foldl f init) := by
    intro m
    induction m with
    | zero => intro _; simpa using h0
    | succ m ih =>
      intro hm
      rw [List.range_succ, List.foldl_append]
      exact hs m _ (by omega) (ih (by omega))
  exact key n (le_refl _)

theorem insertSorted_perm (lt : Nat → Nat → Bool) (x : Nat) (l : List Nat) :
    (insertSorted lt x l).Perm (x :: l) := by
  induction l with
  | nil => simp [insertSorted]
  | cons y ys ih =>
    simp only [insertSorted]
    split
    · exact List.Perm.refl _
    · exact (List.Perm.cons y ih).trans (List.Perm.swap x y ys)

theorem sortQueue_perm (comp : Process → Process → Bool) (ps : List Process) (q : List Nat) :
    (sortQueue comp ps q).Perm q := by
  induction q with
  | nil => simp [sortQueue]
  | cons x xs ih =>
    have : sortQueue comp ps (x :: xs) =
        insertSorted (fun i j => comp (deref ps i) (deref ps j)) x (sortQueue comp ps xs) := rfl
    rw [this]
    exact (insertSorted_perm _ _ _).trans (List.Perm.cons x ih)

theorem nextArrival_fold (t : Int) (l : List Process) (m : Int) (b : Bool) :
    let res := l.foldl
      (fun acc p =>
        if p.completionTime = -1 ∧ p.arrivalTime > t then (min acc.1 p.arrivalTime, true)
        else acc) (m, b)
    (res.2 = true ↔ (b = true ∨ ∃ p ∈ l, p.completionTime = -1 ∧ t < p.arrivalTime)) ∧
    res.1 ≤ m ∧
    (∀ p ∈ l, p.completionTime = -1 → t < p.arrivalTime → res.1 ≤ p.arrivalTime) ∧
    (res.1 = m ∨ ∃ p ∈ l, p.completionTime = -1 ∧ t < p.arrivalTime ∧ p.arrivalTime = res.1) := by
  induction l generalizing m b with
  | nil => simp
  | cons x xs ih =>
    simp only [List.foldl_cons]
    by_cases hx : x.completionTime = -1 ∧ x.arrivalTime > t
    · simp only [hx, and_self, if_true]
      obtain ⟨h1, h2, h3, h4⟩ := ih (min m x.arrivalTime) true
      refine ⟨?_, ?_, ?_, ?_⟩
      · rw [h1]
        simp only [true_or, true_iff]
        exact Or.inr ⟨x, List.mem_cons_self _ _, hx.1, hx.2⟩
      · exact le_trans h2 (min_le_left _ _)
      · intro p hp hc ha
        rcases List.mem_cons.1 hp with e | hp'
        · subst e; exact le_trans h2 (min_le_right _ _)
        · exact h3 p hp' hc ha
      · rcases h4 with h4 | ⟨p, hp, hc, ha, e⟩
        · rcases min_choice m x.arrivalTime with hm | hm
          · left; rw [h4, hm]
          · right
            exact ⟨x, List.mem_cons_self _ _, hx.1, hx.2, by rw [h4, hm]⟩
        · right
          exact ⟨p, List.mem_cons_of_mem _ hp, hc, ha, e⟩
    · simp only [hx, if_false]
      obtain ⟨h1, h2, h3, h4⟩ := ih m b
      refine ⟨?_, h2, ?_, ?_⟩
      · rw [h1]
        constructor
        · rintro (h | ⟨p, hp, hc, ha⟩)
          · exact Or.inl h
          · exact Or.inr ⟨p, List.mem_cons_of_mem _ hp, hc, ha⟩
        · rintro (h | ⟨p, hp, hc, ha⟩)
          · exact Or.inl h
          · rcases List.mem_cons.1 hp with e | hp'
            · subst e; exact absurd ⟨hc, ha⟩ hx
            · exact Or.inr ⟨p, hp', hc, ha⟩
      · intro p hp hc ha
        rcases List.mem_cons.1 hp with e | hp'
        · subst e; exact absurd ⟨hc, ha⟩ hx
        · exact h3 p hp' hc ha
      · rcases h4 with h4 | ⟨p, hp, hc, ha, e⟩
        · exact Or.inl h4
        · exact Or.inr ⟨p, List.mem_cons_of_mem _ hp, hc, ha, e⟩

theorem nextArrival_found (ps : List Process) (t : Int) :
    (nextArrival ps t).2 = true ↔ ∃ p ∈ ps, p.completionTime = -1 ∧ t < p.arrivalTime := by
  have h := (nextArrival_fold t ps INT_MAX false).1
  simpa [nextArrival] using h

theorem nextArrival_le (ps : List Process) (t : Int) :
    ∀ p ∈ ps, p.completionTime = -1 → t < p.arrivalTime → (nextArrival ps t).1 ≤ p.arrivalTime :=
  (nextArrival_fold t ps INT_MAX false).2.2.1

theorem nextArrival_attained (ps : List Process) (t : Int)
    (hr : ∀ p ∈ ps, p.arrivalTime ≤ INT_MAX) (hf : (nextArrival ps t).2 = true) :
    ∃ p ∈ ps, p.completionTime = -1 ∧ t < p.arrivalTime ∧
      p.arrivalTime = (nextArrival ps t).1 := by
  rcases (nextArrival_fold t ps INT_MAX false).2.2.2 with h | h
  · obtain ⟨p, hp, hc, ha⟩ := (nextArrival_found ps t).1 hf
    refine ⟨p, hp, hc, ha, ?_⟩
    have h1 := nextArrival_le ps t p hp hc ha
    have h2 := hr p hp
    have h3 : (nextArrival ps t).1 = INT_MAX := h
    omega
  · exact h

theorem count_lt_iff (ps : List Process) :
    (∑ i in Finset.range ps.length,
      (if (deref ps i).completionTime = -1 then (0 : Int) else 1)) < ps.length ↔
    ∃ i, i < ps.length ∧ (deref ps i).completionTime = -1 := by
  have hone : ∑ _i in Finset.range ps.length, (1 : Int) = ps.length := by simp
  constructor
  · intro h
    by_contra hne
    push_neg at hne
    have : ∑ i in Finset.range ps.length,
        (if (deref ps i).completionTime = -1 then (0 : Int) else 1) =
        ∑ _i in Finset.range ps.length, (1 : Int) := by
      apply Finset.sum_congr rfl
      intro i hi
      simp [hne i (by simpa using hi)]
    rw [this, hone] at h
    exact lt_irrefl _ h
  · rintro ⟨i, hi, hc⟩
    rw [← hone]
    apply Finset.sum_lt_sum
    · intro j _; split <;> simp
    · exact ⟨i, by simpa using hi, by simp [hc]⟩

theorem count_le (ps : List Process) :
    (∑ i in Finset.range ps.length,
      (if (deref ps i).completionTime = -1 then (0 : Int) else 1)) ≤ ps.length := by
  have hone : ∑ _i in Finset.range ps.length, (1 : Int) = ps.length := by simp
  rw [← hone]
  apply Finset.sum_le_sum
  intro j _; split <;> simp

/-- The arrival loops of the three simulators share one proof: a turn either
leaves the state alone, and then a pending, arrived, inactive process is
blocked by a queued id or is the running process, or it activates the process
and appends its pointer to the queue, possibly reordering the queue. -/
theorem admit_fold_with {ps0 ps : List Process} {t c : Int} {q : List Nat}
    {r : Option Nat} (E : List Process × List Nat → Prop)
    (step : List Process × List Nat → Nat → List Process × List Nat)
    (hstep : ∀ (st : List Process × List Nat) (k : Nat),
      (step st k = st ∧
        ((deref st.1 k).completionTime = -1 → (deref st.1 k).arrivalTime ≤ t →
          (deref st.1 k).active = false →
          (∃ j ∈ st.2, (deref st.1 j).id = (deref st.1 k).id) ∨ r = some k)) ∨
      ((deref st.1 k).completionTime = -1 ∧ (deref st.1 k).arrivalTime ≤ t ∧
        (deref st.1 k).active = false ∧
        ∃ q', q'.Perm (st.2 ++ [k]) ∧
          step st k = (st.1.set k { deref st.1 k with active := true }, q')))
    (h : Inv ps0 ps t c q r) (hE0 : E (ps, q))
    (hE : ∀ (st : List Process × List Nat) (k : Nat), k < ps.length →
      AdmitPost ps0 ps t c q r k st.1 st.2 → E st → E (step st k)) :
    AdmitPost ps0 ps t c q r ps.length
      ((List.range ps.length).foldl step (ps, q)).1
      ((List.range ps.length).foldl step (ps, q)).2 ∧
    E ((List.range ps.length).foldl step (ps, q)) := by
  have hlen : ∀ (k : Nat) (st : List Process × List Nat),
      AdmitPost ps0 ps t c q r k st.1 st.2 → st.1.length = ps.length := by
    intro k st hp
    rw [hp.inv.len, h.len]
  refine foldl_range_induction step
    (fun (k : Nat) (st : List Process × List Nat) =>
      AdmitPost ps0 ps t c q r k st.1 st.2 ∧ E st) ps.length (ps, q) ?_ ?_
  · exact ⟨⟨h, fun i => ⟨(deref ps i).active, rfl⟩, fun i hi => hi,
      fun i hi => absurd hi (by omega)⟩, hE0⟩
  · rintro k st hk ⟨hp, hEst⟩
    refine ⟨?_, hE st k hk hp hEst⟩
    have hkl : k < st.1.length := by rw [hlen k st hp]; exact hk
    have Pk := hp.inv.procs k hkl
    rcases hstep st k with ⟨e, hblock⟩ | ⟨hc, ha, hact, q', hq', e⟩
    · rw [e]
      refine ⟨hp.inv, hp.same, hp.sub, ?_⟩
      intro i hi hc ha
      by_cases hik : i = k
      · subst hik
        by_cases hact : (deref st.1 i).active = true
        · exact Or.inl hact
        · right
          have hact' : (deref st.1 i).active = false := by simpa using hact
          have hnb : ¬ (i ∈ st.2 ∨ r = some i) := fun hb => hact (Pk.active_iff.2 hb)
          rcases hblock hc ha hact' with ⟨j, hj, hid⟩ | hr
          · refine ⟨j, hj, ?_, hid⟩
            intro hji; subst hji
            exact hnb (Or.inl hj)
          · exact absurd (Or.inr hr) hnb
      · exact hp.admitted i (by omega) hc ha
    · rw [e]
      have hmem : ∀ i, i ∈ q' ↔ (i ∈ st.2 ∨ i = k) := by
        intro i; rw [hq'.mem_iff]; simp
      refine ⟨Inv_activate hp.inv k hkl hact ha hc hq', ?_, ?_, ?_⟩
      · intro i
        obtain ⟨b, hb⟩ := hp.same i
        show ∃ b, deref (st.1.set k _) i = _
        rw [deref_set]
        by_cases hik : i = k
        · subst hik
          simp only [hkl, and_self, if_true]
          exact ⟨true, by rw [hb]⟩
        · simp only [hik, false_and, if_false]
          exact ⟨b, hb⟩
      · intro i hi
        exact (hmem i).2 (Or.inl (hp.sub i hi))
      · intro i hi
        show (deref (st.1.set k _) i).completionTime = -1 → _
        simp only [deref_set]
        by_cases hik : i = k
        · subst hik
          simp only [hkl, and_self, if_true]
          intro _ _; exact Or.inl trivial
        · simp only [hik, false_and, if_false]
          intro hc' ha'
          rcases hp.admitted i (by omega) hc' ha' with h1 | ⟨j, hj, hji, hid⟩
          · exact Or.inl h1
          · right
            refine ⟨j, (hmem j).2 (Or.inl hj), hji, ?_⟩
            by_cases hjk : j = k
            · subst hjk
              simpa [hkl] using hid
            · simpa [hjk] using hid

theorem admit_fold {ps0 ps : List Process} {t c : Int} {q : List Nat} {r : Option Nat}
    (step : List Process × List Nat → Nat → List Process × List Nat)
    (hstep : ∀ (st : List Process × List Nat) (k : Nat),
      (step st k = st ∧
        ((deref st.1 k).completionTime = -1 → (deref st.1 k).arrivalTime ≤ t →
          (deref st.1 k).active = false →
          (∃ j ∈ st.2, (deref st.1 j).id = (deref st.1 k).id) ∨ r = some k)) ∨
      ((deref st.1 k).completionTime = -1 ∧ (deref st.1 k).arrivalTime ≤ t ∧
        (deref st.1 k).active = false ∧
        ∃ q', q'.Perm (st.2 ++ [k]) ∧
          step st k = (st.1.set k { deref st.1 k with active := true }, q')))
    (h : Inv ps0 ps t c q r) :
    AdmitPost ps0 ps t c q r ps.length
      ((List.range ps.length).foldl step (ps, q)).1
      ((List.range ps.length).foldl step (ps, q)).2 :=
  (admit_fold_with (fun _ => True) step hstep h trivial (fun _ _ _ _ _ => trivial)).1

theorem potential_same {ps ps1 : List Process} (t : Int) (hlen : ps1.length = ps.length)
    (hs : ∀ i, ∃ b, deref ps1 i = { deref ps i with active := b }) :
    potential ps1 t = potential ps t := by
  unfold potential
  rw [hlen]
  apply Finset.sum_congr rfl
  intro i _
  obtain ⟨b, e⟩ := hs i
  rw [e]
  rfl

theorem Inv.mem_arr_le {ps0 ps : List Process} {t c : Int} {q : List Nat} {r : Option Nat}
    (h : Inv ps0 ps t c q r) : ∀ p ∈ ps, p.arrivalTime ≤ INT_MAX := by
  intro p hp
  obtain ⟨i, hi, e⟩ := (mem_iff_deref ps p).1 hp
  rw [← e]
  exact (h.procs i hi).arr_le

theorem Inv.pending_of_busy {ps0 ps : List Process} {t c : Int} {q : List Nat}
    {r : Option Nat} (h : Inv ps0 ps t c q r) {i : Nat} (hi : i < ps.length)
    (hb : i ∈ q ∨ r = some i) :
    (deref ps i).active = true ∧ (deref ps i).completionTime = -1 := by
  have P := h.procs i hi
  have hact := P.active_iff.2 hb
  refine ⟨hact, ?_⟩
  by_contra hne
  have := P.done_idle hne
  simp [hact] at this

/-- The idle branch: with an empty ready queue, no running process and fewer
than `size` completions, a future arrival is found, the clock jumps to it and
the termination measure drops. -/
theorem idle_step {ps0 ps : List Process} {t c : Int} (h : Inv ps0 ps t c [] none)
    (hadm : ∀ i, i < ps.length → (deref ps i).completionTime = -1 →
      (deref ps i).arrivalTime ≤ t → (deref ps i).active = true)
    (hc : c < ps.length) :
    (nextArrival ps t).2 = true ∧ t < (nextArrival ps t).1 ∧
      Inv ps0 ps (nextArrival ps t).1 c [] none ∧
      potential ps (nextArrival ps t).1 < potential ps t := by
  have hfut : ∀ i, i < ps.length → (deref ps i).completionTime = -1 →
      t < (deref ps i).arrivalTime := by
    intro i hi hpend
    by_contra hle
    have hact := hadm i hi hpend (by omega)
    have := (h.procs i hi).active_iff.1 hact
    simp at this
  obtain ⟨i, hi, hpend⟩ := (count_lt_iff ps).1 (by rw [← h.count]; exact hc)
  have hfound : (nextArrival ps t).2 = true :=
    (nextArrival_found ps t).2
      ⟨deref ps i, (mem_iff_deref ps _).2 ⟨i, hi, rfl⟩, hpend, hfut i hi hpend⟩
  obtain ⟨p, hp, hpc, hpa, hpe⟩ := nextArrival_attained ps t h.mem_arr_le hfound
  obtain ⟨j, hj, ej⟩ := (mem_iff_deref ps p).1 hp
  have hlt : t < (nextArrival ps t).1 := by omega
  refine ⟨hfound, hlt, Inv_time h (le_of_lt hlt), ?_⟩
  apply potential_lt rfl
  · intro k _
    unfold weight
    have : (if (nextArrival ps t).1 < (deref ps k).arrivalTime then 1 else 0) ≤
        (if t < (deref ps k).arrivalTime then 1 else 0) := by
      split
      · rename_i h1
        have : t < (deref ps k).arrivalTime := by omega
        simp [this]
      · split <;> omega
    omega
  · refine ⟨j, hj, ?_⟩
    unfold weight
    rw [ej]
    have h1 : ¬ (nextArrival ps t).1 < p.arrivalTime := by omega
    simp [h1, hpa]

theorem weight_mono {t t' : Int} (p : Process) (ht : t ≤ t') : weight t' p ≤ weight t p := by
  unfold weight
  have : (if t' < p.arrivalTime then 1 else 0) ≤ (if t < p.arrivalTime then 1 else 0) := by
    split
    · rename_i h1
      have : t < p.arrivalTime := by omega
      simp [this]
    · split <;> omega
  omega

/-- The execution step of `simulateFIFO`: the head of the queue runs its whole
burst and completes. -/
theorem run_fifo_step {ps0 ps : List Process} {t c : Int} {cur : Nat} {rest : List Nat}
    (h : Inv ps0 ps t c (cur :: rest) none) :
    Inv ps0 (ps.set cur ((deref ps cur).complete (t + (deref ps cur).totalCpuTime)))
        (t + (deref ps cur).totalCpuTime) (c + 1) rest none ∧
      potential (ps.set cur ((deref ps cur).complete (t + (deref ps cur).totalCpuTime)))
        (t + (deref ps cur).totalCpuTime) < potential ps t := by
  have h' := Inv_select h
  have hk := (h'.r_valid cur rfl).1
  have P := h'.procs cur hk
  obtain ⟨hact, hpend⟩ := h'.pending_of_busy hk (Or.inr rfl)
  have h1 := P.tot_pos
  have h2 := P.rem_le
  have h3 := P.pend_busy hpend hact
  have h4 := P.pend_rem hpend
  refine ⟨Inv_complete h' (by omega) (by omega), ?_⟩
  apply potential_lt (by simp)
  · intro i _
    rw [deref_set]
    by_cases e : i = cur
    · subst e
      simp only [hk, and_self, if_true]
      unfold weight
      simp only [Process.complete]
      have : (if t + (deref ps i).totalCpuTime < (deref ps i).arrivalTime then 1 else 0) ≤
          (if t < (deref ps i).arrivalTime then 1 else 0) := by
        split
        · omega
        · split <;> omega
      omega
    · simp only [e, false_and, if_false]
      exact weight_mono _ (by omega)
  · refine ⟨cur, hk, ?_⟩
    rw [deref_set]
    simp only [hk, and_self, if_true]
    unfold weight
    simp only [Process.complete]
    have e1 : ¬ t + (deref ps cur).totalCpuTime < (deref ps cur).arrivalTime := by omega
    have e2 : ¬ t < (deref ps cur).arrivalTime := by omega
    simp only [e1, e2, if_false]
    omega

/-- One time unit of the running process, in `simulateSJF` and `simulateSRT`. -/
theorem run_unit_step {ps0 ps : List Process} {t c : Int} {q : List Nat} {r : Nat}
    (h : Inv ps0 ps t c q (some r)) :
    Inv ps0 (runUnit ps q (t + 1) c r).processes (runUnit ps q (t + 1) c r).currentTime
        (runUnit ps q (t + 1) c r).completedProcesses (runUnit ps q (t + 1) c r).readyQueue
        (runUnit ps q (t + 1) c r).runningProcess ∧
      potential (runUnit ps q (t + 1) c r).processes (runUnit ps q (t + 1) c r).currentTime <
        potential ps t := by
  have hk := (h.r_valid r rfl).1
  have P := h.procs r hk
  obtain ⟨hact, hpend⟩ := h.pending_of_busy hk (Or.inr rfl)
  have h1 := P.tot_pos
  have h2 := P.rem_le
  have h3 := P.pend_busy hpend hact
  have h4 := P.pend_rem hpend
  have hpot : ∀ p' : Process, p'.remainingCpuTime = (deref ps r).remainingCpuTime - 1 →
      p'.arrivalTime = (deref ps r).arrivalTime →
      potential (ps.set r p') (t + 1) < potential ps t := by
    intro p' e1 e2
    apply potential_lt (by simp)
    · intro i _
      rw [deref_set]
      by_cases e : i = r
      · subst e
        simp only [hk, and_self, if_true]
        unfold weight
        rw [e1, e2]
        have : (if t + 1 < (deref ps i).arrivalTime then 1 else 0) ≤
            (if t < (deref ps i).arrivalTime then 1 else 0) := by
          split
          · omega
          · split <;> omega
        omega
      · simp only [e, false_and, if_false]
        exact weight_mono _ (by omega)
    · refine ⟨r, hk, ?_⟩
      rw [deref_set]
      simp only [hk, and_self, if_true]
      unfold weight
      rw [e1, e2]
      have e3 : ¬ t + 1 < (deref ps r).arrivalTime := by omega
      have e4 : ¬ t < (deref ps r).arrivalTime := by omega
      simp only [e3, e4, if_false]
      omega
  by_cases hz : (deref ps r).remainingCpuTime - 1 = 0
  · have e : runUnit ps q (t + 1) c r =
        { processes := ps.set r ((deref ps r).complete (t + 1)), currentTime := t + 1,
          completedProcesses := c + 1, readyQueue := q, runningProcess := none } := by
      simp [runUnit, hz, Process.complete]
    rw [e]
    exact ⟨Inv_complete h (by omega) (by omega), hpot _ (by simp [Process.complete, hz]) rfl⟩
  · have e : runUnit ps q (t + 1) c r =
        { processes := ps.set r { deref ps r with
            remainingCpuTime := (deref ps r).remainingCpuTime - 1 },
          currentTime := t + 1, completedProcesses := c, readyQueue := q,
          runningProcess := some r } := by
      simp [runUnit, hz]
    rw [e]
    exact ⟨Inv_progress h hz, hpot _ rfl rfl⟩

theorem admitFIFO_post {ps0 ps : List Process} {t c : Int} {q : List Nat}
    (h : Inv ps0 ps t c q none) :
    AdmitPost ps0 ps t c q none ps.length (admitFIFO ps q t).1 (admitFIFO ps q t).2 := by
  unfold admitFIFO
  apply admit_fold (admitStepFIFO t) _ h
  intro st k
  by_cases cond : (deref st.1 k).active = false ∧ (deref st.1 k).arrivalTime ≤ t ∧
      (deref st.1 k).completionTime = -1
  · right
    refine ⟨cond.2.2, cond.2.1, cond.1, _, sortQueue_perm Process.compareArrival
      (st.1.set k { deref st.1 k with active := true }) (st.2 ++ [k]), ?_⟩
    simp only [admitStepFIFO, cond, and_self, if_true]
  · left
    refine ⟨by simp only [admitStepFIFO, cond, if_false], ?_⟩
    intro hc ha hact
    exact absurd ⟨hact, ha, hc⟩ cond

theorem admitSJF_post {ps0 ps : List Process} {t c : Int} {q : List Nat} {r : Option Nat}
    (h : Inv ps0 ps t c q r) :
    AdmitPost ps0 ps t c q r ps.length (admitSJF ps q r t).1 (admitSJF ps q r t).2 := by
  unfold admitSJF
  apply admit_fold (admitStepSJF t r) _ h
  intro st k
  by_cases cond : (deref st.1 k).arrivalTime ≤ t ∧ (deref st.1 k).completionTime = -1 ∧
      (deref st.1 k).active = false
  · by_cases hr : some k ≠ r
    · right
      refine ⟨cond.2.1, cond.1, cond.2.2, _, List.Perm.refl _, ?_⟩
      simp only [admitStepSJF, cond, and_self, if_true, hr, ne_eq, not_false_eq_true]
    · left
      refine ⟨by simp only [admitStepSJF, cond, and_self, if_true, hr, if_false], ?_⟩
      intro _ _ _
      right
      simp only [ne_eq, not_not] at hr
      exact hr.symm
  · left
    refine ⟨by simp only [admitStepSJF, cond, if_false], ?_⟩
    intro hc ha hact
    exact absurd ⟨ha, hc, hact⟩ cond

theorem admitSRT_post {ps0 ps : List Process} {t c : Int} {q : List Nat} {r : Option Nat}
    (h : Inv ps0 ps t c q r) :
    AdmitPost ps0 ps t c q r ps.length (admitSRT ps q r t).1 (admitSRT ps q r t).2 := by
  unfold admitSRT
  apply admit_fold (admitStepSRT t r) _ h
  intro st k
  by_cases cond : (deref st.1 k).arrivalTime ≤ t ∧ (deref st.1 k).completionTime = -1 ∧
      (deref st.1 k).active = false
  · by_cases hr : st.2.any (fun rp => decide ((deref st.1 rp).id = (deref st.1 k).id)) = false ∧
        some k ≠ r
    · right
      refine ⟨cond.2.1, cond.1, cond.2.2, _, List.Perm.refl _, ?_⟩
      simp only [admitStepSRT, cond, and_self, if_true, hr, ne_eq, not_false_eq_true]
    · left
      refine ⟨by simp only [admitStepSRT, cond, and_self, if_true, hr, if_false], ?_⟩
      intro _ _ _
      by_cases hany : st.2.any (fun rp => decide ((deref st.1 rp).id = (deref st.1 k).id)) = true
      · left
        rw [List.any_eq_true] at hany
        obtain ⟨j, hj, e⟩ := hany
        exact ⟨j, hj, by simpa using e⟩
      · right
        have hany' : st.2.any (fun rp => decide ((deref st.1 rp).id = (deref st.1 k).id)) = false := by
          simpa using hany
        by_contra hne
        exact hr ⟨hany', fun e => hne e.symm⟩
  · left
    refine ⟨by simp only [admitStepSRT, cond, if_false], ?_⟩
    intro hc ha hact
    exact absurd ⟨ha, hc, hact⟩ cond

theorem AdmitPost.length {ps0 ps : List Process} {t c : Int} {q : List Nat} {r : Option Nat}
    {k : Nat} {ps1 : List Process} {q1 : List Nat} (h0 : Inv ps0 ps t c q r)
    (hp : AdmitPost ps0 ps t c q r k ps1 q1) : ps1.length = ps.length := by
  rw [hp.inv.len, h0.len]

theorem AdmitPost.all_active {ps0 ps : List Process} {t c : Int} {q : List Nat}
    {r : Option Nat} {ps1 : List Process}
    (hp : AdmitPost ps0 ps t c q r ps1.length ps1 []) :
    ∀ i, i < ps1.length → (deref ps1 i).completionTime = -1 →
      (deref ps1 i).arrivalTime ≤ t → (deref ps1 i).active = true := by
  intro i hi hc ha
  rcases hp.admitted i hi hc ha with h1 | ⟨j, hj, _⟩
  · exact h1
  · simp at hj

theorem sortQueue_cons (comp : Process → Process → Bool) (ps : List Process) (q : List Nat)
    (hq : q ≠ []) :
    ∃ k rest, sortQueue comp ps q = k :: rest ∧ (k :: rest).Perm q := by
  have hperm := sortQueue_perm comp ps q
  cases hs : sortQueue comp ps q with
  | nil =>
    rw [hs] at hperm
    exact absurd (List.Perm.nil_eq hperm).symm hq
  | cons k rest =>
    rw [hs] at hperm
    exact ⟨k, rest, rfl, hperm⟩

theorem bodyFIFO_step {ps0 : List Process} {s : FIFOState} (h : s.Ok ps0)
    (hc : s.completedProcesses < ps0.length) :
    (bodyFIFO ps0.length s).2 = false ∧ (bodyFIFO ps0.length s).1.Ok ps0 ∧
      potential (bodyFIFO ps0.length s).1.processes (bodyFIFO ps0.length s).1.currentTime <
        potential s.processes s.currentTime := by
  have post := admitFIFO_post h
  have hlen := post.length h
  have hpot := potential_same s.currentTime hlen post.same
  cases hq : (admitFIFO s.processes s.readyQueue s.currentTime).2 with
  | nil =>
    rw [hq] at post
    rw [← hlen] at post
    have hi := idle_step post.inv post.all_active (by rw [post.inv.len]; exact hc)
    simp only [bodyFIFO, hq, hi.1, if_true, FIFOState.Ok]
    exact ⟨trivial, hi.2.2.1, by rw [← hpot]; exact hi.2.2.2⟩
  | cons cur rest =>
    rw [hq] at post
    have hr := run_fifo_step post.inv
    simp only [bodyFIFO, hq, FIFOState.Ok]
    exact ⟨trivial, hr.1, by rw [← hpot]; exact hr.2⟩

theorem bodySJF_step {ps0 : List Process} {s : SimState} (h : s.Ok ps0)
    (hc : s.completedProcesses < ps0.length) :
    (bodySJF ps0.length s).2 = false ∧ (bodySJF ps0.length s).1.Ok ps0 ∧
      potential (bodySJF ps0.length s).1.processes (bodySJF ps0.length s).1.currentTime <
        potential s.processes s.currentTime := by
  have post := admitSJF_post h
  have hlen := post.length h
  have hpot := potential_same s.currentTime hlen post.same
  cases hr : s.runningProcess with
  | some k =>
    rw [hr] at post hlen hpot
    have hsel : selectSJF (admitSJF s.processes s.readyQueue (some k) s.currentTime).1
        (admitSJF s.processes s.readyQueue (some k) s.currentTime).2 (some k) =
        ((admitSJF s.processes s.readyQueue (some k) s.currentTime).2, some k) := by
      simp [selectSJF]
    have hu := run_unit_step post.inv
    simp only [bodySJF, hr, hsel, SimState.Ok]
    exact ⟨trivial, hu.1, by rw [← hpot]; exact hu.2⟩
  | none =>
    rw [hr] at post hlen hpot
    by_cases hq : (admitSJF s.processes s.readyQueue none s.currentTime).2 = []
    · have hsel : selectSJF (admitSJF s.processes s.readyQueue none s.currentTime).1
          (admitSJF s.processes s.readyQueue none s.currentTime).2 none = ([], none) := by
        simp [selectSJF, hq]
      rw [hq] at post
      rw [← hlen] at post
      have hi := idle_step post.inv post.all_active (by rw [post.inv.len]; exact hc)
      simp only [bodySJF, hr, hsel, idleSJF, hi.1, if_true, SimState.Ok]
      exact ⟨trivial, hi.2.2.1, by rw [← hpot]; exact hi.2.2.2⟩
    · obtain ⟨k, rest, hs, hperm⟩ := sortQueue_cons Process.compareTotalCpuTime
        (admitSJF s.processes s.readyQueue none s.currentTime).1 _ hq
      have hsel : selectSJF (admitSJF s.processes s.readyQueue none s.currentTime).1
          (admitSJF s.processes s.readyQueue none s.currentTime).2 none = (rest, some k) := by
        simp [selectSJF, hq, hs]
      have hu := run_unit_step (Inv_select (Inv_perm post.inv hperm))
      simp only [bodySJF, hr, hsel, SimState.Ok]
      exact ⟨trivial, hu.1, by rw [← hpot]; exact hu.2⟩

theorem bodySRT_step {ps0 : List Process} {s : SimState} (h : s.Ok ps0)
    (hc : s.completedProcesses < ps0.length) :
    (bodySRT ps0.length s).2 = false ∧ (bodySRT ps0.length s).1.Ok ps0 ∧
      potential (bodySRT ps0.length s).1.processes (bodySRT ps0.length s).1.currentTime <
        potential s.processes s.currentTime := by
  have post := admitSRT_post h
  have hlen := post.length h
  have hpot := potential_same s.currentTime hlen post.same
  have hinv := Inv_requeue post.inv
  by_cases hq : requeueSRT (admitSRT s.processes s.readyQueue s.runningProcess s.currentTime).2
      s.runningProcess = []
  · have hsel : selectSRT (admitSRT s.processes s.readyQueue s.runningProcess s.currentTime).1
        (requeueSRT (admitSRT s.processes s.readyQueue s.runningProcess s.currentTime).2
          s.runningProcess) = ([], none) := by
      simp [selectSRT, hq]
    rw [hq] at hinv
    have hq1 : (admitSRT s.processes s.readyQueue s.runningProcess s.currentTime).2 = [] := by
      cases hr : s.runningProcess with
      | none => rw [hr] at hq; simpa [requeueSRT] using hq
      | some k => rw [hr] at hq; simp [requeueSRT] at hq
    rw [hq1] at post
    rw [← hlen] at post
    have hi := idle_step hinv post.all_active (by rw [hinv.len]; exact hc)
    simp only [bodySRT, hsel, idleSRT, hi.1, if_true, SimState.Ok]
    exact ⟨trivial, hi.2.2.1, by rw [← hpot]; exact hi.2.2.2⟩
  · obtain ⟨k, rest, hs, hperm⟩ := sortQueue_cons Process.compareRemainingCpuTime
      (admitSRT s.processes s.readyQueue s.runningProcess s.currentTime).1 _ hq
    have hsel : selectSRT (admitSRT s.processes s.readyQueue s.runningProcess s.currentTime).1
        (requeueSRT (admitSRT s.processes s.readyQueue s.runningProcess s.currentTime).2
          s.runningProcess) = (rest, some k) := by
      simp [selectSRT, hq, hs]
    have hu := run_unit_step (Inv_select (Inv_perm hinv hperm))
    simp only [bodySRT, hsel, SimState.Ok]
    exact ⟨trivial, hu.1, by rw [← hpot]; exact hu.2⟩

theorem Inv.final {ps0 ps : List Process} {t c : Int} {q : List Nat} {r : Option Nat}
    (h : Inv ps0 ps t c q r) (hc : c = ps0.length) :
    ∀ p ∈ ps, p.completionTime ≠ -1 ∧ p.remainingCpuTime = 0 ∧
      p.turnaroundTime = p.completionTime - p.arrivalTime ∧
      p.totalCpuTime ≤ p.turnaroundTime := by
  intro p hp
  obtain ⟨i, hi, e⟩ := (mem_iff_deref ps p).1 hp
  have hdone : (deref ps i).completionTime ≠ -1 := by
    intro hpend
    have hlt := (count_lt_iff ps).2 ⟨i, hi, hpend⟩
    rw [← h.count, hc, h.len] at hlt
    exact lt_irrefl _ hlt
  have P := h.procs i hi
  rw [← e]
  have h1 := P.done_ta hdone
  have h2 := P.done_ge hdone
  exact ⟨hdone, P.done_rem hdone, h1, by omega⟩

theorem Inv.count_eq_of_not_lt {ps0 ps : List Process} {t c : Int} {q : List Nat}
    {r : Option Nat} (h : Inv ps0 ps t c q r) (hc : ¬ c < ps0.length) : c = ps0.length := by
  have := count_le ps
  rw [← h.count, h.len] at this
  omega

theorem loopFIFO_total (ps : List Process) (hf : Fresh ps) (hr : InIntRange ps)
    (hcpu : ∀ p ∈ ps, 1 ≤ p.totalCpuTime) (fuel : Nat) (hfuel : potential ps 0 < fuel) :
    ∃ s, loopFIFO fuel ps ps.length = some s ∧ s.Ok ps ∧ s.completedProcesses = ps.length := by
  obtain ⟨s, hs, hI, hg⟩ := runLoop_terminates
    (fun s : FIFOState => decide (s.completedProcesses < (ps.length : Int)))
    (bodyFIFO ps.length) (FIFOState.Ok ps) (fun s => potential s.processes s.currentTime)
    (fun s hI hg => bodyFIFO_step hI (by simpa using hg))
    fuel (initFIFO ps) (Inv_init ps hf hr hcpu) hfuel
  exact ⟨s, hs, hI, Inv.count_eq_of_not_lt hI (by simpa using hg)⟩

theorem loopSJF_total (ps : List Process) (hf : Fresh ps) (hr : InIntRange ps)
    (hcpu : ∀ p ∈ ps, 1 ≤ p.totalCpuTime) (fuel : Nat) (hfuel : potential ps 0 < fuel) :
    ∃ s, loopSJF fuel ps ps.length = some s ∧ s.Ok ps ∧ s.completedProcesses = ps.length := by
  obtain ⟨s, hs, hI, hg⟩ := runLoop_terminates
    (fun s : SimState => decide (s.completedProcesses < (ps.length : Int)))
    (bodySJF ps.length) (SimState.Ok ps) (fun s => potential s.processes s.currentTime)
    (fun s hI hg => bodySJF_step hI (by simpa using hg))
    fuel (initSim ps) (Inv_init ps hf hr hcpu) hfuel
  exact ⟨s, hs, hI, Inv.count_eq_of_not_lt hI (by simpa using hg)⟩

theorem loopSRT_total (ps : List Process) (hf : Fresh ps) (hr : InIntRange ps)
    (hcpu : ∀ p ∈ ps, 1 ≤ p.totalCpuTime) (fuel : Nat) (hfuel : potential ps 0 < fuel) :
    ∃ s, loopSRT fuel ps ps.length = some s ∧ s.Ok ps ∧ s.completedProcesses = ps.length := by
  obtain ⟨s, hs, hI, hg⟩ := runLoop_terminates
    (fun s : SimState => decide (s.completedProcesses < (ps.length : Int)))
    (bodySRT ps.length) (SimState.Ok ps) (fun s => potential s.processes s.currentTime)
    (fun s hI hg => bodySRT_step hI (by simpa using hg))
    fuel (initSim ps) (Inv_init ps hf hr hcpu) hfuel
  exact ⟨s, hs, hI, Inv.count_eq_of_not_lt hI (by simpa using hg)⟩

theorem fresh_scenario : Fresh scenario := by
  intro p hp
  simp only [scenario, List.mem_cons, List.mem_singleton, List.not_mem_nil, or_false] at hp
  rcases hp with e | e | e <;> subst e <;> rfl

theorem inIntRange_scenario : InIntRange scenario := by
  intro p hp
  simp only [scenario, List.mem_cons, List.mem_singleton, List.not_mem_nil, or_false] at hp
  rcases hp with e | e | e <;> subst e <;> decide

theorem bursts_scenario : ∀ p ∈ scenario, 1 ≤ p.totalCpuTime := by
  intro p hp
  simp only [scenario, List.mem_cons, List.mem_singleton, List.not_mem_nil, or_false] at hp
  rcases hp with e | e | e <;> subst e <;> decide

theorem compareArrival_trans (a b c : Process) (h1 : a.compareArrival b = true)
    (h2 : b.compareArrival c = true) : a.compareArrival c = true := by
  simp only [Process.compareArrival] at *
  split_ifs at * <;> simp at * <;> omega

theorem compareArrival_asymm (a b : Process) (h1 : a.compareArrival b = true) :
    b.compareArrival a = false := by
  simp only [Process.compareArrival] at *
  split_ifs at * <;> simp at * <;> omega

theorem compareTotalCpuTime_trans (a b c : Process) (h1 : a.compareTotalCpuTime b = true)
    (h2 : b.compareTotalCpuTime c = true) : a.compareTotalCpuTime c = true := by
  simp only [Process.compareTotalCpuTime] at *
  split_ifs at * <;> simp at * <;> omega

theorem compareTotalCpuTime_asymm (a b : Process) (h1 : a.compareTotalCpuTime b = true) :
    b.compareTotalCpuTime a = false := by
  simp only [Process.compareTotalCpuTime] at *
  split_ifs at * <;> simp at * <;> omega

theorem compareRemainingCpuTime_trans (a b c : Process)
    (h1 : a.compareRemainingCpuTime b = true) (h2 : b.compareRemainingCpuTime c = true) :
    a.compareRemainingCpuTime c = true := by
  simp only [Process.compareRemainingCpuTime] at *
  split_ifs at * <;> simp at * <;> omega

theorem compareRemainingCpuTime_asymm (a b : Process)
    (h1 : a.compareRemainingCpuTime b = true) : b.compareRemainingCpuTime a = false := by
  simp only [Process.compareRemainingCpuTime] at *
  split_ifs at * <;> simp at * <;> omega

theorem insertSorted_sorted (lt : Nat → Nat → Bool)
    (htrans : ∀ a b c, lt a b = true → lt b c = true → lt a c = true)
    (hasymm : ∀ a b, lt a b = true → lt b a = false) (x : Nat) (l : List Nat)
    (hl : SortedBy lt l) : SortedBy lt (insertSorted lt x l) := by
  induction l with
  | nil => simp [insertSorted, SortedBy]
  | cons y ys ih =>
    unfold SortedBy at hl
    rw [List.pairwise_cons] at hl
    simp only [insertSorted]
    by_cases hxy : lt x y = true
    · simp only [hxy, if_true]
      unfold SortedBy
      rw [List.pairwise_cons]
      refine ⟨?_, List.pairwise_cons.2 hl⟩
      intro b hb
      rcases List.mem_cons.1 hb with e | hb'
      · subst e; exact hasymm _ _ hxy
      · by_contra hne
        have h1 : lt b x = true := by simpa using hne
        have h2 := htrans _ _ _ h1 hxy
        rw [hl.1 b hb'] at h2
        exact Bool.false_ne_true h2
    · have hxy' : lt x y = false := by simpa using hxy
      simp only [hxy', Bool.false_eq_true, if_false]
      unfold SortedBy
      rw [List.pairwise_cons]
      refine ⟨?_, ih hl.2⟩
      intro b hb
      rw [(insertSorted_perm lt x ys).mem_iff] at hb
      rcases List.mem_cons.1 hb with e | hb'
      · subst e; exact hxy'
      · exact hl.1 b hb'

theorem sortQueue_sorted (comp : Process → Process → Bool)
    (htrans : ∀ a b c, comp a b = true → comp b c = true → comp a c = true)
    (hasymm : ∀ a b, comp a b = true → comp b a = false)
    (ps : List Process) (q : List Nat) :
    SortedBy (fun i j => comp (deref ps i) (deref ps j)) (sortQueue comp ps q) := by
  induction q with
  | nil => simp [sortQueue, SortedBy]
  | cons x xs ih =>
    have : sortQueue comp ps (x :: xs) =
        insertSorted (fun i j => comp (deref ps i) (deref ps j)) x (sortQueue comp ps xs) := rfl
    rw [this]
    exact insertSorted_sorted (fun i j => comp (deref ps i) (deref ps j))
      (fun a b c => htrans _ _ _) (fun a b => hasymm _ _) x _ ih

/-- The front of a sorted queue is a minimum of the queue for the comparator. -/
theorem sortQueue_head_min (comp : Process → Process → Bool)
    (htrans : ∀ a b c, comp a b = true → comp b c = true → comp a c = true)
    (hasymm : ∀ a b, comp a b = true → comp b a = false)
    (ps : List Process) (q : List Nat) (k : Nat) (rest : List Nat)
    (hs : sortQueue comp ps q = k :: rest) :
    ∀ j ∈ q, comp (deref ps j) (deref ps k) = false := by
  intro j hj
  have hsorted := sortQueue_sorted comp htrans hasymm ps q
  rw [hs] at hsorted
  unfold SortedBy at hsorted
  rw [List.pairwise_cons] at hsorted
  have hj' : j ∈ k :: rest := by
    rw [← hs]; exact (sortQueue_perm comp ps q).mem_iff.2 hj
  rcases List.mem_cons.1 hj' with e | hj''
  · subst e
    by_contra hne
    have h1 : comp (deref ps j) (deref ps j) = true := by simpa using hne
    rw [hasymm _ _ h1] at h1
    exact Bool.false_ne_true h1
  · exact hsorted.1 j hj''

theorem distinctIds_index {ps : List Process} (hd : DistinctIds ps) (i j : Nat)
    (hi : i < ps.length) (hj : j < ps.length) (e : (deref ps i).id = (deref ps j).id) :
    i = j := by
  unfold DistinctIds at hd
  have hi1 : i < (ps.map Process.id).length := by simpa using hi
  have hj1 : j < (ps.map Process.id).length := by simpa using hj
  have hinj := List.nodup_iff_injective_get.1 hd
  have hget : (ps.map Process.id).get ⟨i, hi1⟩ = (ps.map Process.id).get ⟨j, hj1⟩ := by
    unfold deref at e
    simpa [List.getD_eq_getElem?_getD, List.getElem?_eq_getElem hi,
      List.getElem?_eq_getElem hj] using e
  exact congrArg Fin.val (hinj hget)

theorem Inv.id_inj {ps0 ps : List Process} {t c : Int} {q : List Nat} {r : Option Nat}
    (h : Inv ps0 ps t c q r) (hd : DistinctIds ps0) (i j : Nat) (hi : i < ps.length)
    (hj : j < ps.length) (e : (deref ps i).id = (deref ps j).id) : i = j := by
  apply distinctIds_index hd i j (by rw [← h.len]; exact hi) (by rw [← h.len]; exact hj)
  rw [← (h.procs i hi).id_eq, ← (h.procs j hj).id_eq]
  exact e

/-- Under pairwise distinct ids the arrival loop activates every pending
process that has arrived. -/
theorem AdmitPost.all_admitted {ps0 ps : List Process} {t c : Int} {q : List Nat}
    {r : Option Nat} {ps1 : List Process} {q1 : List Nat} (hd : DistinctIds ps0)
    (hp : AdmitPost ps0 ps t c q r ps1.length ps1 q1) :
    ∀ i, i < ps1.length → (deref ps1 i).completionTime = -1 →
      (deref ps1 i).arrivalTime ≤ t → (i ∈ q1 ∨ r = some i) := by
  intro i hi hc ha
  rcases hp.admitted i hi hc ha with h1 | ⟨j, hj, hji, hid⟩
  · exact (hp.inv.procs i hi).active_iff.1 h1
  · exact absurd (hp.inv.id_inj hd j i (hp.inv.q_valid j hj) hi hid) hji

theorem nextArrival_gt {ps : List Process} {t : Int} (hr : ∀ p ∈ ps, p.arrivalTime ≤ INT_MAX)
    (hf : (nextArrival ps t).2 = true) : t < (nextArrival ps t).1 := by
  obtain ⟨p, _, _, h1, h2⟩ := nextArrival_attained ps t hr hf
  omega

theorem idleSRT_ge {ps : List Process} (n t c : Int) (hr : ∀ p ∈ ps, p.arrivalTime ≤ INT_MAX) :
    t ≤ (idleSRT n ps t c).1 := by
  unfold idleSRT
  by_cases hf : (nextArrival ps t).2 = true
  · have := nextArrival_gt hr hf
    simp only [hf, if_true]
    omega
  · have hf' : (nextArrival ps t).2 = false := by simpa using hf
    simp only [hf', Bool.false_eq_true, if_false]
    split_ifs <;> simp

theorem idleSJF_ge {ps : List Process} (n t c : Int) (q : List Nat)
    (hr : ∀ p ∈ ps, p.arrivalTime ≤ INT_MAX) : t ≤ (idleSJF n ps q t c).1 := by
  unfold idleSJF
  by_cases hf : (nextArrival ps t).2 = true
  · have := nextArrival_gt hr hf
    simp only [hf, if_true]
    omega
  · have hf' : (nextArrival ps t).2 = false := by simpa using hf
    simp only [hf', Bool.false_eq_true, if_false]
    split_ifs <;> simp

/-- The invariant is kept by the body of `simulateSRT` for every `n`. -/
theorem bodySRT_ok {ps0 : List Process} (n : Int) {s : SimState} (h : s.Ok ps0) :
    (bodySRT n s).1.Ok ps0 := by
  have post := admitSRT_post h
  have hinv := Inv_requeue post.inv
  by_cases hq : requeueSRT (admitSRT s.processes s.readyQueue s.runningProcess s.currentTime).2
      s.runningProcess = []
  · have hsel : selectSRT (admitSRT s.processes s.readyQueue s.runningProcess s.currentTime).1
        (requeueSRT (admitSRT s.processes s.readyQueue s.runningProcess s.currentTime).2
          s.runningProcess) = ([], none) := by
      simp [selectSRT, hq]
    rw [hq] at hinv
    simp only [bodySRT, hsel, SimState.Ok]
    exact Inv_time hinv (idleSRT_ge n _ _ hinv.mem_arr_le)
  · obtain ⟨k, rest, hs, hperm⟩ := sortQueue_cons Process.compareRemainingCpuTime
      (admitSRT s.processes s.readyQueue s.runningProcess s.currentTime).1 _ hq
    have hsel : selectSRT (admitSRT s.processes s.readyQueue s.runningProcess s.currentTime).1
        (requeueSRT (admitSRT s.processes s.readyQueue s.runningProcess s.currentTime).2
          s.runningProcess) = (rest, some k) := by
      simp [selectSRT, hq, hs]
    have hu := run_unit_step (Inv_select (Inv_perm hinv hperm))
    simp only [bodySRT, hsel, SimState.Ok]
    exact hu.1

/-- The invariant is kept by the body of `simulateSJF` for every `n`. -/
theorem bodySJF_ok {ps0 : List Process} (n : Int) {s : SimState} (h : s.Ok ps0) :
    (bodySJF n s).1.Ok ps0 := by
  have post := admitSJF_post h
  cases hr : s.runningProcess with
  | some k =>
    rw [hr] at post
    have hsel : selectSJF (admitSJF s.processes s.readyQueue (some k) s.currentTime).1
        (admitSJF s.processes s.readyQueue (some k) s.currentTime).2 (some k) =
        ((admitSJF s.processes s.readyQueue (some k) s.currentTime).2, some k) := by
      simp [selectSJF]
    have hu := run_unit_step post.inv
    simp only [bodySJF, hr, hsel, SimState.Ok]
    exact hu.1
  | none =>
    rw [hr] at post
    by_cases hq : (admitSJF s.processes s.readyQueue none s.currentTime).2 = []
    · have hsel : selectSJF (admitSJF s.processes s.readyQueue none s.currentTime).1
          (admitSJF s.processes s.readyQueue none s.currentTime).2 none = ([], none) := by
        simp [selectSJF, hq]
      rw [hq] at post
      simp only [bodySJF, hr, hsel, SimState.Ok]
      exact Inv_time post.inv (idleSJF_ge n _ _ _ post.inv.mem_arr_le)
    · obtain ⟨k, rest, hs, hperm⟩ := sortQueue_cons Process.compareTotalCpuTime
        (admitSJF s.processes s.readyQueue none s.currentTime).1 _ hq
      have hsel : selectSJF (admitSJF s.processes s.readyQueue none s.currentTime).1
          (admitSJF s.processes s.readyQueue none s.currentTime).2 none = (rest, some k) := by
        simp [selectSJF, hq, hs]
      have hu := run_unit_step (Inv_select (Inv_perm post.inv hperm))
      simp only [bodySJF, hr, hsel, SimState.Ok]
      exact hu.1

theorem runUnit_effect (ps : List Process) (q : List Nat) (t c : Int) (r : Nat)
    (hr : r < ps.length) :
    (runUnit ps q t c r).currentTime = t ∧
      (deref (runUnit ps q t c r).processes r).remainingCpuTime =
        (deref ps r).remainingCpuTime - 1 := by
  unfold runUnit
  by_cases hz : (deref ps r).remainingCpuTime - 1 = 0
  · simp [hz, deref_set, hr]
  · simp [hz, deref_set, hr]

/-- The choice of `simulateSRT` in a state that satisfies the invariant. -/
theorem chosenSRT_min {ps0 : List Process} (hd : DistinctIds ps0) (n : Int) {s : SimState}
    (h : s.Ok ps0) (p : Nat) (hp : chosenSRT s = some p) :
    p < ps0.length ∧ (bodySRT n s).1.currentTime = s.currentTime + 1 ∧
    (deref (bodySRT n s).1.processes p).remainingCpuTime =
      (deref s.processes p).remainingCpuTime - 1 ∧
    ∀ q, q < ps0.length → q ≠ p → (deref s.processes q).arrivalTime ≤ s.currentTime →
      (deref s.processes q).completionTime = -1 →
      (deref s.processes p).remainingCpuTime ≤ (deref s.processes q).remainingCpuTime ∧
      ((deref s.processes q).remainingCpuTime = (deref s.processes p).remainingCpuTime →
        (deref s.processes p).id < (deref s.processes q).id) := by
  have post := admitSRT_post h
  have hlen := post.length h
  have hinv := Inv_requeue post.inv
  have hlen0 : (admitSRT s.processes s.readyQueue s.runningProcess s.currentTime).1.length =
      ps0.length := hinv.len
  unfold chosenSRT at hp
  by_cases hq : requeueSRT (admitSRT s.processes s.readyQueue s.runningProcess s.currentTime).2
      s.runningProcess = []
  · simp [selectSRT, hq] at hp
  · obtain ⟨k, rest, hs, hperm⟩ := sortQueue_cons Process.compareRemainingCpuTime
      (admitSRT s.processes s.readyQueue s.runningProcess s.currentTime).1 _ hq
    have hsel : selectSRT (admitSRT s.processes s.readyQueue s.runningProcess s.currentTime).1
        (requeueSRT (admitSRT s.processes s.readyQueue s.runningProcess s.currentTime).2
          s.runningProcess) = (rest, some k) := by
      simp [selectSRT, hq, hs]
    simp only [hsel, Option.some.injEq] at hp
    subst hp
    have hkq : k ∈ requeueSRT
        (admitSRT s.processes s.readyQueue s.runningProcess s.currentTime).2
        s.runningProcess := hperm.mem_iff.1 (List.mem_cons_self _ _)
    have hk := hinv.q_valid k hkq
    have hmin := sortQueue_head_min Process.compareRemainingCpuTime
      compareRemainingCpuTime_trans compareRemainingCpuTime_asymm _ _ k rest hs
    have heff := runUnit_effect
      (admitSRT s.processes s.readyQueue s.runningProcess s.currentTime).1 rest
      (s.currentTime + 1) s.completedProcesses k hk
    obtain ⟨bk, ek⟩ := post.same k
    refine ⟨by rw [← hlen0]; exact hk, ?_, ?_, ?_⟩
    · simp only [bodySRT, hsel]
      exact heff.1
    · simp only [bodySRT, hsel]
      rw [heff.2, ek]
    · intro q hq0 hqk harr hpend
      obtain ⟨bq, eq⟩ := post.same q
      have hq1 : q < (admitSRT s.processes s.readyQueue s.runningProcess
          s.currentTime).1.length := by rw [hlen0]; exact hq0
      have hmem : q ∈ requeueSRT
          (admitSRT s.processes s.readyQueue s.runningProcess s.currentTime).2
          s.runningProcess := by
        have hb := (hinv.procs q hq1).active_iff
        have ha := (post.inv.procs q hq1).active_iff
        rw [← hlen] at post
        have := post.all_admitted hd q hq1 (by rw [eq]; exact hpend) (by rw [eq]; exact harr)
        have hact := ha.2 this
        simpa using hb.1 hact
      have hcmp := hmin q hmem
      rw [eq, ek] at hcmp
      simp only [Process.compareRemainingCpuTime] at hcmp
      have hid : (deref s.processes q).id ≠ (deref s.processes k).id := by
        intro e
        apply hqk
        apply hinv.id_inj hd q k hq1 hk
        rw [eq, ek]; exact e
      split_ifs at hcmp with hne
      · simp only [decide_eq_false_iff_not, not_lt] at hcmp
        exact ⟨hcmp, fun e => absurd e hne⟩
      · simp only [decide_eq_false_iff_not, not_lt] at hcmp
        simp only [ne_eq, not_not] at hne
        refine ⟨by omega, fun _ => ?_⟩
        omega

theorem distinctIds_scenario : DistinctIds scenario := by
  simp [DistinctIds, scenario, Process.create]

/-- The choice of `simulateSJF` in a state that satisfies the invariant. -/
theorem chosenSJF_min {ps0 : List Process} (hd : DistinctIds ps0) (n : Int) {s : SimState}
    (h : s.Ok ps0) (p : Nat) (hp : chosenSJF s = some p) :
    p < ps0.length ∧ (bodySJF n s).1.currentTime = s.currentTime + 1 ∧
    (deref (bodySJF n s).1.processes p).remainingCpuTime =
      (deref s.processes p).remainingCpuTime - 1 ∧
    ∀ q, q < ps0.length → q ≠ p → (deref s.processes q).arrivalTime ≤ s.currentTime →
      (deref s.processes q).completionTime = -1 →
      (deref s.processes p).totalCpuTime ≤ (deref s.processes q).totalCpuTime ∧
      ((deref s.processes q).totalCpuTime = (deref s.processes p).totalCpuTime →
        (deref s.processes p).id < (deref s.processes q).id) := by
  have post := admitSJF_post h
  have hlen := post.length h
  have hlen0 : (admitSJF s.processes s.readyQueue s.runningProcess s.currentTime).1.length =
      ps0.length := post.inv.len
  unfold chosenSJF at hp
  by_cases hcond : s.runningProcess = none ∧
      (admitSJF s.processes s.readyQueue s.runningProcess s.currentTime).2 ≠ []
  · obtain ⟨hrun, hq⟩ := hcond
    rw [hrun] at post hlen hlen0 hp hq
    obtain ⟨k, rest, hs, hperm⟩ := sortQueue_cons Process.compareTotalCpuTime
      (admitSJF s.processes s.readyQueue none s.currentTime).1 _ hq
    have hsel : selectSJF (admitSJF s.processes s.readyQueue none s.currentTime).1
        (admitSJF s.processes s.readyQueue none s.currentTime).2 none = (rest, some k) := by
      simp [selectSJF, hq, hs]
    simp only [hsel, hq, ne_eq, not_false_eq_true, and_self, if_true,
      Option.some.injEq] at hp
    subst hp
    have hkq : k ∈ (admitSJF s.processes s.readyQueue none s.currentTime).2 :=
      hperm.mem_iff.1 (List.mem_cons_self _ _)
    have hk := post.inv.q_valid k hkq
    have hmin := sortQueue_head_min Process.compareTotalCpuTime
      compareTotalCpuTime_trans compareTotalCpuTime_asymm _ _ k rest hs
    have heff := runUnit_effect
      (admitSJF s.processes s.readyQueue none s.currentTime).1 rest
      (s.currentTime + 1) s.completedProcesses k hk
    obtain ⟨bk, ek⟩ := post.same k
    refine ⟨by rw [← hlen0]; exact hk, ?_, ?_, ?_⟩
    · simp only [bodySJF, hrun, hsel]
      exact heff.1
    · simp only [bodySJF, hrun, hsel]
      rw [heff.2, ek]
    · intro q hq0 hqk harr hpend
      obtain ⟨bq, eq⟩ := post.same q
      have hq1 : q < (admitSJF s.processes s.readyQueue none s.currentTime).1.length := by
        rw [hlen0]; exact hq0
      have hmem : q ∈ (admitSJF s.processes s.readyQueue none s.currentTime).2 := by
        have hinv := post.inv
        rw [← hlen] at post
        have := post.all_admitted hd q hq1 (by rw [eq]; exact hpend) (by rw [eq]; exact harr)
        simpa using this
      have hcmp := hmin q hmem
      rw [eq, ek] at hcmp
      simp only [Process.compareTotalCpuTime] at hcmp
      have hid : (deref s.processes q).id ≠ (deref s.processes k).id := by
        intro e
        apply hqk
        apply post.inv.id_inj hd q k hq1 hk
        rw [eq, ek]; exact e
      split_ifs at hcmp with hne
      · simp only [decide_eq_false_iff_not, not_lt] at hcmp
        exact ⟨hcmp, fun e => absurd e hne⟩
      · simp only [decide_eq_false_iff_not, not_lt] at hcmp
        simp only [ne_eq, not_not] at hne
        refine ⟨by omega, fun _ => ?_⟩
        omega
  · simp only [hcond, if_false] at hp
    exact absurd hp (by simp)

theorem deref_of_le (ps : List Process) (i : Nat) (h : ps.length ≤ i) :
    deref ps i = default := by
  unfold deref
  simp [List.getD_eq_getElem?_getD, List.getElem?_eq_none h]

theorem Inv.compareArrival_eq {ps0 ps : List Process} {t c : Int} {q : List Nat}
    {r : Option Nat} (h : Inv ps0 ps t c q r) (i j : Nat) :
    Process.compareArrival (deref ps i) (deref ps j) =
      Process.compareArrival (deref ps0 i) (deref ps0 j) := by
  have key : ∀ i, (deref ps i).arrivalTime = (deref ps0 i).arrivalTime ∧
      (deref ps i).id = (deref ps0 i).id := by
    intro i
    by_cases hi : i < ps.length
    · exact ⟨(h.procs i hi).arr_eq, (h.procs i hi).id_eq⟩
    · rw [deref_of_le ps i (by omega), deref_of_le ps0 i (by rw [← h.len]; omega)]
      exact ⟨rfl, rfl⟩
  simp only [Process.compareArrival, (key i).1, (key i).2, (key j).1, (key j).2]

theorem admitFIFO_sorted {ps0 ps : List Process} {t c : Int} {q : List Nat}
    (h : Inv ps0 ps t c q none)
    (hs : SortedBy (fun i j => Process.compareArrival (deref ps0 i) (deref ps0 j)) q) :
    SortedBy (fun i j => Process.compareArrival (deref ps0 i) (deref ps0 j))
      (admitFIFO ps q t).2 := by
  unfold admitFIFO
  refine (admit_fold_with
    (fun st => SortedBy (fun i j => Process.compareArrival (deref ps0 i) (deref ps0 j)) st.2)
    (admitStepFIFO t) ?_ h hs ?_).2
  · intro st k
    by_cases cond : (deref st.1 k).active = false ∧ (deref st.1 k).arrivalTime ≤ t ∧
        (deref st.1 k).completionTime = -1
    · right
      refine ⟨cond.2.2, cond.2.1, cond.1, _, sortQueue_perm Process.compareArrival
        (st.1.set k { deref st.1 k with active := true }) (st.2 ++ [k]), ?_⟩
      simp only [admitStepFIFO, cond, and_self, if_true]
    · left
      refine ⟨by simp only [admitStepFIFO, cond, if_false], ?_⟩
      intro hc ha hact
      exact absurd ⟨hact, ha, hc⟩ cond
  · intro st k hk hp hE
    by_cases cond : (deref st.1 k).active = false ∧ (deref st.1 k).arrivalTime ≤ t ∧
        (deref st.1 k).completionTime = -1
    · have hkl : k < st.1.length := by rw [hp.inv.len, ← h.len]; exact hk
      have hinv := Inv_activate hp.inv k hkl cond.1 cond.2.1 cond.2.2
        (sortQueue_perm Process.compareArrival
          (st.1.set k { deref st.1 k with active := true }) (st.2 ++ [k]))
      have hsorted := sortQueue_sorted Process.compareArrival compareArrival_trans
        compareArrival_asymm (st.1.set k { deref st.1 k with active := true }) (st.2 ++ [k])
      have hfun : (fun i j => Process.compareArrival
            (deref (st.1.set k { deref st.1 k with active := true }) i)
            (deref (st.1.set k { deref st.1 k with active := true }) j)) =
          (fun i j => Process.compareArrival (deref ps0 i) (deref ps0 j)) := by
        funext i j
        exact hinv.compareArrival_eq i j
      rw [hfun] at hsorted
      unfold admitStepFIFO
      rw [if_pos cond]
      exact hsorted
    · unfold admitStepFIFO
      rw [if_neg cond]
      exact hE

/-- The body of the loop of `simulateFIFO` keeps the order invariant, for
every `n`, when the ids are pairwise distinct. -/
theorem bodyFIFO_order {ps0 : List Process} (hd : DistinctIds ps0) (n : Int) {s : FIFOState}
    (h : s.Ok ps0) (ho : FIFOOrder ps0 s) : FIFOOrder ps0 (bodyFIFO n s).1 := by
  have post := admitFIFO_post h
  have hlen := post.length h
  have hlen0 : (admitFIFO s.processes s.readyQueue s.currentTime).1.length = ps0.length :=
    post.inv.len
  have hsorted := admitFIFO_sorted h ho.sorted
  have hsame : ∀ i, (deref (admitFIFO s.processes s.readyQueue s.currentTime).1 i).completionTime
      = (deref s.processes i).completionTime := by
    intro i
    obtain ⟨b, e⟩ := post.same i
    rw [e]
  have horder : ∀ a b, a < ps0.length → b < ps0.length →
      Process.compareArrival (deref ps0 a) (deref ps0 b) = true →
      (deref (admitFIFO s.processes s.readyQueue s.currentTime).1 b).completionTime ≠ -1 →
      (deref (admitFIFO s.processes s.readyQueue s.currentTime).1 a).completionTime ≠ -1 ∧
        (deref (admitFIFO s.processes s.readyQueue s.currentTime).1 a).completionTime +
          (deref ps0 b).totalCpuTime ≤
        (deref (admitFIFO s.processes s.readyQueue s.currentTime).1 b).completionTime := by
    intro a b ha hb hcmp hdone
    rw [hsame] at hdone ⊢
    rw [hsame]
    exact ho.order a b ha hb hcmp hdone
  cases hq : (admitFIFO s.processes s.readyQueue s.currentTime).2 with
  | nil =>
    have e : (bodyFIFO n s).1.processes = (admitFIFO s.processes s.readyQueue s.currentTime).1 ∧
        (bodyFIFO n s).1.readyQueue = [] := by
      simp only [bodyFIFO, hq]
      split_ifs <;> exact ⟨rfl, rfl⟩
    refine ⟨by rw [e.2]; exact List.Pairwise.nil, ?_⟩
    rw [e.1]
    exact horder
  | cons cur rest =>
    rw [hq] at post hsorted
    unfold SortedBy at hsorted
    rw [List.pairwise_cons] at hsorted
    have hcur := post.inv.q_valid cur (List.mem_cons_self _ _)
    obtain ⟨hact, hpend⟩ := post.inv.pending_of_busy hcur (Or.inl (List.mem_cons_self _ _))
    have Pc := post.inv.procs cur hcur
    simp only [bodyFIFO, hq]
    refine ⟨hsorted.2, ?_⟩
    intro a b ha hb hcmp
    simp only [deref_set]
    by_cases hbc : b = cur
    · subst hbc
      have hab : a ≠ b := by
        intro e; subst e
        have := compareArrival_asymm _ _ hcmp
        rw [hcmp] at this
        exact Bool.false_ne_true this.symm
      simp only [hcur, and_self, if_true, hab, false_and, if_false]
      intro _
      have ha1 : a < (admitFIFO s.processes s.readyQueue s.currentTime).1.length := by
        rw [hlen0]; exact ha
      have Pa := post.inv.procs a ha1
      have hadone : (deref (admitFIFO s.processes s.readyQueue s.currentTime).1 a).completionTime
          ≠ -1 := by
        intro hapend
        have hcmp' := hcmp
        rw [← post.inv.compareArrival_eq a b] at hcmp'
        have harr : (deref (admitFIFO s.processes s.readyQueue s.currentTime).1 a).arrivalTime
            ≤ s.currentTime := by
          have h1 := Pc.pend_busy hpend hact
          have h2 := Pc.rem_le
          simp only [Process.compareArrival] at hcmp'
          split_ifs at hcmp' with hne
          · simp only [decide_eq_true_eq] at hcmp'
            omega
          · simp only [ne_eq, not_not] at hne
            omega
        rw [← hlen] at post
        have hmem := post.all_admitted hd a ha1 hapend harr
        simp only [List.mem_cons, hab, false_or, reduceCtorEq, or_false] at hmem
        have : Process.compareArrival (deref ps0 a) (deref ps0 b) = false :=
          hsorted.1 a hmem
        rw [hcmp] at this
        exact Bool.false_ne_true this.symm
      refine ⟨hadone, ?_⟩
      have h1 := Pa.done_le hadone
      have h2 := Pc.tot_eq
      simp only [Process.complete]
      omega
    · simp only [hbc, false_and, if_false]
      intro hbdone
      have hres := horder a b ha hb hcmp hbdone
      by_cases hac : a = cur
      · subst hac
        exact absurd hpend hres.1
      · simp only [hac, false_and, if_false]
        exact hres

theorem FIFOOrder_init (ps : List Process) (hf : Fresh ps) : FIFOOrder ps (initFIFO ps) := by
  refine ⟨List.Pairwise.nil, ?_⟩
  intro a b _ hb _ hdone
  exfalso
  apply hdone
  have e := hf _ ((mem_iff_deref ps _).2 ⟨b, hb, rfl⟩)
  show (deref ps b).completionTime = -1
  rw [e]; rfl

/-- C6 fails on the code: on `unsortedRegistry`, after P2 has run from 0 to 5
the loop of simulate_FIFO is still running and selects P0 (arrival 3) at time
5, although P1 is unfinished and arrived at 1; P0 then finishes at 6 and P1 at
7, so the turnaround times are 3, 6 and 5. -/
theorem simulate_FIFO_selects_by_vector_order :
    iterLoop unfinished body_FIFO 1 (init_FIFO unsortedRegistry) = some unsortedAfterOne ∧
    unfinished unsortedAfterOne = true ∧
    unsortedAfterOne.t = 5 ∧
    firstReady unsortedAfterOne = some 0 ∧
    unsortedAfterOne.finished.getD 1 true = false ∧
    (unsortedAfterOne.procs.getD 1 default).arrival ≤ unsortedAfterOne.t ∧
    (unsortedAfterOne.procs.getD 1 default).arrival <
      (unsortedAfterOne.procs.getD 0 default).arrival ∧
    (loop_FIFO 4 unsortedRegistry).map (fun s => s.procs.map (fun p => (p.pid, p.turnaround)))
      = some [(0, 3), (1, 6), (2, 5)] := by
  refine ⟨rfl, rfl, rfl, rfl, rfl, by decide, by decide, rfl⟩

/-- C7: on the scenario registry with `n = 3`, simulateSRT completes P2 at 3,
P1 at 5 and P0 at 9, the turnaround times of P0, P1, P2 are 9, 4, 1, and the
value returned is exactly 14/3, which is 4.67 to two decimals. -/
theorem srt_scenario :
    (loopSRT 10 scenario 3).map
        (fun s => s.processes.map (fun p => (p.id, p.completionTime, p.turnaroundTime)))
      = some [(0, 9, 9), (1, 5, 4), (2, 3, 1)] ∧
    simulateSRT 10 scenario 3 = some (14 / 3) ∧
    ((4665 : ℚ) / 1000 ≤ 14 / 3 ∧ (14 : ℚ) / 3 < 4675 / 1000) := by
  have h : loopSRT 10 scenario 3 = some
      { processes := [(Process.create 0 0 5).complete 9, (Process.create 1 1 3).complete 5,
          (Process.create 2 2 1).complete 3],
        currentTime := 9, completedProcesses := 3, readyQueue := [],
        runningProcess := none } := by rfl
  refine ⟨by rw [h]; rfl, ?_, by norm_num⟩
  simp only [simulateSRT, h, Option.map_some', averageCompleted, actualCompleted,
    totalTurnaround, Process.complete, Process.create, List.foldl_cons, List.foldl_nil]
  norm_num

/-- C8: on the scenario registry with `n = 3`, simulateFIFO completes P0, P1,
P2 in this order at 5, 8, 9, the turnaround times are 5, 7, 7, and the value
returned is exactly 19/3, which is 6.33 to two decimals. -/
theorem fifo_scenario :
    (loopFIFO 4 scenario 3).map
        (fun s => s.processes.map (fun p => (p.id, p.completionTime, p.turnaroundTime)))
      = some [(0, 5, 5), (1, 8, 7), (2, 9, 7)] ∧
    simulateFIFO 4 scenario 3 = some (19 / 3) ∧
    ((6325 : ℚ) / 1000 ≤ 19 / 3 ∧ (19 : ℚ) / 3 < 6335 / 1000) := by
  have h : loopFIFO 4 scenario 3 = some
      { processes := [(Process.create 0 0 5).complete 5, (Process.create 1 1 3).complete 8,
          (Process.create 2 2 1).complete 9],
        currentTime := 9, completedProcesses := 3, readyQueue := [] } := by rfl
  refine ⟨by rw [h]; rfl, ?_, by norm_num⟩
  simp only [simulateFIFO, h, Option.map_some', averageFIFO, totalTurnaround,
    Process.complete, Process.create, List.foldl_cons, List.foldl_nil]
  norm_num

theorem loopSJF_scenario :
    loopSJF 10 scenario 3 = some
      { processes := [(Process.create 0 0 5).complete 5, (Process.create 1 1 3).complete 9,
          (Process.create 2 2 1).complete 6],
        currentTime := 9, completedProcesses := 3, readyQueue := [],
        runningProcess := none } := by rfl

/-- C9 as stated fails: no run of simulateSJF on the scenario registry with
`n = 3` ends with the completion times 5, 8, 9 of the FIFO order. -/
theorem sjf_scenario_is_not_fifo_order :
    ¬ ∃ fuel s, loopSJF fuel scenario 3 = some s ∧
      s.processes.map (fun p => p.completionTime) = [5, 8, 9] := by
  rintro ⟨fuel, s, hs, hc⟩
  have h1 := runLoop_mono _ _ fuel 10 _ _ hs
  have h2 := runLoop_mono _ _ 10 fuel _ _ loopSJF_scenario
  rw [Nat.add_comm] at h2
  have e : some s = some _ := h1.symm.trans h2
  simp only [Option.some.injEq] at e
  rw [e] at hc
  revert hc
  decide

/-- C9, amended: on the scenario registry with `n = 3`, simulateSJF completes
P0 at 5, then P2 at 6, then P1 at 9 (when P0 completes, both P1 and P2 are
ready and P2 has the shorter burst); the turnaround times of P0, P1, P2 are
5, 8, 4 and the value returned is 17/3. -/
theorem sjf_scenario :
    (loopSJF 10 scenario 3).map
        (fun s => s.processes.map (fun p => (p.id, p.completionTime, p.turnaroundTime)))
      = some [(0, 5, 5), (1, 9, 8), (2, 6, 4)] ∧
    simulateSJF 10 scenario 3 = some (17 / 3) := by
  refine ⟨by rw [loopSJF_scenario]; rfl, ?_⟩
  simp only [simulateSJF, loopSJF_scenario, Option.map_some', averageCompleted,
    actualCompleted, totalTurnaround, Process.complete, Process.create, List.foldl_cons,
    List.foldl_nil]
  norm_num

theorem nextArrival_single (p : Process) (t : Int) (hp : p.completionTime = -1)
    (ht : t < p.arrivalTime) (hmax : p.arrivalTime ≤ INT_MAX) :
    nextArrival [p] t = (p.arrivalTime, true) := by
  simp [nextArrival, hp, ht, hmax]

theorem bodyFIFO_single (arr cpu : Int) (hmax : arr ≤ INT_MAX) (s : FIFOState)
    (h : SingleOk arr cpu s.processes s.currentTime s.completedProcesses s.readyQueue none)
    (hg : s.completedProcesses < 1) :
    SingleOk arr cpu (bodyFIFO 1 s).1.processes (bodyFIFO 1 s).1.currentTime
      (bodyFIFO 1 s).1.completedProcesses (bodyFIFO 1 s).1.readyQueue none := by
  obtain ⟨ps, t, c, q⟩ := s
  dsimp only at h hg ⊢
  obtain ⟨p, hps, ha, htot, hcase⟩ := h
  have hr1 : List.range 1 = [0] := rfl
  rcases hcase with ⟨hc, hact, hrem, ht, hc0, hq, _⟩ | ⟨_, _, _, _, _, _, hr⟩ | ⟨_, _, hc1⟩
  · subst hps hq hc0
    by_cases hta : t = arr
    · subst hta
      have hadm : admitFIFO [p] [] t = ([{ p with active := true }], [0]) := by
        simp [admitFIFO, admitStepFIFO, hr1, deref, hact, hc, ha, sortQueue, insertSorted]
      have hb : bodyFIFO 1 ⟨[p], t, 0, []⟩ =
          (⟨[p.complete (t + p.totalCpuTime)], t + p.totalCpuTime, 1, []⟩, false) := by
        simp [bodyFIFO, hadm, deref, Process.complete]
      rw [hb]
      refine ⟨_, rfl, ha, htot, ?_⟩
      right; right
      refine ⟨?_, ?_, rfl⟩
      · simp only [Process.complete]
        omega
      · simp only [Process.complete]
        omega
    · have hlt : t < arr := by omega
      have hadm : admitFIFO [p] [] t = ([p], []) := by
        have : ¬ arr ≤ t := by omega
        simp [admitFIFO, admitStepFIFO, hr1, deref, hact, hc, ha, this]
      have hna := nextArrival_single p t hc (by rw [ha]; exact hlt) (by rw [ha]; exact hmax)
      refine ⟨p, ?_, ha, htot, ?_⟩
      · simp [bodyFIFO, hadm, hna]
      · left
        simp [bodyFIFO, hadm, hna, hc, hact, hrem, ha]
  · simp at hr
  · omega

theorem runUnit_single (arr cpu : Int) (p : Process) (t : Int)
    (ha : p.arrivalTime = arr) (htot : p.totalCpuTime = cpu) (hc : p.completionTime = -1)
    (hact : p.active = true) (hrem : 1 ≤ p.remainingCpuTime)
    (ht : t = arr + (cpu - p.remainingCpuTime)) :
    SingleOk arr cpu (runUnit [p] [] (t + 1) 0 0).processes
      (runUnit [p] [] (t + 1) 0 0).currentTime (runUnit [p] [] (t + 1) 0 0).completedProcesses
      (runUnit [p] [] (t + 1) 0 0).readyQueue (runUnit [p] [] (t + 1) 0 0).runningProcess := by
  by_cases hz : p.remainingCpuTime - 1 = 0
  · have e : runUnit [p] [] (t + 1) 0 0 =
        { processes := [{ p with remainingCpuTime := p.remainingCpuTime - 1,
                                 completionTime := t + 1,
                                 turnaroundTime := t + 1 - p.arrivalTime,
                                 active := false }],
          currentTime := t + 1, completedProcesses := 1, readyQueue := [],
          runningProcess := none } := by
      simp [runUnit, deref, hz]
    rw [e]
    refine ⟨_, rfl, ha, htot, ?_⟩
    right; right
    refine ⟨?_, ?_, rfl⟩
    · show t + 1 = arr + cpu
      omega
    · show t + 1 - p.arrivalTime = cpu
      omega
  · have e : runUnit [p] [] (t + 1) 0 0 =
        { processes := [{ p with remainingCpuTime := p.remainingCpuTime - 1 }],
          currentTime := t + 1, completedProcesses := 0, readyQueue := [],
          runningProcess := some 0 } := by
      simp [runUnit, deref, hz]
    rw [e]
    refine ⟨_, rfl, ha, htot, ?_⟩
    right; left
    refine ⟨hc, hact, ?_, ?_, rfl, rfl, rfl⟩
    · show 1 ≤ p.remainingCpuTime - 1
      omega
    · show t + 1 = arr + (cpu - (p.remainingCpuTime - 1))
      omega

theorem bodySJF_single (arr cpu : Int) (hmax : arr ≤ INT_MAX) (hcpu : 1 ≤ cpu)
    (s : SimState)
    (h : SingleOk arr cpu s.processes s.currentTime s.completedProcesses s.readyQueue
      s.runningProcess)
    (hg : s.completedProcesses < 1) :
    SingleOk arr cpu (bodySJF 1 s).1.processes (bodySJF 1 s).1.currentTime
      (bodySJF 1 s).1.completedProcesses (bodySJF 1 s).1.readyQueue
      (bodySJF 1 s).1.runningProcess := by
  obtain ⟨ps, t, c, q, r⟩ := s
  dsimp only at h hg ⊢
  obtain ⟨p, hps, ha, htot, hcase⟩ := h
  have hr1 : List.range 1 = [0] := rfl
  rcases hcase with ⟨hc, hact, hrem, ht, hc0, hq, hr⟩ | ⟨hc, hact, hrem, ht, hc0, hq, hr⟩ |
    ⟨_, _, hc1⟩
  · subst hps hq hc0 hr
    by_cases hta : t = arr
    · have hadm : admitSJF [p] [] none t = ([{ p with active := true }], [0]) := by
        simp [admitSJF, admitStepSJF, hr1, deref, hact, hc, ha, hta]
      have hsel : selectSJF [{ p with active := true }] [0] none = ([], some 0) := by
        simp [selectSJF, sortQueue, insertSorted]
      have hb : bodySJF 1 ⟨[p], t, 0, [], none⟩ =
          (runUnit [{ p with active := true }] [] (t + 1) 0 0, false) := by
        simp only [bodySJF, hadm, hsel]
      rw [hb]
      exact runUnit_single arr cpu { p with active := true } t ha htot hc rfl
        (by show 1 ≤ p.remainingCpuTime; omega)
        (by show t = arr + (cpu - p.remainingCpuTime); omega)
    · have hlt : t < arr := by omega
      have hadm : admitSJF [p] [] none t = ([p], []) := by
        have : ¬ arr ≤ t := by omega
        simp [admitSJF, admitStepSJF, hr1, deref, hact, hc, ha, this]
      have hsel : selectSJF [p] [] none = ([], none) := by simp [selectSJF]
      have hna := nextArrival_single p t hc (by rw [ha]; exact hlt) (by rw [ha]; exact hmax)
      refine ⟨p, ?_, ha, htot, ?_⟩
      · simp [bodySJF, hadm, hsel]
      · left
        simp [bodySJF, hadm, hsel, idleSJF, hna, hc, hact, hrem, ha]
  · subst hps hq hc0 hr
    have hadm : admitSJF [p] [] (some 0) t = ([p], []) := by
      simp [admitSJF, admitStepSJF, hr1, deref, hact]
    have hsel : selectSJF [p] [] (some 0) = ([], some 0) := by simp [selectSJF]
    have hb : bodySJF 1 ⟨[p], t, 0, [], some 0⟩ = (runUnit [p] [] (t + 1) 0 0, false) := by
      simp only [bodySJF, hadm, hsel]
    rw [hb]
    exact runUnit_single arr cpu p t ha htot hc hact hrem ht
  · omega

theorem bodySRT_single (arr cpu : Int) (hmax : arr ≤ INT_MAX) (hcpu : 1 ≤ cpu)
    (s : SimState)
    (h : SingleOk arr cpu s.processes s.currentTime s.completedProcesses s.readyQueue
      s.runningProcess)
    (hg : s.completedProcesses < 1) :
    SingleOk arr cpu (bodySRT 1 s).1.processes (bodySRT 1 s).1.currentTime
      (bodySRT 1 s).1.completedProcesses (bodySRT 1 s).1.readyQueue
      (bodySRT 1 s).1.runningProcess := by
  obtain ⟨ps, t, c, q, r⟩ := s
  dsimp only at h hg ⊢
  obtain ⟨p, hps, ha, htot, hcase⟩ := h
  have hr1 : List.range 1 = [0] := rfl
  rcases hcase with ⟨hc, hact, hrem, ht, hc0, hq, hr⟩ | ⟨hc, hact, hrem, ht, hc0, hq, hr⟩ |
    ⟨_, _, hc1⟩
  · subst hps hq hc0 hr
    by_cases hta : t = arr
    · have hadm : admitSRT [p] [] none t = ([{ p with active := true }], [0]) := by
        simp [admitSRT, admitStepSRT, hr1, deref, hact, hc, ha, hta]
      have hsel : selectSRT [{ p with active := true }] (requeueSRT [0] none) =
          ([], some 0) := by
        simp [selectSRT, requeueSRT, sortQueue, insertSorted]
      have hb : bodySRT 1 ⟨[p], t, 0, [], none⟩ =
          (runUnit [{ p with active := true }] [] (t + 1) 0 0, false) := by
        simp only [bodySRT, hadm, hsel]
      rw [hb]
      exact runUnit_single arr cpu { p with active := true } t ha htot hc rfl
        (by show 1 ≤ p.remainingCpuTime; omega)
        (by show t = arr + (cpu - p.remainingCpuTime); omega)
    · have hlt : t < arr := by omega
      have hadm : admitSRT [p] [] none t = ([p], []) := by
        have : ¬ arr ≤ t := by omega
        simp [admitSRT, admitStepSRT, hr1, deref, hact, hc, ha, this]
      have hsel : selectSRT [p] (requeueSRT [] none) = ([], none) := by
        simp [selectSRT, requeueSRT]
      have hna := nextArrival_single p t hc (by rw [ha]; exact hlt) (by rw [ha]; exact hmax)
      refine ⟨p, ?_, ha, htot, ?_⟩
      · simp [bodySRT, hadm, hsel]
      · left
        simp [bodySRT, hadm, hsel, idleSRT, hna, hc, hact, hrem, ha]
  · subst hps hq hc0 hr
    have hadm : admitSRT [p] [] (some 0) t = ([p], []) := by
      simp [admitSRT, admitStepSRT, hr1, deref, hact]
    have hsel : selectSRT [p] (requeueSRT [] (some 0)) = ([], some 0) := by
      simp [selectSRT, requeueSRT, sortQueue, insertSorted]
    have hb : bodySRT 1 ⟨[p], t, 0, [], some 0⟩ = (runUnit [p] [] (t + 1) 0 0, false) := by
      simp only [bodySRT, hadm, hsel]
    rw [hb]
    exact runUnit_single arr cpu p t ha htot hc hact hrem ht
  · omega

theorem singleOk_init (pid arr cpu : Int) (harr : 0 ≤ arr) (r : Option Nat) (hr : r = none) :
    SingleOk arr cpu [Process.create pid arr cpu] 0 0 [] r :=
  ⟨_, rfl, rfl, rfl, Or.inl ⟨rfl, rfl, rfl, harr, rfl, rfl, hr⟩⟩

theorem singleOk_final {arr cpu : Int} {ps : List Process} {t c : Int} {q : List Nat}
    {r : Option Nat} (hcpu : 1 ≤ cpu) (h : SingleOk arr cpu ps t c q r) (hc : c = 1) :
    totalTurnaround ps = (cpu : ℚ) ∧ actualCompleted ps = 1 := by
  obtain ⟨p, hps, _, _, hcase⟩ := h
  have hne : cpu ≠ -1 := by omega
  rcases hcase with ⟨_, _, _, _, hc0, _, _⟩ | ⟨_, _, _, _, hc0, _, _⟩ | ⟨_, hta, _⟩
  · omega
  · omega
  · subst hps
    simp [totalTurnaround, actualCompleted, hta, hne]

/-- C10: on a registry of one process, built by the constructor with
`0 <= arrivalTime` and `totalCpuTime >= 1`, and with `n = 1`, simulateFIFO,
simulateSJF and simulateSRT all return the burst time of that process. -/
theorem single_process_average (pid arr cpu : Int) (harr : 0 ≤ arr) (hmax : arr ≤ INT_MAX)
    (hcpu : 1 ≤ cpu) :
    ∃ fuel, simulateFIFO fuel [Process.create pid arr cpu] 1 = some (cpu : ℚ) ∧
      simulateSJF fuel [Process.create pid arr cpu] 1 = some (cpu : ℚ) ∧
      simulateSRT fuel [Process.create pid arr cpu] 1 = some (cpu : ℚ) := by
  have hf : Fresh [Process.create pid arr cpu] := by
    intro p hp
    simp only [List.mem_singleton] at hp
    subst hp; rfl
  have hr : InIntRange [Process.create pid arr cpu] := by
    intro p hp
    simp only [List.mem_singleton] at hp
    subst hp; exact hmax
  have hb : ∀ p ∈ [Process.create pid arr cpu], 1 ≤ p.totalCpuTime := by
    intro p hp
    simp only [List.mem_singleton] at hp
    subst hp; exact hcpu
  have hn : (([Process.create pid arr cpu].length : Nat) : Int) = 1 := rfl
  refine ⟨potential [Process.create pid arr cpu] 0 + 1, ?_, ?_, ?_⟩
  · obtain ⟨s, hs, _, hc⟩ := loopFIFO_total _ hf hr hb
      (potential [Process.create pid arr cpu] 0 + 1) (by omega)
    rw [hn] at hs hc
    have hk := runLoop_invariant _ (bodyFIFO 1)
      (fun s => SingleOk arr cpu s.processes s.currentTime s.completedProcesses
        s.readyQueue none)
      (fun s h hg => bodyFIFO_single arr cpu hmax s h (by simpa using hg))
      _ (initFIFO [Process.create pid arr cpu]) s (singleOk_init pid arr cpu harr none rfl) hs
    have hfin := singleOk_final hcpu hk hc
    have hs' : loopFIFO (potential [Process.create pid arr cpu] 0 + 1)
        [Process.create pid arr cpu] 1 = some s := hs
    simp [simulateFIFO, hs', averageFIFO, hc, hfin.1]
  · obtain ⟨s, hs, _, hc⟩ := loopSJF_total _ hf hr hb
      (potential [Process.create pid arr cpu] 0 + 1) (by omega)
    rw [hn] at hs hc
    have hk := runLoop_invariant _ (bodySJF 1)
      (fun s => SingleOk arr cpu s.processes s.currentTime s.completedProcesses
        s.readyQueue s.runningProcess)
      (fun s h hg => bodySJF_single arr cpu hmax hcpu s h (by simpa using hg))
      _ (initSim [Process.create pid arr cpu]) s (singleOk_init pid arr cpu harr none rfl) hs
    have hfin := singleOk_final hcpu hk hc
    have hs' : loopSJF (potential [Process.create pid arr cpu] 0 + 1)
        [Process.create pid arr cpu] 1 = some s := hs
    simp [simulateSJF, hs', averageCompleted, hfin.1, hfin.2]
  · obtain ⟨s, hs, _, hc⟩ := loopSRT_total _ hf hr hb
      (potential [Process.create pid arr cpu] 0 + 1) (by omega)
    rw [hn] at hs hc
    have hk := runLoop_invariant _ (bodySRT 1)
      (fun s => SingleOk arr cpu s.processes s.currentTime s.completedProcesses
        s.readyQueue s.runningProcess)
      (fun s h hg => bodySRT_single arr cpu hmax hcpu s h (by simpa using hg))
      _ (initSim [Process.create pid arr cpu]) s (singleOk_init pid arr cpu harr none rfl) hs
    have hfin := singleOk_final hcpu hk hc
    have hs' : loopSRT (potential [Process.create pid arr cpu] 0 + 1)
        [Process.create pid arr cpu] 1 = some s := hs
    simp [simulateSRT, hs', averageCompleted, hfin.1, hfin.2]

/-- C10 for the process with id 0 that arrives at 7 with a burst of 4. -/
theorem single_process_average_witness :
    (0 : Int) ≤ 7 ∧ (7 : Int) ≤ INT_MAX ∧ (1 : Int) ≤ 4 ∧
    ∃ fuel, simulateFIFO fuel [Process.create 0 7 4] 1 = some (((4 : Int)) : ℚ) ∧
      simulateSJF fuel [Process.create 0 7 4] 1 = some (((4 : Int)) : ℚ) ∧
      simulateSRT fuel [Process.create 0 7 4] 1 = some (((4 : Int)) : ℚ) :=
  ⟨by decide, by decide, by decide,
    single_process_average 0 7 4 (by decide) (by decide) (by decide)⟩

theorem generate_fold {γ : Type} (src : RandomSource γ) (m : Nat) :
    (List.range m).foldl (generateStep src) ([], src.gen) =
      ((List.range m).map
        (fun (i : Nat) => Process.create (i : Int) (arrivalAt src i) (max 1 (roundedCpuAt src i))),
        engineAt src m) := by
  induction m with
  | zero => rfl
  | succ m ih =>
    rw [List.range_succ, List.foldl_append, ih]
    simp [generateStep, arrivalAt, roundedCpuAt, engineAt]

theorem generateProcesses_eq {γ : Type} (n : Int) (src : RandomSource γ) :
    generateProcesses n src = (List.range n.toNat).map
      (fun (i : Nat) => Process.create (i : Int) (arrivalAt src i) (max 1 (roundedCpuAt src i))) := by
  unfold generateProcesses
  rw [generate_fold]

/-- C11: for every `n` and every random source, generateProcesses returns
`n` processes (none when `n` is negative); the process at position `i` is the
one the constructor builds from the id `i`, the arrival drawn in turn `i` and
the burst `max(1, rounded sample of turn i)`: its burst is at least 1, its
remaining time is its burst, its completion time is `-1` and it is inactive. -/
theorem generateProcesses_spec {γ : Type} (n : Int) (src : RandomSource γ) :
    (generateProcesses n src).length = n.toNat ∧
    (generateProcesses n src).map Process.id = (List.range n.toNat).map (fun (i : Nat) => (i : Int)) ∧
    ∀ i, i < n.toNat →
      deref (generateProcesses n src) i =
        Process.create i (arrivalAt src i) (max 1 (roundedCpuAt src i)) ∧
      (deref (generateProcesses n src) i).id = i ∧
      (deref (generateProcesses n src) i).totalCpuTime = max 1 (roundedCpuAt src i) ∧
      1 ≤ (deref (generateProcesses n src) i).totalCpuTime ∧
      (deref (generateProcesses n src) i).remainingCpuTime =
        (deref (generateProcesses n src) i).totalCpuTime ∧
      (deref (generateProcesses n src) i).completionTime = -1 ∧
      (deref (generateProcesses n src) i).active = false := by
  rw [generateProcesses_eq]
  refine ⟨by simp, ?_, ?_⟩
  · simp [Process.create, Function.comp_def]
  · intro i hi
    have e : deref ((List.range n.toNat).map
        (fun (i : Nat) => Process.create (i : Int) (arrivalAt src i) (max 1 (roundedCpuAt src i)))) i =
        Process.create i (arrivalAt src i) (max 1 (roundedCpuAt src i)) := by
      unfold deref
      simp [List.getD_eq_getElem?_getD, List.getElem?_map, List.getElem?_range hi]
    rw [e]
    refine ⟨rfl, rfl, rfl, ?_, rfl, rfl, rfl⟩
    exact le_max_left _ _

/-- The two shapes of an iteration of `simulateFIFO` from a state that
satisfies the invariant: the idle branch, or the front of the queue runs to
completion. -/
theorem bodyFIFO_cases {ps0 : List Process} (n : Int) {s : FIFOState} (h : s.Ok ps0) :
    ∃ ps1, ps1 = (admitFIFO s.processes s.readyQueue s.currentTime).1 ∧
      (∀ i, ∃ b, deref ps1 i = { deref s.processes i with active := b }) ∧
      ps1.length = s.processes.length ∧
      ((Inv ps0 ps1 s.currentTime s.completedProcesses [] none ∧
          (∀ i, i < ps1.length → (deref ps1 i).completionTime = -1 →
            (deref ps1 i).arrivalTime ≤ s.currentTime → (deref ps1 i).active = true) ∧
          chosenFIFO s = none ∧
          (bodyFIFO n s).1.processes = ps1 ∧
          (bodyFIFO n s).1.completedProcesses = s.completedProcesses ∧
          (bodyFIFO n s).1.readyQueue = [] ∧
          ((nextArrival ps1 s.currentTime).2 = true →
            bodyFIFO n s = (⟨ps1, (nextArrival ps1 s.currentTime).1, s.completedProcesses, []⟩,
              false))) ∨
       (∃ cur rest, Inv ps0 ps1 s.currentTime s.completedProcesses (cur :: rest) none ∧
          chosenFIFO s = some cur ∧
          bodyFIFO n s =
            (⟨ps1.set cur ((deref ps1 cur).complete
                (s.currentTime + (deref ps1 cur).totalCpuTime)),
              s.currentTime + (deref ps1 cur).totalCpuTime, s.completedProcesses + 1, rest⟩,
              false))) := by
  have post := admitFIFO_post h
  have hlen := post.length h
  refine ⟨_, rfl, post.same, hlen, ?_⟩
  cases hq : (admitFIFO s.processes s.readyQueue s.currentTime).2 with
  | nil =>
    left
    rw [hq] at post
    rw [← hlen] at post
    refine ⟨post.inv, post.all_active, by simp [chosenFIFO, hq], ?_, ?_, ?_, ?_⟩
    · simp only [bodyFIFO, hq]; split_ifs <;> rfl
    · simp only [bodyFIFO, hq]; split_ifs <;> rfl
    · simp only [bodyFIFO, hq]; split_ifs <;> rfl
    · intro hf
      simp only [bodyFIFO, hq, hf, if_true]
  | cons cur rest =>
    right
    rw [hq] at post
    exact ⟨cur, rest, post.inv, by simp [chosenFIFO, hq], by simp only [bodyFIFO, hq]⟩

/-- The two shapes of an iteration of `simulateSJF` from a state that
satisfies the invariant: the idle branch, or one time unit of a process that
was running already or is selected in this iteration. -/
theorem bodySJF_cases {ps0 : List Process} (n : Int) {s : SimState} (h : s.Ok ps0) :
    ∃ ps1, ps1 = (admitSJF s.processes s.readyQueue s.runningProcess s.currentTime).1 ∧
      (∀ i, ∃ b, deref ps1 i = { deref s.processes i with active := b }) ∧
      ps1.length = s.processes.length ∧
      ((Inv ps0 ps1 s.currentTime s.completedProcesses [] none ∧
          (∀ i, i < ps1.length → (deref ps1 i).completionTime = -1 →
            (deref ps1 i).arrivalTime ≤ s.currentTime → (deref ps1 i).active = true) ∧
          s.runningProcess = none ∧ chosenSJF s = none ∧
          bodySJF n s =
            (⟨ps1, (idleSJF n ps1 [] s.currentTime s.completedProcesses).1,
              s.completedProcesses, [], none⟩,
              (idleSJF n ps1 [] s.currentTime s.completedProcesses).2)) ∨
       (∃ q1 r, Inv ps0 ps1 s.currentTime s.completedProcesses q1 (some r) ∧
          (s.runningProcess = some r ∨ (s.runningProcess = none ∧ chosenSJF s = some r)) ∧
          bodySJF n s =
            (runUnit ps1 q1 (s.currentTime + 1) s.completedProcesses r, false))) := by
  have post := admitSJF_post h
  have hlen := post.length h
  refine ⟨_, rfl, post.same, hlen, ?_⟩
  cases hr : s.runningProcess with
  | some k =>
    right
    rw [hr] at post
    have hsel : selectSJF (admitSJF s.processes s.readyQueue (some k) s.currentTime).1
        (admitSJF s.processes s.readyQueue (some k) s.currentTime).2 (some k) =
        ((admitSJF s.processes s.readyQueue (some k) s.currentTime).2, some k) := by
      simp [selectSJF]
    exact ⟨_, k, post.inv, Or.inl rfl, by simp only [bodySJF, hr, hsel]⟩
  | none =>
    rw [hr] at post hlen
    by_cases hq : (admitSJF s.processes s.readyQueue none s.currentTime).2 = []
    · left
      have hsel : selectSJF (admitSJF s.processes s.readyQueue none s.currentTime).1
          (admitSJF s.processes s.readyQueue none s.currentTime).2 none = ([], none) := by
        simp [selectSJF, hq]
      rw [hq] at post
      rw [← hlen] at post
      exact ⟨post.inv, post.all_active, rfl, by simp [chosenSJF, hr, hq],
        by simp only [bodySJF, hr, hsel]⟩
    · right
      obtain ⟨k, rest, hs, hperm⟩ := sortQueue_cons Process.compareTotalCpuTime
        (admitSJF s.processes s.readyQueue none s.currentTime).1 _ hq
      have hsel : selectSJF (admitSJF s.processes s.readyQueue none s.currentTime).1
          (admitSJF s.processes s.readyQueue none s.currentTime).2 none = (rest, some k) := by
        simp [selectSJF, hq, hs]
      exact ⟨rest, k, Inv_select (Inv_perm post.inv hperm),
        Or.inr ⟨rfl, by simp [chosenSJF, hr, hq, hsel]⟩, by simp only [bodySJF, hr, hsel]⟩

/-- The two shapes of an iteration of `simulateSRT` from a state that
satisfies the invariant: the idle branch, or one time unit of the chosen
process. -/
theorem bodySRT_cases {ps0 : List Process} (n : Int) {s : SimState} (h : s.Ok ps0) :
    ∃ ps1, ps1 = (admitSRT s.processes s.readyQueue s.runningProcess s.currentTime).1 ∧
      (∀ i, ∃ b, deref ps1 i = { deref s.processes i with active := b }) ∧
      ps1.length = s.processes.length ∧
      ((Inv ps0 ps1 s.currentTime s.completedProcesses [] none ∧
          (∀ i, i < ps1.length → (deref ps1 i).completionTime = -1 →
            (deref ps1 i).arrivalTime ≤ s.currentTime → (deref ps1 i).active = true) ∧
          s.runningProcess = none ∧ chosenSRT s = none ∧
          bodySRT n s =
            (⟨ps1, (idleSRT n ps1 s.currentTime s.completedProcesses).1,
              s.completedProcesses, [], none⟩,
              (idleSRT n ps1 s.currentTime s.completedProcesses).2)) ∨
       (∃ q1 r, Inv ps0 ps1 s.currentTime s.completedProcesses q1 (some r) ∧
          chosenSRT s = some r ∧
          bodySRT n s =
            (runUnit ps1 q1 (s.currentTime + 1) s.completedProcesses r, false))) := by
  have post := admitSRT_post h
  have hlen := post.length h
  have hinv := Inv_requeue post.inv
  refine ⟨_, rfl, post.same, hlen, ?_⟩
  by_cases hq : requeueSRT (admitSRT s.processes s.readyQueue s.runningProcess s.currentTime).2
      s.runningProcess = []
  · left
    have hsel : selectSRT (admitSRT s.processes s.readyQueue s.runningProcess s.currentTime).1
        (requeueSRT (admitSRT s.processes s.readyQueue s.runningProcess s.currentTime).2
          s.runningProcess) = ([], none) := by
      simp [selectSRT, hq]
    rw [hq] at hinv
    have hrun : s.runningProcess = none := by
      cases hr : s.runningProcess with
      | none => rfl
      | some k => rw [hr] at hq; simp [requeueSRT] at hq
    have hq1 : (admitSRT s.processes s.readyQueue s.runningProcess s.currentTime).2 = [] := by
      have hq2 := hq
      rw [hrun] at hq2 ⊢
      simpa [requeueSRT] using hq2
    rw [hq1] at post
    rw [← hlen] at post
    exact ⟨hinv, post.all_active, hrun, by simp only [chosenSRT, hsel],
      by simp only [bodySRT, hsel]⟩
  · right
    obtain ⟨k, rest, hs, hperm⟩ := sortQueue_cons Process.compareRemainingCpuTime
      (admitSRT s.processes s.readyQueue s.runningProcess s.currentTime).1 _ hq
    have hsel : selectSRT (admitSRT s.processes s.readyQueue s.runningProcess s.currentTime).1
        (requeueSRT (admitSRT s.processes s.readyQueue s.runningProcess s.currentTime).2
          s.runningProcess) = (rest, some k) := by
      simp [selectSRT, hq, hs]
    exact ⟨rest, k, Inv_select (Inv_perm hinv hperm), by simp only [chosenSRT, hsel],
      by simp only [bodySRT, hsel]⟩

theorem idleSJF_found {ps : List Process} (n t c : Int) (q : List Nat)
    (hf : (nextArrival ps t).2 = true) : idleSJF n ps q t c = ((nextArrival ps t).1, false) := by
  simp [idleSJF, hf]

theorem idleSRT_found {ps : List Process} (n t c : Int)
    (hf : (nextArrival ps t).2 = true) : idleSRT n ps t c = ((nextArrival ps t).1, false) := by
  simp [idleSRT, hf]

theorem runUnit_count (ps : List Process) (q : List Nat) (t c : Int) (r : Nat) :
    c ≤ (runUnit ps q t c r).completedProcesses ∧
      (runUnit ps q t c r).completedProcesses ≤ c + 1 := by
  by_cases hz : (deref ps r).remainingCpuTime - 1 = 0
  · simp [runUnit, hz]
  · simp [runUnit, hz]

/-- An iteration of `simulateFIFO`, for every `n`, from a state with fewer
completions than processes: no `break`, the invariant is kept, the measure
drops and at most one more process is complete. -/
theorem bodyFIFO_progress {ps0 : List Process} (n : Int) {s : FIFOState} (h : s.Ok ps0)
    (hc : s.completedProcesses < ps0.length) :
    (bodyFIFO n s).2 = false ∧ (bodyFIFO n s).1.Ok ps0 ∧
      potential (bodyFIFO n s).1.processes (bodyFIFO n s).1.currentTime <
        potential s.processes s.currentTime ∧
      (bodyFIFO n s).1.completedProcesses ≤ s.completedProcesses + 1 := by
  obtain ⟨ps1, _, hsame, hlen, hcase⟩ := bodyFIFO_cases n h
  have hpot := potential_same s.currentTime hlen hsame
  rcases hcase with ⟨hinv, hadm, _, _, _, _, hb⟩ | ⟨cur, rest, hinv, _, hb⟩
  · have hi := idle_step hinv hadm (by rw [hinv.len]; exact hc)
    rw [hb hi.1]
    exact ⟨rfl, hi.2.2.1, by rw [← hpot]; exact hi.2.2.2, by simp⟩
  · have hr := run_fifo_step hinv
    rw [hb]
    exact ⟨rfl, hr.1, by rw [← hpot]; exact hr.2, le_refl _⟩

theorem bodySJF_progress {ps0 : List Process} (n : Int) {s : SimState} (h : s.Ok ps0)
    (hc : s.completedProcesses < ps0.length) :
    (bodySJF n s).2 = false ∧ (bodySJF n s).1.Ok ps0 ∧
      potential (bodySJF n s).1.processes (bodySJF n s).1.currentTime <
        potential s.processes s.currentTime ∧
      (bodySJF n s).1.completedProcesses ≤ s.completedProcesses + 1 := by
  obtain ⟨ps1, _, hsame, hlen, hcase⟩ := bodySJF_cases n h
  have hpot := potential_same s.currentTime hlen hsame
  rcases hcase with ⟨hinv, hadm, _, _, hb⟩ | ⟨q1, r, hinv, _, hb⟩
  · have hi := idle_step hinv hadm (by rw [hinv.len]; exact hc)
    rw [hb, idleSJF_found n _ _ _ hi.1]
    exact ⟨rfl, hi.2.2.1, by rw [← hpot]; exact hi.2.2.2, by simp⟩
  · have hu := run_unit_step hinv
    rw [hb]
    exact ⟨rfl, hu.1, by rw [← hpot]; exact hu.2, (runUnit_count _ _ _ _ _).2⟩

theorem bodySRT_progress {ps0 : List Process} (n : Int) {s : SimState} (h : s.Ok ps0)
    (hc : s.completedProcesses < ps0.length) :
    (bodySRT n s).2 = false ∧ (bodySRT n s).1.Ok ps0 ∧
      potential (bodySRT n s).1.processes (bodySRT n s).1.currentTime <
        potential s.processes s.currentTime ∧
      (bodySRT n s).1.completedProcesses ≤ s.completedProcesses + 1 := by
  obtain ⟨ps1, _, hsame, hlen, hcase⟩ := bodySRT_cases n h
  have hpot := potential_same s.currentTime hlen hsame
  rcases hcase with ⟨hinv, hadm, _, _, hb⟩ | ⟨q1, r, hinv, _, hb⟩
  · have hi := idle_step hinv hadm (by rw [hinv.len]; exact hc)
    rw [hb, idleSRT_found n _ _ hi.1]
    exact ⟨rfl, hi.2.2.1, by rw [← hpot]; exact hi.2.2.2, by simp⟩
  · have hu := run_unit_step hinv
    rw [hb]
    exact ⟨rfl, hu.1, by rw [← hpot]; exact hu.2, (runUnit_count _ _ _ _ _).2⟩

theorem loopFIFO_total_le (ps : List Process) (hf : Fresh ps) (hr : InIntRange ps)
    (hcpu : ∀ p ∈ ps, 1 ≤ p.totalCpuTime) (n : Int) (hn0 : 0 ≤ n) (hn : n ≤ ps.length)
    (fuel : Nat) (hfuel : potential ps 0 < fuel) :
    ∃ s, loopFIFO fuel ps n = some s ∧ s.Ok ps ∧ s.completedProcesses = n := by
  obtain ⟨s, hs, hI, hg⟩ := runLoop_terminates
    (fun s : FIFOState => decide (s.completedProcesses < n))
    (bodyFIFO n) (fun s => s.Ok ps ∧ s.completedProcesses ≤ n)
    (fun s => potential s.processes s.currentTime)
    (fun s hI hg => by
      have hg' : s.completedProcesses < n := by simpa using hg
      have hp := bodyFIFO_progress n hI.1 (by omega)
      exact ⟨hp.1, ⟨hp.2.1, by omega⟩, hp.2.2.1⟩)
    fuel (initFIFO ps) ⟨Inv_init ps hf hr hcpu, hn0⟩ hfuel
  have hg' : ¬ s.completedProcesses < n := by simpa using hg
  exact ⟨s, hs, hI.1, by omega⟩

theorem loopSJF_total_le (ps : List Process) (hf : Fresh ps) (hr : InIntRange ps)
    (hcpu : ∀ p ∈ ps, 1 ≤ p.totalCpuTime) (n : Int) (hn0 : 0 ≤ n) (hn : n ≤ ps.length)
    (fuel : Nat) (hfuel : potential ps 0 < fuel) :
    ∃ s, loopSJF fuel ps n = some s ∧ s.Ok ps ∧ s.completedProcesses = n := by
  obtain ⟨s, hs, hI, hg⟩ := runLoop_terminates
    (fun s : SimState => decide (s.completedProcesses < n))
    (bodySJF n) (fun s => s.Ok ps ∧ s.completedProcesses ≤ n)
    (fun s => potential s.processes s.currentTime)
    (fun s hI hg => by
      have hg' : s.completedProcesses < n := by simpa using hg
      have hp := bodySJF_progress n hI.1 (by omega)
      exact ⟨hp.1, ⟨hp.2.1, by omega⟩, hp.2.2.1⟩)
    fuel (initSim ps) ⟨Inv_init ps hf hr hcpu, hn0⟩ hfuel
  have hg' : ¬ s.completedProcesses < n := by simpa using hg
  exact ⟨s, hs, hI.1, by omega⟩

theorem loopSRT_total_le (ps : List Process) (hf : Fresh ps) (hr : InIntRange ps)
    (hcpu : ∀ p ∈ ps, 1 ≤ p.totalCpuTime) (n : Int) (hn0 : 0 ≤ n) (hn : n ≤ ps.length)
    (fuel : Nat) (hfuel : potential ps 0 < fuel) :
    ∃ s, loopSRT fuel ps n = some s ∧ s.Ok ps ∧ s.completedProcesses = n := by
  obtain ⟨s, hs, hI, hg⟩ := runLoop_terminates
    (fun s : SimState => decide (s.completedProcesses < n))
    (bodySRT n) (fun s => s.Ok ps ∧ s.completedProcesses ≤ n)
    (fun s => potential s.processes s.currentTime)
    (fun s hI hg => by
      have hg' : s.completedProcesses < n := by simpa using hg
      have hp := bodySRT_progress n hI.1 (by omega)
      exact ⟨hp.1, ⟨hp.2.1, by omega⟩, hp.2.2.1⟩)
    fuel (initSim ps) ⟨Inv_init ps hf hr hcpu, hn0⟩ hfuel
  have hg' : ¬ s.completedProcesses < n := by simpa using hg
  exact ⟨s, hs, hI.1, by omega⟩

theorem sum_range_deref (f : Process → Int) (ps : List Process) :
    ∑ i in Finset.range ps.length, f (deref ps i) = (ps.map f).sum := by
  induction ps with
  | nil => simp
  | cons p ps ih =>
    rw [List.length_cons, Finset.sum_range_succ', List.map_cons, List.sum_cons, ← ih]
    have h0 : deref (p :: ps) 0 = p := rfl
    have hs : ∀ i, deref (p :: ps) (i + 1) = deref ps i := fun i => rfl
    simp only [h0, hs]
    omega

theorem totalTurnaround_fold (ps : List Process) (acc : ℚ) :
    ps.foldl (fun acc p => if p.turnaroundTime ≠ -1 then acc + (p.turnaroundTime : ℚ) else acc)
      acc = acc + (ps.map
        (fun p => if p.turnaroundTime ≠ -1 then (p.turnaroundTime : ℚ) else 0)).sum := by
  induction ps generalizing acc with
  | nil => simp
  | cons p ps ih =>
    rw [List.foldl_cons, ih, List.map_cons, List.sum_cons]
    by_cases h : p.turnaroundTime = -1
    · simp [h]
    · simp only [ne_eq, h, not_false_eq_true, if_true]
      ring

theorem actualCompleted_fold (ps : List Process) (acc : Int) :
    ps.foldl (fun acc p => if p.turnaroundTime ≠ -1 then acc + 1 else acc) acc =
      acc + (ps.map (fun p => if p.turnaroundTime ≠ -1 then (1 : Int) else 0)).sum := by
  induction ps generalizing acc with
  | nil => simp
  | cons p ps ih =>
    rw [List.foldl_cons, ih, List.map_cons, List.sum_cons]
    by_cases h : p.turnaroundTime = -1
    · simp [h]
    · simp only [ne_eq, h, not_false_eq_true, if_true]
      ring

theorem completed_sums (ps : List Process)
    (h : ∀ p ∈ ps, (p.turnaroundTime ≠ -1 ↔ p.completionTime ≠ -1)) :
    totalTurnaround ps = completedTurnaround ps ∧ actualCompleted ps = completedCount ps ∧
      completedCount ps =
        (ps.map (fun p => if p.completionTime = -1 then (0 : Int) else 1)).sum := by
  unfold totalTurnaround actualCompleted completedTurnaround completedCount
  rw [totalTurnaround_fold, actualCompleted_fold]
  induction ps with
  | nil => simp
  | cons p ps ih =>
    have hp := h p (List.mem_cons_self _ _)
    obtain ⟨h1, h2, h3⟩ := ih (fun q hq => h q (List.mem_cons_of_mem _ hq))
    simp only [zero_add] at h1 h2 ⊢
    by_cases hc : p.completionTime = -1
    · have ht : p.turnaroundTime = -1 := by
        by_contra hne
        exact (hp.1 hne) hc
      simp only [List.map_cons, List.sum_cons, ht, hc, ne_eq, not_true_eq_false, if_false,
        if_true, zero_add, decide_False, List.filter_cons_of_neg, Bool.false_eq_true,
        not_false_eq_true]
      exact ⟨h1, h2, h3⟩
    · have ht : p.turnaroundTime ≠ -1 := hp.2 hc
      simp only [List.map_cons, List.sum_cons, ht, hc, ne_eq, not_false_eq_true, if_true,
        if_false, decide_True, List.filter_cons_of_pos, List.length_cons, Nat.cast_add,
        Nat.cast_one]
      refine ⟨by rw [h1], by rw [h2]; ring, by rw [h3]; ring⟩

theorem Inv.turnaround_iff {ps0 ps : List Process} {t c : Int} {q : List Nat}
    {r : Option Nat} (h : Inv ps0 ps t c q r) :
    ∀ p ∈ ps, (p.turnaroundTime ≠ -1 ↔ p.completionTime ≠ -1) := by
  intro p hp
  obtain ⟨i, hi, e⟩ := (mem_iff_deref ps p).1 hp
  have P := h.procs i hi
  rw [← e]
  constructor
  · intro hne hc
    exact hne (P.pend_ta hc)
  · intro hc
    have h1 := P.done_ta hc
    have h2 := P.done_ge hc
    have h3 := P.tot_pos
    omega

/-- Under the invariant the sums of the final loops of the simulators are the
sum and the count over the processes that have a completion time, and the
count is the loop counter. -/
theorem Inv.sums {ps0 ps : List Process} {t c : Int} {q : List Nat} {r : Option Nat}
    (h : Inv ps0 ps t c q r) :
    totalTurnaround ps = completedTurnaround ps ∧ actualCompleted ps = c ∧
      completedCount ps = c := by
  obtain ⟨h1, h2, h3⟩ := completed_sums ps h.turnaround_iff
  have h4 : completedCount ps = c := by
    rw [h3, h.count, sum_range_deref (fun p => if p.completionTime = -1 then (0 : Int) else 1)]
  exact ⟨h1, by rw [h2, h4], h4⟩

/-- C12 as stated fails: with `n = 1` on the scenario registry each simulator
returns an average although two processes have no completion time: simulateFIFO
and simulateSJF return 5, the turnaround of P0, and simulateSRT returns 1, the
turnaround of P2. -/
theorem average_despite_missing_completion :
    (∃ s, loopFIFO 2 scenario 1 = some s ∧
      s.processes.map (fun p => p.completionTime) = [5, -1, -1] ∧
      simulateFIFO 2 scenario 1 = some 5) ∧
    (∃ s, loopSJF 6 scenario 1 = some s ∧
      s.processes.map (fun p => p.completionTime) = [5, -1, -1] ∧
      simulateSJF 6 scenario 1 = some 5) ∧
    (∃ s, loopSRT 4 scenario 1 = some s ∧
      s.processes.map (fun p => p.completionTime) = [-1, -1, 3] ∧
      simulateSRT 4 scenario 1 = some 1) := by
  refine ⟨⟨_, rfl, rfl, ?_⟩, ⟨_, rfl, rfl, ?_⟩, ⟨_, rfl, rfl, ?_⟩⟩
  · have h : loopFIFO 2 scenario 1 = some
        { processes := [(Process.create 0 0 5).complete 5, Process.create 1 1 3,
            Process.create 2 2 1],
          currentTime := 5, completedProcesses := 1, readyQueue := [] } := by rfl
    simp only [simulateFIFO, h, Option.map_some', averageFIFO, totalTurnaround,
      Process.complete, Process.create, List.foldl_cons, List.foldl_nil]
    norm_num
  · have h : loopSJF 6 scenario 1 = some
        { processes := [(Process.create 0 0 5).complete 5,
            { Process.create 1 1 3 with active := true },
            { Process.create 2 2 1 with active := true }],
          currentTime := 5, completedProcesses := 1, readyQueue := [1, 2],
          runningProcess := none } := by rfl
    simp only [simulateSJF, h, Option.map_some', averageCompleted, actualCompleted,
      totalTurnaround, Process.complete, Process.create, List.foldl_cons, List.foldl_nil]
    norm_num
  · have h : loopSRT 4 scenario 1 = some
        { processes := [{ Process.create 0 0 5 with remainingCpuTime := 4, active := true },
            { Process.create 1 1 3 with remainingCpuTime := 2, active := true },
            (Process.create 2 2 1).complete 3],
          currentTime := 3, completedProcesses := 1, readyQueue := [1, 0],
          runningProcess := none } := by rfl
    simp only [simulateSRT, h, Option.map_some', averageCompleted, actualCompleted,
      totalTurnaround, Process.complete, Process.create, List.foldl_cons, List.foldl_nil]
    norm_num

theorem completedTurnaround_all (ps : List Process)
    (h : ∀ p ∈ ps, p.completionTime ≠ -1 ∧
      p.turnaroundTime = p.completionTime - p.arrivalTime) :
    completedTurnaround ps =
      (ps.map (fun p => ((p.completionTime - p.arrivalTime : Int) : ℚ))).sum := by
  unfold completedTurnaround
  have hfil : ps.filter (fun p => decide (p.completionTime ≠ -1)) = ps := by
    rw [List.filter_eq_self]
    intro p hp
    simpa using (h p hp).1
  rw [hfil]
  congr 1
  apply List.map_congr_left
  intro p hp
  rw [(h p hp).2]

theorem scenario_ne_nil : scenario ≠ [] := by simp [scenario]

/-- In the idle branch, under the invariant and with fewer completions than
processes, the scan finds the earliest future arrival among the processes
without a completion time. -/
theorem idle_jump {ps0 ps ps1 : List Process} {t c : Int}
    (hsame : ∀ i, ∃ b, deref ps1 i = { deref ps i with active := b })
    (hlen : ps1.length = ps.length)
    (hinv : Inv ps0 ps1 t c [] none)
    (hadm : ∀ i, i < ps1.length → (deref ps1 i).completionTime = -1 →
      (deref ps1 i).arrivalTime ≤ t → (deref ps1 i).active = true)
    (hc : c < ps0.length) :
    (nextArrival ps1 t).2 = true ∧
    (∃ p ∈ ps, p.completionTime = -1 ∧ t < p.arrivalTime ∧
      p.arrivalTime = (nextArrival ps1 t).1) ∧
    (∀ p ∈ ps, p.completionTime = -1 → (nextArrival ps1 t).1 ≤ p.arrivalTime) := by
  have hi := idle_step hinv hadm (by rw [hinv.len]; exact hc)
  obtain ⟨p, hp, hpc, hpa, hpe⟩ := nextArrival_attained ps1 t hinv.mem_arr_le hi.1
  obtain ⟨j, hj, ej⟩ := (mem_iff_deref ps1 p).1 hp
  refine ⟨hi.1, ?_, ?_⟩
  · obtain ⟨b, eb⟩ := hsame j
    refine ⟨deref ps j, (mem_iff_deref ps _).2 ⟨j, by rw [← hlen]; exact hj, rfl⟩, ?_, ?_, ?_⟩
    · rw [← ej, eb] at hpc; exact hpc
    · rw [← ej, eb] at hpa; exact hpa
    · rw [← ej, eb] at hpe; exact hpe
  · intro p hp hpc
    obtain ⟨j, hj, ej⟩ := (mem_iff_deref ps p).1 hp
    obtain ⟨b, eb⟩ := hsame j
    have hj1 : j < ps1.length := by rw [hlen]; exact hj
    have hpc1 : (deref ps1 j).completionTime = -1 := by rw [eb, ej]; exact hpc
    have harr : (deref ps1 j).arrivalTime = p.arrivalTime := by rw [eb, ej]
    have hfut : t < (deref ps1 j).arrivalTime := by
      by_contra hle
      have hact := hadm j hj1 hpc1 (by omega)
      have := (hinv.procs j hj1).active_iff.1 hact
      simp at this
    have := nextArrival_le ps1 t (deref ps1 j) ((mem_iff_deref ps1 _).2 ⟨j, hj1, rfl⟩)
      hpc1 hfut
    omega

/-- C16: in simulateSJF and simulateSRT, from a registry as the constructor
builds it with bursts at least 1 and `n` its size, whenever an iteration
enters the idle branch (the loop is running, and after the arrivals there is
no running process and nothing to select), some process without a completion
time arrives later than `currentTime`; the scan finds it, `currentTime`
becomes the earliest such arrival, and the idle branch returns through its
first case, not through a `currentTime++` fallback or a `break`. -/
theorem idle_branch_jumps_to_next_arrival (ps : List Process) (hf : Fresh ps)
    (hr : InIntRange ps) (hcpu : ∀ p ∈ ps, 1 ≤ p.totalCpuTime) :
    (∀ (k : Nat) (s : SimState),
      iterLoop (fun s => decide (s.completedProcesses < (ps.length : Int)))
        (bodySJF ps.length) k (initSim ps) = some s →
      s.completedProcesses < ps.length →
      s.runningProcess = none → chosenSJF s = none →
      (nextArrival (afterArrivalsSJF s) s.currentTime).2 = true ∧
      idleSJF ps.length (afterArrivalsSJF s) [] s.currentTime s.completedProcesses =
        ((nextArrival (afterArrivalsSJF s) s.currentTime).1, false) ∧
      (bodySJF ps.length s).2 = false ∧
      (∃ p ∈ s.processes, p.completionTime = -1 ∧ s.currentTime < p.arrivalTime ∧
        p.arrivalTime = (bodySJF ps.length s).1.currentTime) ∧
      (∀ p ∈ s.processes, p.completionTime = -1 →
        (bodySJF ps.length s).1.currentTime ≤ p.arrivalTime)) ∧
    (∀ (k : Nat) (s : SimState),
      iterLoop (fun s => decide (s.completedProcesses < (ps.length : Int)))
        (bodySRT ps.length) k (initSim ps) = some s →
      s.completedProcesses < ps.length →
      chosenSRT s = none →
      (nextArrival (afterArrivalsSRT s) s.currentTime).2 = true ∧
      idleSRT ps.length (afterArrivalsSRT s) s.currentTime s.completedProcesses =
        ((nextArrival (afterArrivalsSRT s) s.currentTime).1, false) ∧
      (bodySRT ps.length s).2 = false ∧
      (∃ p ∈ s.processes, p.completionTime = -1 ∧ s.currentTime < p.arrivalTime ∧
        p.arrivalTime = (bodySRT ps.length s).1.currentTime) ∧
      (∀ p ∈ s.processes, p.completionTime = -1 →
        (bodySRT ps.length s).1.currentTime ≤ p.arrivalTime)) := by
  constructor
  · intro k s hs hc hrun hch
    have hok : s.Ok ps := iterLoop_invariant _ (bodySJF ps.length) (SimState.Ok ps)
      (fun s h _ => bodySJF_ok _ h) k (initSim ps) s (Inv_init ps hf hr hcpu) hs
    obtain ⟨ps1, e1, hsame, hlen, hcase⟩ := bodySJF_cases ps.length hok
    have e1' : afterArrivalsSJF s = ps1 := e1.symm
    rcases hcase with ⟨hinv, hadm, _, _, hb⟩ | ⟨q1, r, _, hsel, _⟩
    · obtain ⟨hfound, hex, hmin⟩ := idle_jump hsame hlen hinv hadm hc
      have hidle := idleSJF_found (ps.length : Int) s.currentTime s.completedProcesses []
        hfound
      rw [e1', hb, hidle]
      exact ⟨hfound, rfl, rfl, hex, hmin⟩
    · rcases hsel with h1 | ⟨_, h2⟩
      · rw [hrun] at h1; simp at h1
      · rw [hch] at h2; simp at h2
  · intro k s hs hc hch
    have hok : s.Ok ps := iterLoop_invariant _ (bodySRT ps.length) (SimState.Ok ps)
      (fun s h _ => bodySRT_ok _ h) k (initSim ps) s (Inv_init ps hf hr hcpu) hs
    obtain ⟨ps1, e1, hsame, hlen, hcase⟩ := bodySRT_cases ps.length hok
    have e1' : afterArrivalsSRT s = ps1 := e1.symm
    rcases hcase with ⟨hinv, hadm, _, _, hb⟩ | ⟨q1, r, _, hsel, _⟩
    · obtain ⟨hfound, hex, hmin⟩ := idle_jump hsame hlen hinv hadm hc
      have hidle := idleSRT_found (ps.length : Int) s.currentTime s.completedProcesses hfound
      rw [e1', hb, hidle]
      exact ⟨hfound, rfl, rfl, hex, hmin⟩
    · rw [hch] at hsel; simp at hsel

theorem fresh_lateArrival : Fresh lateArrival := by
  intro p hp
  simp only [lateArrival, List.mem_singleton] at hp
  subst hp; rfl

theorem inIntRange_lateArrival : InIntRange lateArrival := by
  intro p hp
  simp only [lateArrival, List.mem_singleton] at hp
  subst hp; decide

theorem bursts_lateArrival : ∀ p ∈ lateArrival, 1 ≤ p.totalCpuTime := by
  intro p hp
  simp only [lateArrival, List.mem_singleton] at hp
  subst hp; decide

/-- C16 on the registry whose only process arrives at 2: the first iteration
of each simulator is idle and moves the clock from 0 to 2. -/
theorem idle_branch_jumps_to_next_arrival_witness :
    Fresh lateArrival ∧ InIntRange lateArrival ∧ (∀ p ∈ lateArrival, 1 ≤ p.totalCpuTime) ∧
    ((nextArrival (afterArrivalsSJF (initSim lateArrival)) 0).2 = true ∧
      idleSJF lateArrival.length (afterArrivalsSJF (initSim lateArrival)) [] 0 0 =
        ((nextArrival (afterArrivalsSJF (initSim lateArrival)) 0).1, false) ∧
      (bodySJF lateArrival.length (initSim lateArrival)).2 = false ∧
      (∃ p ∈ lateArrival, p.completionTime = -1 ∧ 0 < p.arrivalTime ∧
        p.arrivalTime = (bodySJF lateArrival.length (initSim lateArrival)).1.currentTime) ∧
      (∀ p ∈ lateArrival, p.completionTime = -1 →
        (bodySJF lateArrival.length (initSim lateArrival)).1.currentTime ≤ p.arrivalTime)) ∧
    ((nextArrival (afterArrivalsSRT (initSim lateArrival)) 0).2 = true ∧
      idleSRT lateArrival.length (afterArrivalsSRT (initSim lateArrival)) 0 0 =
        ((nextArrival (afterArrivalsSRT (initSim lateArrival)) 0).1, false) ∧
      (bodySRT lateArrival.length (initSim lateArrival)).2 = false ∧
      (∃ p ∈ lateArrival, p.completionTime = -1 ∧ 0 < p.arrivalTime ∧
        p.arrivalTime = (bodySRT lateArrival.length (initSim lateArrival)).1.currentTime) ∧
      (∀ p ∈ lateArrival, p.completionTime = -1 →
        (bodySRT lateArrival.length (initSim lateArrival)).1.currentTime ≤ p.arrivalTime)) :=
  ⟨fresh_lateArrival, inIntRange_lateArrival, bursts_lateArrival,
    (idle_branch_jumps_to_next_arrival lateArrival fresh_lateArrival inIntRange_lateArrival
      bursts_lateArrival).1 0 (initSim lateArrival) rfl (by decide) rfl rfl,
    (idle_branch_jumps_to_next_arrival lateArrival fresh_lateArrival inIntRange_lateArrival
      bursts_lateArrival).2 0 (initSim lateArrival) rfl (by decide) rfl⟩

theorem runLoop_of_iterLoop {σ : Type} (guard : σ → Bool) (body : σ → σ × Bool) :
    ∀ (k : Nat) (s s0 : σ) (fuel : Nat) (sf : σ), iterLoop guard body k s = some s0 →
      runLoop guard body fuel s = some sf → ∃ fuel0, runLoop guard body fuel0 s0 = some sf := by
  intro k
  induction k with
  | zero =>
    intro s s0 fuel sf h1 h2
    simp [iterLoop] at h1
    subst h1
    exact ⟨fuel, h2⟩
  | succ k ih =>
    intro s s0 fuel sf h1 h2
    by_cases hg : guard s = true
    · by_cases hb : (body s).2 = true
      · simp [iterLoop, hg, hb] at h1
      · simp [iterLoop, hg, hb] at h1
        cases fuel with
        | zero => simp [runLoop] at h2
        | succ f =>
          simp [runLoop, hg, hb] at h2
          exact ih _ _ f sf h1 h2
    · simp [iterLoop, hg] at h1

theorem runLoop_after_step {σ : Type} (guard : σ → Bool) (body : σ → σ × Bool)
    (s0 sf : σ) (fuel : Nat) (hg : guard s0 = true) (hb : (body s0).2 = false)
    (h : runLoop guard body fuel s0 = some sf) :
    ∃ f, runLoop guard body f (body s0).1 = some sf := by
  cases fuel with
  | zero => simp [runLoop] at h
  | succ f =>
    simp [runLoop, hg, hb] at h
    exact ⟨f, h⟩

theorem NonPreempt_init (ps : List Process) (hf : Fresh ps) : NonPreempt ps 0 none := by
  have key : ∀ i, i < ps.length → (deref ps i).completionTime = -1 ∧
      (deref ps i).remainingCpuTime = (deref ps i).totalCpuTime := by
    intro i hi
    have e := hf _ ((mem_iff_deref ps _).2 ⟨i, hi, rfl⟩)
    rw [e]; exact ⟨rfl, rfl⟩
  refine ⟨fun i hi _ _ => (key i hi).2, fun k hk => by simp at hk, ?_⟩
  intro i j hi _ _ hd _
  exact absurd (key i hi).1 hd

theorem NonPreempt_same {ps ps1 : List Process} {t : Int} {r : Option Nat}
    (hsame : ∀ i, ∃ b, deref ps1 i = { deref ps i with active := b })
    (hlen : ps1.length = ps.length) (h : NonPreempt ps t r) : NonPreempt ps1 t r := by
  have e : ∀ i, (deref ps1 i).completionTime = (deref ps i).completionTime ∧
      (deref ps1 i).remainingCpuTime = (deref ps i).remainingCpuTime ∧
      (deref ps1 i).totalCpuTime = (deref ps i).totalCpuTime := by
    intro i
    obtain ⟨b, eb⟩ := hsame i
    rw [eb]; exact ⟨rfl, rfl, rfl⟩
  refine ⟨?_, ?_, ?_⟩
  · intro i hi hc hr
    rw [(e i).1] at hc
    rw [(e i).2.1, (e i).2.2]
    exact h.fresh i (by rw [← hlen]; exact hi) hc hr
  · intro k hk j hj hd
    rw [(e j).1] at hd ⊢
    rw [(e k).2.1, (e k).2.2]
    exact h.after k hk j (by rw [← hlen]; exact hj) hd
  · intro i j hi hj hij hdi hdj
    rw [(e i).1] at hdi ⊢
    rw [(e j).1] at hdj ⊢
    rw [(e i).2.2, (e j).2.2]
    exact h.apart i j (by rw [← hlen]; exact hi) (by rw [← hlen]; exact hj) hij hdi hdj

theorem NonPreempt_idle {ps : List Process} {t t1 : Int} (h : NonPreempt ps t none) :
    NonPreempt ps t1 none :=
  ⟨h.fresh, fun k hk => by simp at hk, h.apart⟩

theorem NonPreempt_select {ps0 ps : List Process} {t c : Int} {q : List Nat} {k : Nat}
    (hinv : Inv ps0 ps t c q (some k)) (h : NonPreempt ps t none) :
    NonPreempt ps t (some k) := by
  have hk := (hinv.r_valid k rfl).1
  obtain ⟨_, hpend⟩ := hinv.pending_of_busy hk (Or.inr rfl)
  refine ⟨fun i hi hc _ => h.fresh i hi hc (by simp), ?_, h.apart⟩
  intro k1 hk1 j hj hd
  simp only [Option.some.injEq] at hk1
  subst hk1
  have h1 := h.fresh k hk hpend (by simp)
  have h2 := (hinv.procs j hj).done_le hd
  omega

theorem NonPreempt_complete {ps0 ps : List Process} {t t1 c : Int} {q : List Nat} {k : Nat}
    (hinv : Inv ps0 ps t c q (some k)) (h : NonPreempt ps t (some k))
    (ht : t1 = t + (deref ps k).remainingCpuTime) :
    NonPreempt (ps.set k ((deref ps k).complete t1)) t1 none := by
  have hk := (hinv.r_valid k rfl).1
  obtain ⟨_, hpend⟩ := hinv.pending_of_busy hk (Or.inr rfl)
  have Pk := hinv.procs k hk
  have hrem := Pk.pend_rem hpend
  have h0 := hinv.time_nonneg
  have hne : t1 ≠ (-1 : Int) := by omega
  have hstart : ∀ j, j < ps.length → (deref ps j).completionTime ≠ -1 →
      (deref ps j).completionTime ≤ t1 - (deref ps k).totalCpuTime := by
    intro j hj hd
    have := h.after k rfl j hj hd
    omega
  refine ⟨?_, fun k1 hk1 => by simp at hk1, ?_⟩
  · intro i hi hc _
    have hi1 : i < ps.length := by simpa using hi
    rw [deref_set] at hc ⊢
    by_cases e : i = k
    · subst e
      simp only [hk, and_self, if_true, Process.complete] at hc
      exact absurd hc hne
    · simp only [e, false_and, if_false] at hc ⊢
      exact h.fresh i hi1 hc (fun e1 => e (by simpa using e1.symm))
  · intro i j hi hj hij
    have hi1 : i < ps.length := by simpa using hi
    have hj1 : j < ps.length := by simpa using hj
    simp only [deref_set]
    by_cases ei : i = k
    · subst ei
      have ej : ¬ j = i := fun e => hij e.symm
      simp only [hk, and_self, if_true, ej, false_and, if_false, Process.complete]
      intro _ hdj
      right
      exact hstart j hj1 hdj
    · by_cases ej : j = k
      · subst ej
        simp only [hk, and_self, if_true, ei, false_and, if_false, Process.complete]
        intro hdi _
        left
        exact hstart i hi1 hdi
      · simp only [ei, ej, false_and, if_false]
        exact h.apart i j hi1 hj1 hij

theorem NonPreempt_progress {ps0 ps : List Process} {t c : Int} {q : List Nat} {k : Nat}
    (hinv : Inv ps0 ps t c q (some k)) (h : NonPreempt ps t (some k)) :
    NonPreempt (ps.set k { deref ps k with
      remainingCpuTime := (deref ps k).remainingCpuTime - 1 }) (t + 1) (some k) := by
  have hk := (hinv.r_valid k rfl).1
  have e : ∀ i, (deref (ps.set k { deref ps k with
      remainingCpuTime := (deref ps k).remainingCpuTime - 1 }) i).completionTime =
        (deref ps i).completionTime ∧
      (deref (ps.set k { deref ps k with
        remainingCpuTime := (deref ps k).remainingCpuTime - 1 }) i).totalCpuTime =
        (deref ps i).totalCpuTime := by
    intro i
    rw [deref_set]
    by_cases ei : i = k
    · subst ei; simp [hk]
    · simp [ei]
  refine ⟨?_, ?_, ?_⟩
  · intro i hi hc hr
    have hi1 : i < ps.length := by simpa using hi
    have ei : ¬ i = k := fun e1 => hr (by rw [e1])
    rw [(e i).1] at hc
    rw [(e i).2]
    rw [deref_set]
    simp only [ei, false_and, if_false]
    exact h.fresh i hi1 hc hr
  · intro k1 hk1 j hj hd
    have hj1 : j < ps.length := by simpa using hj
    simp only [Option.some.injEq] at hk1
    subst hk1
    rw [(e j).1] at hd ⊢
    rw [(e k).2]
    have := h.after k rfl j hj1 hd
    have hrem : (deref (ps.set k { deref ps k with
        remainingCpuTime := (deref ps k).remainingCpuTime - 1 }) k).remainingCpuTime =
        (deref ps k).remainingCpuTime - 1 := by
      rw [deref_set]; simp [hk]
    rw [hrem]
    omega
  · intro i j hi hj hij hdi hdj
    have hi1 : i < ps.length := by simpa using hi
    have hj1 : j < ps.length := by simpa using hj
    rw [(e i).1] at hdi ⊢
    rw [(e j).1] at hdj ⊢
    rw [(e i).2, (e j).2]
    exact h.apart i j hi1 hj1 hij hdi hdj

theorem runUnit_eq_complete (ps : List Process) (q : List Nat) (t c : Int) (r : Nat)
    (hz : (deref ps r).remainingCpuTime - 1 = 0) :
    runUnit ps q t c r =
      { processes := ps.set r ((deref ps r).complete t), currentTime := t,
        completedProcesses := c + 1, readyQueue := q, runningProcess := none } := by
  simp [runUnit, hz, Process.complete]

theorem runUnit_eq_progress (ps : List Process) (q : List Nat) (t c : Int) (r : Nat)
    (hz : (deref ps r).remainingCpuTime - 1 ≠ 0) :
    runUnit ps q t c r =
      { processes := ps.set r { deref ps r with
          remainingCpuTime := (deref ps r).remainingCpuTime - 1 },
        currentTime := t, completedProcesses := c, readyQueue := q,
        runningProcess := some r } := by
  simp [runUnit, hz]

theorem NonPreempt_runUnit {ps0 ps : List Process} {t c : Int} {q : List Nat} {k : Nat}
    (hinv : Inv ps0 ps t c q (some k)) (h : NonPreempt ps t (some k)) :
    NonPreempt (runUnit ps q (t + 1) c k).processes (runUnit ps q (t + 1) c k).currentTime
      (runUnit ps q (t + 1) c k).runningProcess := by
  by_cases hz : (deref ps k).remainingCpuTime - 1 = 0
  · rw [runUnit_eq_complete ps q (t + 1) c k hz]
    exact NonPreempt_complete hinv h (by omega)
  · rw [runUnit_eq_progress ps q (t + 1) c k hz]
    exact NonPreempt_progress hinv h
theorem bodyFIFO_nonPreempt {ps0 : List Process} (n : Int) {s : FIFOState} (h : s.Ok ps0)
    (hn : NonPreempt s.processes s.currentTime none) :
    NonPreempt (bodyFIFO n s).1.processes (bodyFIFO n s).1.currentTime none := by
  obtain ⟨ps1, _, hsame, hlen, hcase⟩ := bodyFIFO_cases n h
  have hn1 := NonPreempt_same hsame hlen hn
  rcases hcase with ⟨_, _, _, hb, _⟩ | ⟨cur, rest, hinv, _, hb⟩
  · rw [hb]
    exact NonPreempt_idle hn1
  · rw [hb]
    have hinv1 := Inv_select hinv
    have hk := (hinv1.r_valid cur rfl).1
    obtain ⟨_, hpend⟩ := hinv1.pending_of_busy hk (Or.inr rfl)
    have hfresh := hn1.fresh cur hk hpend (by simp)
    exact NonPreempt_complete hinv1 (NonPreempt_select hinv1 hn1) (by rw [hfresh])

theorem bodySJF_nonPreempt {ps0 : List Process} (n : Int) {s : SimState} (h : s.Ok ps0)
    (hn : NonPreempt s.processes s.currentTime s.runningProcess) :
    NonPreempt (bodySJF n s).1.processes (bodySJF n s).1.currentTime
      (bodySJF n s).1.runningProcess := by
  obtain ⟨ps1, _, hsame, hlen, hcase⟩ := bodySJF_cases n h
  have hn1 := NonPreempt_same hsame hlen hn
  rcases hcase with ⟨_, _, hrun, _, hb⟩ | ⟨q1, r, hinv, hsel, hb⟩
  · rw [hb]
    rw [hrun] at hn1
    exact NonPreempt_idle hn1
  · rw [hb]
    rcases hsel with hrun | ⟨hrun, _⟩
    · rw [hrun] at hn1
      exact NonPreempt_runUnit hinv hn1
    · rw [hrun] at hn1
      exact NonPreempt_runUnit hinv (NonPreempt_select hinv hn1)

theorem Tracked_same {ps ps1 : List Process} {p : Nat} {start t : Int} {r : Option Nat}
    (hsame : ∀ i, ∃ b, deref ps1 i = { deref ps i with active := b })
    (h : Tracked p start ps t r) : Tracked p start ps1 t r := by
  obtain ⟨b, eb⟩ := hsame p
  unfold Tracked at *
  rw [eb]
  exact h

theorem Tracked_of_done {ps : List Process} {p : Nat} {start t t1 : Int} {r : Option Nat}
    (h : Tracked p start ps t none) : Tracked p start ps t1 r := by
  rcases h with ⟨h1, _⟩ | h2
  · simp at h1
  · exact Or.inr h2

theorem Tracked_runUnit {ps0 ps : List Process} {t c start : Int} {q : List Nat} {k p : Nat}
    (hinv : Inv ps0 ps t c q (some k)) (h : Tracked p start ps t (some k)) :
    Tracked p start (runUnit ps q (t + 1) c k).processes (runUnit ps q (t + 1) c k).currentTime
      (runUnit ps q (t + 1) c k).runningProcess := by
  have hk := (hinv.r_valid k rfl).1
  obtain ⟨_, hpend⟩ := hinv.pending_of_busy hk (Or.inr rfl)
  have h0 := hinv.time_nonneg
  rcases h with ⟨hkp, hc, hst⟩ | ⟨hd, hst⟩
  · simp only [Option.some.injEq] at hkp
    subst hkp
    by_cases hz : (deref ps k).remainingCpuTime - 1 = 0
    · rw [runUnit_eq_complete ps q (t + 1) c k hz]
      right
      simp only [deref_set, hk, and_self, if_true, Process.complete]
      exact ⟨by omega, by omega⟩
    · rw [runUnit_eq_progress ps q (t + 1) c k hz]
      left
      simp only [deref_set, hk, and_self, if_true]
      exact ⟨trivial, hc, by omega⟩
  · have hne : ¬ p = k := by
      intro e; subst e
      exact hd hpend
    right
    by_cases hz : (deref ps k).remainingCpuTime - 1 = 0
    · rw [runUnit_eq_complete ps q (t + 1) c k hz]
      simp only [deref_set, hne, false_and, if_false]
      exact ⟨hd, hst⟩
    · rw [runUnit_eq_progress ps q (t + 1) c k hz]
      simp only [deref_set, hne, false_and, if_false]
      exact ⟨hd, hst⟩

theorem bodySJF_tracked {ps0 : List Process} (n : Int) {s : SimState} {p : Nat} {start : Int}
    (h : s.Ok ps0)
    (ht : Tracked p start s.processes s.currentTime s.runningProcess) :
    Tracked p start (bodySJF n s).1.processes (bodySJF n s).1.currentTime
      (bodySJF n s).1.runningProcess := by
  obtain ⟨ps1, _, hsame, hlen, hcase⟩ := bodySJF_cases n h
  have ht1 := Tracked_same hsame ht
  rcases hcase with ⟨_, _, hrun, _, hb⟩ | ⟨q1, r, hinv, hsel, hb⟩
  · rw [hb]
    rw [hrun] at ht1
    exact Tracked_of_done ht1
  · rw [hb]
    rcases hsel with hrun | ⟨hrun, _⟩
    · rw [hrun] at ht1
      exact Tracked_runUnit hinv ht1
    · rw [hrun] at ht1
      exact Tracked_runUnit hinv (Tracked_of_done ht1)

theorem bodyFIFO_tracked {ps0 : List Process} (n : Int) {s : FIFOState} {p : Nat}
    {start : Int} (h : s.Ok ps0) (ht : Tracked p start s.processes s.currentTime none) :
    Tracked p start (bodyFIFO n s).1.processes (bodyFIFO n s).1.currentTime none := by
  obtain ⟨ps1, _, hsame, hlen, hcase⟩ := bodyFIFO_cases n h
  have ht1 := Tracked_same hsame ht
  rcases hcase with ⟨_, _, _, hb, _⟩ | ⟨cur, rest, hinv, _, hb⟩
  · rw [hb]
    exact Tracked_of_done ht1
  · rw [hb]
    have hk := hinv.q_valid cur (List.mem_cons_self _ _)
    obtain ⟨_, hpend⟩ := hinv.pending_of_busy hk (Or.inl (List.mem_cons_self _ _))
    rcases ht1 with ⟨h1, _⟩ | ⟨hd, hst⟩
    · simp at h1
    · have hne : ¬ p = cur := by
        intro e; subst e
        exact hd hpend
      right
      simp only [deref_set, hne, false_and, if_false]
      exact ⟨hd, hst⟩

/-- The iteration of `simulateFIFO` that takes `cur` from the queue at time
`t` completes it at `t + totalCpuTime`. -/
theorem bodyFIFO_tracked_start {ps0 : List Process} (n : Int) {s : FIFOState} {cur : Nat}
    (h : s.Ok ps0) (hch : chosenFIFO s = some cur) :
    Tracked cur s.currentTime (bodyFIFO n s).1.processes (bodyFIFO n s).1.currentTime
      none := by
  obtain ⟨ps1, _, hsame, hlen, hcase⟩ := bodyFIFO_cases n h
  rcases hcase with ⟨_, _, hnone, _, _⟩ | ⟨cur1, rest, hinv, hsome, hb⟩
  · rw [hch] at hnone; simp at hnone
  · rw [hch] at hsome
    simp only [Option.some.injEq] at hsome
    subst hsome
    rw [hb]
    have hk := hinv.q_valid cur (List.mem_cons_self _ _)
    have h0 := hinv.time_nonneg
    have h1 := (hinv.procs cur hk).tot_pos
    right
    simp only [deref_set, hk, and_self, if_true, Process.complete]
    exact ⟨by omega, trivial⟩

/-- The iteration of `simulateSJF` that selects `p` at time `t` starts its
uninterrupted run at `t`. -/
theorem bodySJF_tracked_start {ps0 : List Process} (n : Int) {s : SimState} {p : Nat}
    (h : s.Ok ps0) (hn : NonPreempt s.processes s.currentTime s.runningProcess)
    (hch : chosenSJF s = some p) :
    Tracked p s.currentTime (bodySJF n s).1.processes (bodySJF n s).1.currentTime
      (bodySJF n s).1.runningProcess := by
  obtain ⟨ps1, _, hsame, hlen, hcase⟩ := bodySJF_cases n h
  have hn1 := NonPreempt_same hsame hlen hn
  rcases hcase with ⟨_, _, _, hnone, _⟩ | ⟨q1, r, hinv, hsel, hb⟩
  · rw [hch] at hnone; simp at hnone
  · rcases hsel with hrun | ⟨hrun, hsome⟩
    · simp [chosenSJF, hrun] at hch
    · rw [hch] at hsome
      simp only [Option.some.injEq] at hsome
      subst hsome
      rw [hb]
      rw [hrun] at hn1
      have hk := (hinv.r_valid p rfl).1
      obtain ⟨_, hpend⟩ := hinv.pending_of_busy hk (Or.inr rfl)
      have hfresh := hn1.fresh p hk hpend (by simp)
      exact Tracked_runUnit hinv (Or.inl ⟨rfl, hpend, by omega⟩)
theorem Tracked_final {ps0 ps : List Process} {t c : Int} {q : List Nat} {r : Option Nat}
    {p : Nat} {start : Int} (hinv : Inv ps0 ps t c q r) (hc : c = ps0.length)
    (hp : p < ps0.length) (h : Tracked p start ps t r) :
    (deref ps p).completionTime = start + (deref ps p).totalCpuTime := by
  rcases h with ⟨_, hpend, _⟩ | ⟨_, hst⟩
  · have hp1 : p < ps.length := by rw [hinv.len]; exact hp
    exact absurd hpend (hinv.final hc _ ((mem_iff_deref ps _).2 ⟨p, hp1, rfl⟩)).1
  · exact hst

theorem chosenSJF_min_valid {ps0 : List Process} {s : SimState} {p : Nat} (h : s.Ok ps0)
    (hch : chosenSJF s = some p) : p < ps0.length := by
  obtain ⟨ps1, _, _, _, hcase⟩ := bodySJF_cases 0 h
  rcases hcase with ⟨_, _, _, hnone, _⟩ | ⟨q1, r, hinv, hsel, _⟩
  · rw [hch] at hnone; simp at hnone
  · rcases hsel with hrun | ⟨_, hsome⟩
    · simp [chosenSJF, hrun] at hch
    · rw [hch] at hsome
      simp only [Option.some.injEq] at hsome
      subst hsome
      rw [← hinv.len]
      exact (hinv.r_valid p rfl).1

theorem foldl_max_spec (f : Nat → Int) (l : List Nat) (m0 : Int) :
    m0 ≤ l.foldl (fun m i => max m (f i)) m0 ∧
    (∀ i ∈ l, f i ≤ l.foldl (fun m i => max m (f i)) m0) ∧
    (l.foldl (fun m i => max m (f i)) m0 = m0 ∨
      ∃ i ∈ l, l.foldl (fun m i => max m (f i)) m0 = f i) := by
  induction l generalizing m0 with
  | nil => simp
  | cons x xs ih =>
    simp only [List.foldl_cons]
    obtain ⟨h1, h2, h3⟩ := ih (max m0 (f x))
    refine ⟨le_trans (le_max_left _ _) h1, ?_, ?_⟩
    · intro i hi
      rcases List.mem_cons.1 hi with e | hi1
      · subst e; exact le_trans (le_max_right _ _) h1
      · exact h2 i hi1
    · rcases h3 with h3 | ⟨i, hi, e⟩
      · rcases max_choice m0 (f x) with hm | hm
        · left; rw [h3, hm]
        · right; exact ⟨x, List.mem_cons_self _ _, by rw [h3, hm]⟩
      · right; exact ⟨i, List.mem_cons_of_mem _ hi, e⟩

theorem isMakespan_makespan (ps : List Process) (t : Int) : IsMakespan ps t (makespan ps t) := by
  obtain ⟨h1, h2, h3⟩ := foldl_max_spec
    (fun i => (deref ps i).arrivalTime + tailWork ps (deref ps i).arrivalTime)
    (List.range ps.length) (t + workLeft ps)
  refine ⟨h1, fun i hi => h2 i (by simpa using hi), ?_⟩
  rcases h3 with h3 | ⟨i, hi, e⟩
  · exact Or.inl h3
  · exact Or.inr ⟨i, by simpa using hi, e⟩

theorem IsMakespan.unique {ps : List Process} {t M N : Int} (h1 : IsMakespan ps t M)
    (h2 : IsMakespan ps t N) : M = N := by
  have hle : ∀ {A B : Int}, IsMakespan ps t A → IsMakespan ps t B → A ≤ B := by
    intro A B hA hB
    rcases hA.attained with e | ⟨i, hi, e⟩
    · rw [e]; exact hB.base_le
    · rw [e]; exact hB.term_le i hi
  exact le_antisymm (hle h1 h2) (hle h2 h1)

theorem tailWork_le_workLeft (ps : List Process)
    (hnn : ∀ i, i < ps.length → 0 ≤ (deref ps i).remainingCpuTime) (a : Int) :
    tailWork ps a ≤ workLeft ps := by
  unfold tailWork workLeft
  apply Finset.sum_le_sum
  intro i hi
  have := hnn i (by simpa using hi)
  split <;> omega

/-- Serving `d` units of a process that has arrived keeps the makespan. -/
theorem IsMakespan_serve {ps ps1 : List Process} {t M d : Int} {k : Nat}
    (hlen : ps1.length = ps.length) (hk : k < ps.length)
    (harr : ∀ i, (deref ps1 i).arrivalTime = (deref ps i).arrivalTime)
    (hrem : ∀ i, i ≠ k → (deref ps1 i).remainingCpuTime = (deref ps i).remainingCpuTime)
    (hremk : (deref ps1 k).remainingCpuTime = (deref ps k).remainingCpuTime - d)
    (hnn : ∀ i, i < ps.length → 0 ≤ (deref ps i).remainingCpuTime)
    (hd : 0 ≤ d) (hkt : (deref ps k).arrivalTime ≤ t)
    (h : IsMakespan ps t M) : IsMakespan ps1 (t + d) M := by
  have hS : workLeft ps1 = workLeft ps - d := by
    unfold workLeft
    rw [hlen, sum_range_update (fun i => (deref ps i).remainingCpuTime)
      (fun i => (deref ps1 i).remainingCpuTime) ps.length k hk (fun i hi => hrem i hi)]
    rw [hremk]; ring
  have hT : ∀ a, tailWork ps1 a =
      tailWork ps a - (if a ≤ (deref ps k).arrivalTime then d else 0) := by
    intro a
    unfold tailWork
    rw [hlen, sum_range_update
      (fun i => if a ≤ (deref ps i).arrivalTime then (deref ps i).remainingCpuTime else 0)
      (fun i => if a ≤ (deref ps1 i).arrivalTime then (deref ps1 i).remainingCpuTime else 0)
      ps.length k hk (fun i hi => by simp only [harr i, hrem i hi])]
    simp only [harr k, hremk]
    split <;> ring
  refine ⟨?_, ?_, ?_⟩
  · rw [hS]
    have := h.base_le
    omega
  · intro i hi
    rw [harr i, hT]
    have := h.term_le i (by rw [← hlen]; exact hi)
    split <;> omega
  · rcases h.attained with e | ⟨i, hi, e⟩
    · left; rw [hS, e]; ring
    · by_cases hik : (deref ps i).arrivalTime ≤ (deref ps k).arrivalTime
      · left
        have h1 := tailWork_le_workLeft ps hnn (deref ps i).arrivalTime
        have h2 := h.base_le
        rw [hS]
        omega
      · right
        refine ⟨i, by rw [hlen]; exact hi, ?_⟩
        rw [harr i, hT, if_neg hik, e]
        ring

/-- An idle jump to the earliest arrival of a process with work left keeps the
makespan. -/
theorem IsMakespan_jump {ps : List Process} {t t1 M : Int} {j : Nat} (ht : t ≤ t1)
    (hj : j < ps.length) (hja : (deref ps j).arrivalTime = t1)
    (hfut : ∀ i, i < ps.length → (deref ps i).remainingCpuTime ≠ 0 →
      t1 ≤ (deref ps i).arrivalTime)
    (h : IsMakespan ps t M) : IsMakespan ps t1 M := by
  have hT : tailWork ps (deref ps j).arrivalTime = workLeft ps := by
    unfold tailWork workLeft
    apply Finset.sum_congr rfl
    intro i hi
    by_cases h0 : (deref ps i).remainingCpuTime = 0
    · simp [h0]
    · have := hfut i (by simpa using hi) h0
      rw [hja, if_pos this]
  have hterm := h.term_le j hj
  rw [hT, hja] at hterm
  refine ⟨hterm, h.term_le, ?_⟩
  rcases h.attained with e | ⟨i, hi, e⟩
  · left
    have := h.base_le
    omega
  · exact Or.inr ⟨i, hi, e⟩

theorem IsMakespan_same {ps ps1 : List Process} {t M : Int}
    (hsame : ∀ i, ∃ b, deref ps1 i = { deref ps i with active := b })
    (hlen : ps1.length = ps.length) (h : IsMakespan ps t M) : IsMakespan ps1 t M := by
  have e : ∀ i, (deref ps1 i).arrivalTime = (deref ps i).arrivalTime ∧
      (deref ps1 i).remainingCpuTime = (deref ps i).remainingCpuTime := by
    intro i
    obtain ⟨b, eb⟩ := hsame i
    rw [eb]; exact ⟨rfl, rfl⟩
  have hS : workLeft ps1 = workLeft ps := by
    unfold workLeft
    rw [hlen]
    exact Finset.sum_congr rfl (fun i _ => (e i).2)
  have hT : ∀ a, tailWork ps1 a = tailWork ps a := by
    intro a
    unfold tailWork
    rw [hlen]
    exact Finset.sum_congr rfl (fun i _ => by rw [(e i).1, (e i).2])
  refine ⟨by rw [hS]; exact h.base_le, ?_, ?_⟩
  · intro i hi
    rw [(e i).1, hT]
    exact h.term_le i (by rw [← hlen]; exact hi)
  · rcases h.attained with e1 | ⟨i, hi, e1⟩
    · exact Or.inl (by rw [hS]; exact e1)
    · exact Or.inr ⟨i, by rw [hlen]; exact hi, by rw [(e i).1, hT]; exact e1⟩

/-- When no work is left the makespan is the current time. -/
theorem IsMakespan_done {ps0 ps : List Process} {t c M : Int} {q : List Nat}
    {r : Option Nat} (hinv : Inv ps0 ps t c q r) (hc : c = ps0.length)
    (h : IsMakespan ps t M) : M = t := by
  have hdone : ∀ i, i < ps.length → (deref ps i).completionTime ≠ -1 :=
    fun i hi => (hinv.final hc _ ((mem_iff_deref ps _).2 ⟨i, hi, rfl⟩)).1
  have hrem : ∀ i, i < ps.length → (deref ps i).remainingCpuTime = 0 :=
    fun i hi => (hinv.procs i hi).done_rem (hdone i hi)
  have hS : workLeft ps = 0 := by
    unfold workLeft
    apply Finset.sum_eq_zero
    intro i hi
    exact hrem i (by simpa using hi)
  have hT : ∀ a, tailWork ps a = 0 := by
    intro a
    unfold tailWork
    apply Finset.sum_eq_zero
    intro i hi
    rw [hrem i (by simpa using hi)]
    simp
  have hb := h.base_le
  rcases h.attained with e | ⟨i, hi, e⟩
  · omega
  · have P := hinv.procs i hi
    have h1 := P.done_ge (hdone i hi)
    have h2 := P.done_le (hdone i hi)
    have h3 := P.tot_pos
    rw [hT] at e
    omega
theorem Inv.rem_nonneg {ps0 ps : List Process} {t c : Int} {q : List Nat} {r : Option Nat}
    (h : Inv ps0 ps t c q r) : ∀ i, i < ps.length → 0 ≤ (deref ps i).remainingCpuTime := by
  intro i hi
  have P := h.procs i hi
  by_cases hc : (deref ps i).completionTime = -1
  · have := P.pend_rem hc; omega
  · have := P.done_rem hc; omega

theorem Inv.running_arrived {ps0 ps : List Process} {t c : Int} {q : List Nat} {k : Nat}
    (h : Inv ps0 ps t c q (some k)) : (deref ps k).arrivalTime ≤ t := by
  have hk := (h.r_valid k rfl).1
  obtain ⟨hact, hpend⟩ := h.pending_of_busy hk (Or.inr rfl)
  have P := h.procs k hk
  have h1 := P.pend_busy hpend hact
  have h2 := P.rem_le
  omega

theorem IsMakespan_runUnit {ps0 ps : List Process} {t c M : Int} {q : List Nat} {k : Nat}
    (hinv : Inv ps0 ps t c q (some k)) (h : IsMakespan ps t M) :
    IsMakespan (runUnit ps q (t + 1) c k).processes (runUnit ps q (t + 1) c k).currentTime
      M := by
  have hk := (hinv.r_valid k rfl).1
  by_cases hz : (deref ps k).remainingCpuTime - 1 = 0
  · rw [runUnit_eq_complete ps q (t + 1) c k hz]
    refine IsMakespan_serve (by simp) hk ?_ ?_ ?_ hinv.rem_nonneg (by omega)
      hinv.running_arrived h
    · intro i
      rw [deref_set]
      by_cases e : i = k
      · subst e; simp [hk, Process.complete]
      · simp [e]
    · intro i hi
      rw [deref_set]; simp [hi]
    · rw [deref_set]
      simp only [hk, and_self, if_true, Process.complete]
      omega
  · rw [runUnit_eq_progress ps q (t + 1) c k hz]
    refine IsMakespan_serve (by simp) hk ?_ ?_ ?_ hinv.rem_nonneg (by omega)
      hinv.running_arrived h
    · intro i
      rw [deref_set]
      by_cases e : i = k
      · subst e; simp [hk]
      · simp [e]
    · intro i hi
      rw [deref_set]; simp [hi]
    · rw [deref_set]
      simp only [hk, and_self, if_true]

theorem IsMakespan_burst {ps0 ps : List Process} {t c M : Int} {q : List Nat} {k : Nat}
    (hinv : Inv ps0 ps t c q (some k))
    (hfresh : (deref ps k).remainingCpuTime = (deref ps k).totalCpuTime)
    (h : IsMakespan ps t M) :
    IsMakespan (ps.set k ((deref ps k).complete (t + (deref ps k).totalCpuTime)))
      (t + (deref ps k).totalCpuTime) M := by
  have hk := (hinv.r_valid k rfl).1
  have htot := (hinv.procs k hk).tot_pos
  refine IsMakespan_serve (by simp) hk ?_ ?_ ?_ hinv.rem_nonneg (by omega)
    hinv.running_arrived h
  · intro i
    rw [deref_set]
    by_cases e : i = k
    · subst e; simp [hk, Process.complete]
    · simp [e]
  · intro i hi
    rw [deref_set]; simp [hi]
  · rw [deref_set]
    simp only [hk, and_self, if_true, Process.complete]
    omega

theorem IsMakespan_idle {ps0 ps : List Process} {t c M : Int}
    (hinv : Inv ps0 ps t c [] none)
    (hadm : ∀ i, i < ps.length → (deref ps i).completionTime = -1 →
      (deref ps i).arrivalTime ≤ t → (deref ps i).active = true)
    (hc : c < ps0.length) (h : IsMakespan ps t M) :
    IsMakespan ps (nextArrival ps t).1 M := by
  have hi := idle_step hinv hadm (by rw [hinv.len]; exact hc)
  obtain ⟨p, hp, hpc, hpa, hpe⟩ := nextArrival_attained ps t hinv.mem_arr_le hi.1
  obtain ⟨j, hj, ej⟩ := (mem_iff_deref ps p).1 hp
  refine IsMakespan_jump (le_of_lt hi.2.1) hj (by rw [ej]; exact hpe) ?_ h
  intro i hil hrem
  have P := hinv.procs i hil
  have hpend : (deref ps i).completionTime = -1 := by
    by_contra hne
    exact hrem (P.done_rem hne)
  have hfut : t < (deref ps i).arrivalTime := by
    by_contra hle
    have hact := hadm i hil hpend (by omega)
    have := P.active_iff.1 hact
    simp at this
  exact nextArrival_le ps t _ ((mem_iff_deref ps _).2 ⟨i, hil, rfl⟩) hpend hfut

theorem LastAt_init (ps : List Process) (hne : ps ≠ []) (hf : Fresh ps) : LastAt ps 0 := by
  intro hall
  have hpos : 0 < ps.length := List.length_pos.2 hne
  have e := hf _ ((mem_iff_deref ps _).2 ⟨0, hpos, rfl⟩)
  exfalso
  apply hall 0 hpos
  rw [e]; rfl

theorem LastAt_same {ps ps1 : List Process} {t : Int}
    (hsame : ∀ i, ∃ b, deref ps1 i = { deref ps i with active := b })
    (hlen : ps1.length = ps.length) (h : LastAt ps t) : LastAt ps1 t := by
  have e : ∀ i, (deref ps1 i).completionTime = (deref ps i).completionTime := by
    intro i
    obtain ⟨b, eb⟩ := hsame i
    rw [eb]
  intro hall
  obtain ⟨i, hi, hc⟩ := h (fun i hi => by rw [← e i]; exact hall i (by rw [hlen]; exact hi))
  exact ⟨i, by rw [hlen]; exact hi, by rw [e i]; exact hc⟩

theorem LastAt_pending {ps : List Process} {t : Int} {i : Nat} (hi : i < ps.length)
    (hc : (deref ps i).completionTime = -1) : LastAt ps t :=
  fun hall => absurd hc (hall i hi)

theorem LastAt_runUnit {ps0 ps : List Process} {t c : Int} {q : List Nat} {k : Nat}
    (hinv : Inv ps0 ps t c q (some k)) :
    LastAt (runUnit ps q (t + 1) c k).processes (runUnit ps q (t + 1) c k).currentTime := by
  have hk := (hinv.r_valid k rfl).1
  obtain ⟨_, hpend⟩ := hinv.pending_of_busy hk (Or.inr rfl)
  by_cases hz : (deref ps k).remainingCpuTime - 1 = 0
  · rw [runUnit_eq_complete ps q (t + 1) c k hz]
    intro _
    refine ⟨k, by simpa using hk, ?_⟩
    rw [deref_set]
    simp [hk, Process.complete]
  · rw [runUnit_eq_progress ps q (t + 1) c k hz]
    apply LastAt_pending (i := k) (by simpa using hk)
    rw [deref_set]
    simpa [hk] using hpend

theorem LastAt_idle {ps0 ps : List Process} {t t1 c : Int} {q : List Nat} {r : Option Nat}
    (hinv : Inv ps0 ps t c q r) (hc : c < ps0.length) : LastAt ps t1 := by
  obtain ⟨i, hi, hpend⟩ := (count_lt_iff ps).1 (by rw [← hinv.count, hinv.len]; exact hc)
  exact LastAt_pending hi hpend

/-- The body of `simulateSRT` keeps the makespan and the last completion. -/
theorem bodySRT_makespan {ps0 : List Process} {M : Int} (n : Int) {s : SimState} (h : s.Ok ps0)
    (hc : s.completedProcesses < ps0.length)
    (hm : IsMakespan s.processes s.currentTime M) :
    IsMakespan (bodySRT n s).1.processes (bodySRT n s).1.currentTime M ∧
      LastAt (bodySRT n s).1.processes (bodySRT n s).1.currentTime := by
  obtain ⟨ps1, _, hsame, hlen, hcase⟩ := bodySRT_cases n h
  have hm1 := IsMakespan_same hsame hlen hm
  rcases hcase with ⟨hinv, hadm, _, _, hb⟩ | ⟨q1, r, hinv, _, hb⟩
  · have hi := idle_step hinv hadm (by rw [hinv.len]; exact hc)
    rw [hb, idleSRT_found _ _ _ hi.1]
    exact ⟨IsMakespan_idle hinv hadm hc hm1, LastAt_idle hinv hc⟩
  · rw [hb]
    exact ⟨IsMakespan_runUnit hinv hm1, LastAt_runUnit hinv⟩

/-- The body of `simulateSJF` keeps the makespan and the last completion. -/
theorem bodySJF_makespan {ps0 : List Process} {M : Int} (n : Int) {s : SimState} (h : s.Ok ps0)
    (hc : s.completedProcesses < ps0.length)
    (hm : IsMakespan s.processes s.currentTime M) :
    IsMakespan (bodySJF n s).1.processes (bodySJF n s).1.currentTime M ∧
      LastAt (bodySJF n s).1.processes (bodySJF n s).1.currentTime := by
  obtain ⟨ps1, _, hsame, hlen, hcase⟩ := bodySJF_cases n h
  have hm1 := IsMakespan_same hsame hlen hm
  rcases hcase with ⟨hinv, hadm, _, _, hb⟩ | ⟨q1, r, hinv, _, hb⟩
  · have hi := idle_step hinv hadm (by rw [hinv.len]; exact hc)
    rw [hb, idleSJF_found _ _ _ _ hi.1]
    exact ⟨IsMakespan_idle hinv hadm hc hm1, LastAt_idle hinv hc⟩
  · rw [hb]
    exact ⟨IsMakespan_runUnit hinv hm1, LastAt_runUnit hinv⟩

/-- The body of `simulateFIFO` keeps the makespan and the last completion. -/
theorem bodyFIFO_makespan {ps0 : List Process} {M : Int} (n : Int) {s : FIFOState} (h : s.Ok ps0)
    (hn : NonPreempt s.processes s.currentTime none)
    (hc : s.completedProcesses < ps0.length)
    (hm : IsMakespan s.processes s.currentTime M) :
    IsMakespan (bodyFIFO n s).1.processes (bodyFIFO n s).1.currentTime M ∧
      LastAt (bodyFIFO n s).1.processes (bodyFIFO n s).1.currentTime := by
  obtain ⟨ps1, _, hsame, hlen, hcase⟩ := bodyFIFO_cases n h
  have hm1 := IsMakespan_same hsame hlen hm
  have hn1 := NonPreempt_same hsame hlen hn
  rcases hcase with ⟨hinv, hadm, _, _, _, _, hb⟩ | ⟨cur, rest, hinv, _, hb⟩
  · have hi := idle_step hinv hadm (by rw [hinv.len]; exact hc)
    rw [hb hi.1]
    exact ⟨IsMakespan_idle hinv hadm hc hm1, LastAt_idle hinv hc⟩
  · rw [hb]
    have hinv1 := Inv_select hinv
    have hk := (hinv1.r_valid cur rfl).1
    obtain ⟨_, hpend⟩ := hinv1.pending_of_busy hk (Or.inr rfl)
    have hfresh := hn1.fresh cur hk hpend (by simp)
    refine ⟨IsMakespan_burst hinv1 hfresh hm1, ?_⟩
    intro _
    refine ⟨cur, by simpa using hk, ?_⟩
    rw [deref_set]
    simp [hk, Process.complete]

theorem last_completion {ps0 ps : List Process} {t c M : Int} {q : List Nat}
    {r : Option Nat} (hinv : Inv ps0 ps t c q r) (hc : c = ps0.length)
    (hm : IsMakespan ps t M) (hl : LastAt ps t) :
    (∀ p ∈ ps, p.completionTime ≤ M) ∧ (∃ p ∈ ps, p.completionTime = M) := by
  have hM := IsMakespan_done hinv hc hm
  have hdone : ∀ i, i < ps.length → (deref ps i).completionTime ≠ -1 :=
    fun i hi => (hinv.final hc _ ((mem_iff_deref ps _).2 ⟨i, hi, rfl⟩)).1
  constructor
  · intro p hp
    obtain ⟨i, hi, e⟩ := (mem_iff_deref ps p).1 hp
    rw [← e, hM]
    exact (hinv.procs i hi).done_le (hdone i hi)
  · obtain ⟨i, hi, e⟩ := hl hdone
    exact ⟨deref ps i, (mem_iff_deref ps _).2 ⟨i, hi, rfl⟩, by rw [e, hM]⟩

theorem getD_set {α : Type} (l : List α) (i j : Nat) (v d : α) :
    (l.set i v).getD j d = if j = i ∧ i < l.length then v else l.getD j d := by
  by_cases h : j = i
  · subst h
    by_cases hl : j < l.length
    · simp [hl, List.getD_eq_getElem?_getD]
    · have h1 : l.length ≤ j := by omega
      have h2 : (l.set j v).length ≤ j := by simpa using h1
      simp [hl, List.getD_eq_getElem?_getD, List.getElem?_eq_none h1,
        List.getElem?_eq_none h2]
  · have h1 : i ≠ j := fun e => h e.symm
    simp [h, List.getD_eq_getElem?_getD, List.getElem?_set_ne h1]

theorem iterLoop_split {σ : Type} (guard : σ → Bool) (body : σ → σ × Bool) :
    ∀ (m : Nat) (s s1 : σ) (fuel : Nat) (sf : σ), iterLoop guard body m s = some s1 →
      runLoop guard body fuel s = some sf →
      ∃ f, fuel = m + f ∧ runLoop guard body f s1 = some sf := by
  intro m
  induction m with
  | zero =>
    intro s s1 fuel sf h1 h2
    simp [iterLoop] at h1
    subst h1
    exact ⟨fuel, by omega, h2⟩
  | succ m ih =>
    intro s s1 fuel sf h1 h2
    by_cases hg : guard s = true
    · by_cases hb : (body s).2 = true
      · simp [iterLoop, hg, hb] at h1
      · simp [iterLoop, hg, hb] at h1
        cases fuel with
        | zero => simp [runLoop] at h2
        | succ f =>
          simp [runLoop, hg, hb] at h2
          obtain ⟨f1, e, h3⟩ := ih _ _ f sf h1 h2
          exact ⟨f1, by omega, h3⟩
    · simp [iterLoop, hg] at h1

theorem iterLoop_then_runLoop {σ : Type} (guard : σ → Bool) (body : σ → σ × Bool) :
    ∀ (m : Nat) (s s1 : σ) (f : Nat) (sf : σ), iterLoop guard body m s = some s1 →
      runLoop guard body f s1 = some sf → runLoop guard body (m + f) s = some sf := by
  intro m
  induction m with
  | zero =>
    intro s s1 f sf h1 h2
    simp [iterLoop] at h1
    subst h1
    simpa using h2
  | succ m ih =>
    intro s s1 f sf h1 h2
    by_cases hg : guard s = true
    · by_cases hb : (body s).2 = true
      · simp [iterLoop, hg, hb] at h1
      · simp [iterLoop, hg, hb] at h1
        have e : m + 1 + f = (m + f) + 1 := by omega
        rw [e]
        simp only [runLoop, hg, hb, if_true, Bool.false_eq_true, if_false]
        exact ih _ _ f sf h1 h2
    · simp [iterLoop, hg] at h1

theorem iterLoop_append {σ : Type} (guard : σ → Bool) (body : σ → σ × Bool) :
    ∀ (m k : Nat) (s s1 s2 : σ), iterLoop guard body m s = some s1 →
      iterLoop guard body k s1 = some s2 → iterLoop guard body (m + k) s = some s2 := by
  intro m
  induction m with
  | zero =>
    intro k s s1 s2 h1 h2
    simp [iterLoop] at h1
    subst h1
    simpa using h2
  | succ m ih =>
    intro k s s1 s2 h1 h2
    by_cases hg : guard s = true
    · by_cases hb : (body s).2 = true
      · simp [iterLoop, hg, hb] at h1
      · simp [iterLoop, hg, hb] at h1
        have e : m + 1 + k = (m + k) + 1 := by omega
        rw [e]
        simp only [iterLoop, hg, hb, if_true, Bool.false_eq_true, if_false]
        exact ih k _ _ s2 h1 h2
    · simp [iterLoop, hg] at h1

/-- Two loops that can be cut into matching stretches end in matching states:
from related states, whenever the first loop is running, some positive number
of its iterations and some number of iterations of the second lead to related
states again; and when the first loop is over so is the second. -/
theorem loops_in_step {σ τ : Type} (gG : σ → Bool) (bG : σ → σ × Bool) (gB : τ → Bool)
    (bB : τ → τ × Bool) (R : σ → τ → Prop)
    (hstep : ∀ s t, R s t → gG s = true →
      ∃ mg s1 mb t1, 0 < mg ∧ iterLoop gG bG mg s = some s1 ∧
        iterLoop gB bB mb t = some t1 ∧ R s1 t1)
    (hexit : ∀ s t, R s t → gG s = false → gB t = false) :
    ∀ (fuel : Nat) (s : σ) (t : τ) (sf : σ), R s t → runLoop gG bG fuel s = some sf →
      ∃ fuelB tf, runLoop gB bB fuelB t = some tf ∧ R sf tf := by
  intro fuel
  induction fuel using Nat.strong_induction_on with
  | _ fuel ih =>
    intro s t sf hR hrun
    by_cases hg : gG s = true
    · obtain ⟨mg, s1, mb, t1, hpos, hi1, hi2, hR1⟩ := hstep s t hR hg
      obtain ⟨f, e, hrun1⟩ := iterLoop_split gG bG mg s s1 fuel sf hi1 hrun
      obtain ⟨fB, tf, hB, hRf⟩ := ih f (by omega) s1 t1 sf hR1 hrun1
      exact ⟨mb + fB, tf, iterLoop_then_runLoop gB bB mb t t1 fB tf hi2 hB, hRf⟩
    · have hg1 : gG s = false := by simpa using hg
      cases fuel with
      | zero => simp [runLoop] at hrun
      | succ f =>
        simp [runLoop, hg1] at hrun
        subst hrun
        exact ⟨1, t, by simp [runLoop, hexit s t hR hg1], hR⟩

theorem unfinished_iff (bs : BatchState) :
    unfinished bs = true ↔ ∃ i, i < bs.finished.length ∧ bs.finished.getD i false = false := by
  unfold unfinished
  simp only [gt_iff_lt, decide_eq_true_eq, List.count_pos_iff]
  rw [List.mem_iff_getElem]
  constructor
  · rintro ⟨i, hi, e⟩
    exact ⟨i, hi, by simp [List.getD_eq_getElem?_getD, List.getElem?_eq_getElem hi, e]⟩
  · rintro ⟨i, hi, e⟩
    refine ⟨i, hi, ?_⟩
    simpa [List.getD_eq_getElem?_getD, List.getElem?_eq_getElem hi] using e

theorem SameRun.guard_iff {ps0 gps : List Process} {gt c : Int} {q : List Nat}
    {r : Option Nat} {bs : BatchState} (hinv : Inv ps0 gps gt c q r)
    (h : SameRun gps gt bs) : unfinished bs = true ↔ c < ps0.length := by
  rw [unfinished_iff, h.len_fin]
  have hcount : c < ps0.length ↔
      ∃ i, i < gps.length ∧ (deref gps i).completionTime = -1 := by
    rw [← hinv.len, hinv.count]
    exact count_lt_iff gps
  rw [hcount]
  constructor
  · rintro ⟨i, hi, e⟩
    refine ⟨i, hi, ?_⟩
    by_contra hne
    have := (h.finished i hi).2 hne
    rw [e] at this
    exact Bool.false_ne_true this
  · rintro ⟨i, hi, e⟩
    refine ⟨i, hi, ?_⟩
    by_contra hne
    have hne1 : bs.finished.getD i false = true := by simpa using hne
    exact (h.finished i hi).1 hne1 e

theorem SameRun_same {gps gps1 : List Process} {gt : Int} {bs : BatchState}
    (hsame : ∀ i, ∃ b, deref gps1 i = { deref gps i with active := b })
    (hlen : gps1.length = gps.length) (h : SameRun gps gt bs) : SameRun gps1 gt bs := by
  have e : ∀ i, (deref gps1 i).arrivalTime = (deref gps i).arrivalTime ∧
      (deref gps1 i).totalCpuTime = (deref gps i).totalCpuTime ∧
      (deref gps1 i).remainingCpuTime = (deref gps i).remainingCpuTime ∧
      (deref gps1 i).completionTime = (deref gps i).completionTime ∧
      (deref gps1 i).turnaroundTime = (deref gps i).turnaroundTime := by
    intro i
    obtain ⟨b, eb⟩ := hsame i
    rw [eb]; exact ⟨rfl, rfl, rfl, rfl, rfl⟩
  refine ⟨h.time, by rw [hlen]; exact h.len_procs, by rw [hlen]; exact h.len_fin, ?_, ?_, ?_,
    ?_, ?_⟩
  · intro i hi
    rw [(e i).1]; exact h.arrival i (by rw [← hlen]; exact hi)
  · intro i hi
    rw [(e i).2.1]; exact h.total i (by rw [← hlen]; exact hi)
  · intro i hi
    rw [(e i).2.2.1]; exact h.remaining i (by rw [← hlen]; exact hi)
  · intro i hi
    rw [(e i).2.2.2.1]; exact h.finished i (by rw [← hlen]; exact hi)
  · intro i hi hd
    rw [(e i).2.2.2.1] at hd
    rw [(e i).2.2.2.2]; exact h.turnaround i (by rw [← hlen]; exact hi) hd
theorem scan_SRT_spec (s : BatchState)
    (hlt : ∀ i, i < s.procs.length → (s.procs.getD i default).remaining < INT_MAX) :
    ((scan_SRT s).1 = none ∧ ∀ i, i < s.procs.length → ¬ Eligible_SRT s i) ∨
    (∃ i, (scan_SRT s).1 = some i ∧ i < s.procs.length ∧ Eligible_SRT s i ∧
      ∀ j, j < s.procs.length → Eligible_SRT s j →
        (s.procs.getD i default).remaining ≤ (s.procs.getD j default).remaining ∧
        ((s.procs.getD j default).remaining = (s.procs.getD i default).remaining → i ≤ j)) := by
  have key := foldl_range_induction (scanStep_SRT s)
    (fun (k : Nat) (acc : Option Nat × Int) =>
      (acc.1 = none ∧ acc.2 = INT_MAX ∧ ∀ i, i < k → ¬ Eligible_SRT s i) ∨
      (∃ i, acc.1 = some i ∧ i < k ∧ Eligible_SRT s i ∧
        acc.2 = (s.procs.getD i default).remaining ∧
        ∀ j, j < k → Eligible_SRT s j →
          (s.procs.getD i default).remaining ≤ (s.procs.getD j default).remaining ∧
          ((s.procs.getD j default).remaining = (s.procs.getD i default).remaining → i ≤ j)))
    s.procs.length (none, INT_MAX) (Or.inl ⟨rfl, rfl, fun i hi => absurd hi (by omega)⟩) ?_
  · rcases key with ⟨h1, _, h3⟩ | ⟨i, h1, h2, h3, _, h5⟩
    · exact Or.inl ⟨h1, h3⟩
    · exact Or.inr ⟨i, h1, h2, h3, h5⟩
  · intro k acc hk hP
    by_cases cond : s.finished.getD k false = false ∧ (s.procs.getD k default).arrival ≤ s.t ∧
        (s.procs.getD k default).remaining < acc.2 ∧ (s.procs.getD k default).remaining > 0
    · right
      have hE : Eligible_SRT s k := ⟨cond.1, cond.2.1, cond.2.2.2⟩
      refine ⟨k, by simp only [scanStep_SRT, cond, and_self, if_true], by omega, hE,
        by simp only [scanStep_SRT, cond, and_self, if_true], ?_⟩
      intro j hj hEj
      by_cases e : j = k
      · subst e; exact ⟨le_refl _, fun _ => le_refl _⟩
      · rcases hP with ⟨_, _, h3⟩ | ⟨i, _, _, _, h4, h5⟩
        · exact absurd hEj (h3 j (by omega))
        · have := (h5 j (by omega) hEj).1
          have hlt1 := cond.2.2.1
          rw [h4] at hlt1
          exact ⟨by omega, fun e1 => by omega⟩
    · have hstep : scanStep_SRT s acc k = acc := by
        simp only [scanStep_SRT, cond, if_false]
      rw [hstep]
      rcases hP with ⟨h1, h2, h3⟩ | ⟨i, h1, h2, h3, h4, h5⟩
      · left
        refine ⟨h1, h2, ?_⟩
        intro j hj
        by_cases e : j = k
        · subst e
          intro hE
          apply cond
          refine ⟨hE.1, hE.2.1, ?_, hE.2.2⟩
          rw [h2]; exact hlt j hk
        · exact h3 j (by omega)
      · right
        refine ⟨i, h1, by omega, h3, h4, ?_⟩
        intro j hj hEj
        by_cases e : j = k
        · subst e
          have hnot : ¬ (s.procs.getD j default).remaining < acc.2 :=
            fun hl => cond ⟨hEj.1, hEj.2.1, hl, hEj.2.2⟩
          rw [h4] at hnot
          exact ⟨by omega, fun _ => by omega⟩
        · exact h5 j (by omega) hEj

theorem scan_SRT_none (s : BatchState)
    (h : ∀ i, i < s.procs.length → ¬ Eligible_SRT s i) : (scan_SRT s).1 = none := by
  have key := foldl_range_induction (scanStep_SRT s)
    (fun (_ : Nat) (acc : Option Nat × Int) => acc.1 = none)
    s.procs.length (none, INT_MAX) rfl ?_
  · exact key
  · intro k acc hk hP
    have cond : ¬ (s.finished.getD k false = false ∧ (s.procs.getD k default).arrival ≤ s.t ∧
        (s.procs.getD k default).remaining < acc.2 ∧ (s.procs.getD k default).remaining > 0) :=
      fun c => h k hk ⟨c.1, c.2.1, c.2.2.2⟩
    simp only [scanStep_SRT, cond, if_false]
    exact hP

theorem scan_SJF_spec (s : BatchState)
    (hlt : ∀ i, i < s.procs.length → (s.procs.getD i default).total < INT_MAX) :
    ((scan_SJF s).1 = none ∧ ∀ i, i < s.procs.length → ¬ Eligible_SJF s i) ∨
    (∃ i, (scan_SJF s).1 = some i ∧ i < s.procs.length ∧ Eligible_SJF s i ∧
      ∀ j, j < s.procs.length → Eligible_SJF s j →
        (s.procs.getD i default).total ≤ (s.procs.getD j default).total ∧
        ((s.procs.getD j default).total = (s.procs.getD i default).total → i ≤ j)) := by
  have key := foldl_range_induction (scanStep_SJF s)
    (fun (k : Nat) (acc : Option Nat × Int) =>
      (acc.1 = none ∧ acc.2 = INT_MAX ∧ ∀ i, i < k → ¬ Eligible_SJF s i) ∨
      (∃ i, acc.1 = some i ∧ i < k ∧ Eligible_SJF s i ∧
        acc.2 = (s.procs.getD i default).total ∧
        ∀ j, j < k → Eligible_SJF s j →
          (s.procs.getD i default).total ≤ (s.procs.getD j default).total ∧
          ((s.procs.getD j default).total = (s.procs.getD i default).total → i ≤ j)))
    s.procs.length (none, INT_MAX) (Or.inl ⟨rfl, rfl, fun i hi => absurd hi (by omega)⟩) ?_
  · rcases key with ⟨h1, _, h3⟩ | ⟨i, h1, h2, h3, _, h5⟩
    · exact Or.inl ⟨h1, h3⟩
    · exact Or.inr ⟨i, h1, h2, h3, h5⟩
  · intro k acc hk hP
    by_cases cond : s.finished.getD k false = false ∧ (s.procs.getD k default).arrival ≤ s.t ∧
        (s.procs.getD k default).total < acc.2
    · right
      have hE : Eligible_SJF s k := ⟨cond.1, cond.2.1⟩
      refine ⟨k, by simp only [scanStep_SJF, cond, and_self, if_true], by omega, hE,
        by simp only [scanStep_SJF, cond, and_self, if_true], ?_⟩
      intro j hj hEj
      by_cases e : j = k
      · subst e; exact ⟨le_refl _, fun _ => le_refl _⟩
      · rcases hP with ⟨_, _, h3⟩ | ⟨i, _, _, _, h4, h5⟩
        · exact absurd hEj (h3 j (by omega))
        · have := (h5 j (by omega) hEj).1
          have hlt1 := cond.2.2
          rw [h4] at hlt1
          exact ⟨by omega, fun e1 => by omega⟩
    · have hstep : scanStep_SJF s acc k = acc := by
        simp only [scanStep_SJF, cond, if_false]
      rw [hstep]
      rcases hP with ⟨h1, h2, h3⟩ | ⟨i, h1, h2, h3, h4, h5⟩
      · left
        refine ⟨h1, h2, ?_⟩
        intro j hj
        by_cases e : j = k
        · subst e
          intro hE
          apply cond
          refine ⟨hE.1, hE.2, ?_⟩
          rw [h2]; exact hlt j hk
        · exact h3 j (by omega)
      · right
        refine ⟨i, h1, by omega, h3, h4, ?_⟩
        intro j hj hEj
        by_cases e : j = k
        · subst e
          have hnot : ¬ (s.procs.getD j default).total < acc.2 :=
            fun hl => cond ⟨hEj.1, hEj.2, hl⟩
          rw [h4] at hnot
          exact ⟨by omega, fun _ => by omega⟩
        · exact h5 j (by omega) hEj

theorem scan_SJF_none (s : BatchState)
    (h : ∀ i, i < s.procs.length → ¬ Eligible_SJF s i) : (scan_SJF s).1 = none := by
  have key := foldl_range_induction (scanStep_SJF s)
    (fun (_ : Nat) (acc : Option Nat × Int) => acc.1 = none)
    s.procs.length (none, INT_MAX) rfl ?_
  · exact key
  · intro k acc hk hP
    have cond : ¬ (s.finished.getD k false = false ∧ (s.procs.getD k default).arrival ≤ s.t ∧
        (s.procs.getD k default).total < acc.2) :=
      fun c => h k hk ⟨c.1, c.2.1⟩
    simp only [scanStep_SJF, cond, if_false]
    exact hP

theorem idle_iterations (body : BatchState → BatchState × Bool)
    (hidle : ∀ s : BatchState,
      (∀ i, i < s.procs.length → s.finished.getD i false = false →
        s.t < (s.procs.getD i default).arrival) →
      body s = ({ s with t := s.t + 1 }, false)) :
    ∀ (m : Nat) (bs : BatchState),
      (∀ i, i < bs.procs.length → bs.finished.getD i false = false →
        bs.t + m ≤ (bs.procs.getD i default).arrival) →
      unfinished bs = true →
      iterLoop unfinished body m bs = some { bs with t := bs.t + m } := by
  intro m
  induction m with
  | zero =>
    intro bs _ _
    simp [iterLoop]
  | succ m ih =>
    intro bs hfut hun
    have hb := hidle bs (fun i hi hf => by
      have := hfut i hi hf
      push_cast at this
      omega)
    have hun1 : unfinished { bs with t := bs.t + 1 } = true := hun
    have hrec := ih { bs with t := bs.t + 1 } (fun i hi hf => by
      have := hfut i hi hf
      push_cast at this
      dsimp only
      omega) hun1
    simp only [iterLoop, hun, if_true, hb, Bool.false_eq_true, if_false]
    rw [hrec]
    congr 2
    push_cast
    ring

theorem body_SRT_idle (s : BatchState)
    (h : ∀ i, i < s.procs.length → s.finished.getD i false = false →
      s.t < (s.procs.getD i default).arrival) :
    body_SRT s = ({ s with t := s.t + 1 }, false) := by
  have hn := scan_SRT_none s (fun i hi hE => by
    have := h i hi hE.1
    have := hE.2.1
    omega)
  simp only [body_SRT, hn]

theorem body_SJF_idle (s : BatchState)
    (h : ∀ i, i < s.procs.length → s.finished.getD i false = false →
      s.t < (s.procs.getD i default).arrival) :
    body_SJF s = ({ s with t := s.t + 1 }, false) := by
  have hn := scan_SJF_none s (fun i hi hE => by
    have := h i hi hE.1
    have := hE.2
    omega)
  simp only [body_SJF, hn]

theorem SameRun_jump {gps : List Process} {gt : Int} {bs : BatchState} (gt1 : Int)
    (h : SameRun gps gt bs) : SameRun gps gt1 { bs with t := gt1 } :=
  ⟨rfl, h.len_procs, h.len_fin, h.arrival, h.total, h.remaining, h.finished, h.turnaround⟩

theorem SameRun_runUnit {ps0 ps1 : List Process} {t c : Int} {q1 : List Nat} {r : Nat}
    {bs : BatchState} (hinv : Inv ps0 ps1 t c q1 (some r)) (h : SameRun ps1 t bs)
    (hscan : (scan_SRT bs).1 = some r) :
    SameRun (runUnit ps1 q1 (t + 1) c r).processes (t + 1) (body_SRT bs).1 := by
  have hr := (hinv.r_valid r rfl).1
  have hrem := h.remaining r hr
  have harr := h.arrival r hr
  have htot := h.total r hr
  have hpend := (hinv.pending_of_busy hr (Or.inr rfl)).2
  have hfin := h.finished r hr
  have hrb : r < bs.procs.length := by rw [h.len_procs]; exact hr
  have hrf : r < bs.finished.length := by rw [h.len_fin]; exact hr
  have ht := h.time
  by_cases hz : (deref ps1 r).remainingCpuTime - 1 = 0
  · have hzb : (bs.procs.getD r default).remaining - 1 = 0 := by rw [hrem]; exact hz
    have e1 : (runUnit ps1 q1 (t + 1) c r).processes =
        ps1.set r { deref ps1 r with
          remainingCpuTime := (deref ps1 r).remainingCpuTime - 1, completionTime := t + 1,
          turnaroundTime := t + 1 - (deref ps1 r).arrivalTime, active := false } := by
      simp [runUnit, hz]
    have e2 : (body_SRT bs).1 =
        { procs := bs.procs.set r { bs.procs.getD r default with
            remaining := (bs.procs.getD r default).remaining - 1,
            turnaround := bs.t + 1 - (bs.procs.getD r default).arrival },
          t := bs.t + 1, finished := bs.finished.set r true } := by
      unfold body_SRT
      rw [hscan]
      dsimp only
      rw [if_pos hzb]
    rw [e1, e2]
    refine ⟨by simp [ht], by simp [h.len_procs], by simp [h.len_fin], ?_, ?_, ?_, ?_, ?_⟩
    · intro i hi
      have hi1 : i < ps1.length := by simpa using hi
      by_cases e : i = r
      · subst e; simp only [getD_set, deref_set, hr, hrb, and_self, if_true]; exact harr
      · simp only [getD_set, deref_set, e, false_and, if_false]; exact h.arrival i hi1
    · intro i hi
      have hi1 : i < ps1.length := by simpa using hi
      by_cases e : i = r
      · subst e; simp only [getD_set, deref_set, hr, hrb, and_self, if_true]; exact htot
      · simp only [getD_set, deref_set, e, false_and, if_false]; exact h.total i hi1
    · intro i hi
      have hi1 : i < ps1.length := by simpa using hi
      by_cases e : i = r
      · subst e; simp only [getD_set, deref_set, hr, hrb, and_self, if_true]; rw [hrem]
      · simp only [getD_set, deref_set, e, false_and, if_false]; exact h.remaining i hi1
    · intro i hi
      have hi1 : i < ps1.length := by simpa using hi
      by_cases e : i = r
      · subst e
        simp only [getD_set, deref_set, hr, hrf, and_self, if_true, true_iff]
        have := hinv.time_nonneg
        omega
      · simp only [getD_set, deref_set, e, false_and, if_false]; exact h.finished i hi1
    · intro i hi
      have hi1 : i < ps1.length := by simpa using hi
      by_cases e : i = r
      · subst e
        simp only [getD_set, deref_set, hr, hrb, and_self, if_true]
        intro _
        rw [ht, harr]
      · simp only [getD_set, deref_set, e, false_and, if_false]; exact h.turnaround i hi1
  · have hzb : ¬ (bs.procs.getD r default).remaining - 1 = 0 := by rw [hrem]; exact hz
    have e1 : (runUnit ps1 q1 (t + 1) c r).processes =
        ps1.set r { deref ps1 r with
          remainingCpuTime := (deref ps1 r).remainingCpuTime - 1 } := by
      simp [runUnit, hz]
    have e2 : (body_SRT bs).1 =
        { procs := bs.procs.set r { bs.procs.getD r default with
            remaining := (bs.procs.getD r default).remaining - 1 },
          t := bs.t + 1, finished := bs.finished } := by
      unfold body_SRT
      rw [hscan]
      dsimp only
      rw [if_neg hzb]
    rw [e1, e2]
    refine ⟨by simp [ht], by simp [h.len_procs], by simp [h.len_fin], ?_, ?_, ?_, ?_, ?_⟩
    · intro i hi
      have hi1 : i < ps1.length := by simpa using hi
      by_cases e : i = r
      · subst e; simp only [getD_set, deref_set, hr, hrb, and_self, if_true]; exact harr
      · simp only [getD_set, deref_set, e, false_and, if_false]; exact h.arrival i hi1
    · intro i hi
      have hi1 : i < ps1.length := by simpa using hi
      by_cases e : i = r
      · subst e; simp only [getD_set, deref_set, hr, hrb, and_self, if_true]; exact htot
      · simp only [getD_set, deref_set, e, false_and, if_false]; exact h.total i hi1
    · intro i hi
      have hi1 : i < ps1.length := by simpa using hi
      by_cases e : i = r
      · subst e; simp only [getD_set, deref_set, hr, hrb, and_self, if_true]; rw [hrem]
      · simp only [getD_set, deref_set, e, false_and, if_false]; exact h.remaining i hi1
    · intro i hi
      have hi1 : i < ps1.length := by simpa using hi
      by_cases e : i = r
      · subst e
        simp only [deref_set, hr, and_self, if_true]
        exact hfin
      · simp only [deref_set, e, false_and, if_false]; exact h.finished i hi1
    · intro i hi
      have hi1 : i < ps1.length := by simpa using hi
      by_cases e : i = r
      · subst e
        simp only [getD_set, deref_set, hr, hrb, and_self, if_true]
        intro hc
        exact absurd hpend hc
      · simp only [getD_set, deref_set, e, false_and, if_false]; exact h.turnaround i hi1
theorem registryOf_length (jobs : List (Int × Int)) : (registryOf jobs).length = jobs.length := by
  simp [registryOf]

theorem batchRegistryOf_length (jobs : List (Int × Int)) :
    (batchRegistryOf jobs).length = jobs.length := by
  simp [batchRegistryOf]

theorem deref_registryOf (jobs : List (Int × Int)) (i : Nat) (hi : i < jobs.length) :
    deref (registryOf jobs) i =
      Process.create (i : Int) (jobs.getD i (0, 0)).1 (jobs.getD i (0, 0)).2 := by
  simp [deref, registryOf, List.getD_eq_getElem?_getD, hi]

theorem getD_batchRegistryOf (jobs : List (Int × Int)) (i : Nat) (hi : i < jobs.length) :
    (batchRegistryOf jobs).getD i default =
      BatchProcess.generated (i : Int) (jobs.getD i (0, 0)).1 (jobs.getD i (0, 0)).2 := by
  simp [batchRegistryOf, List.getD_eq_getElem?_getD, hi]

theorem fresh_registryOf (jobs : List (Int × Int)) : Fresh (registryOf jobs) := by
  intro p hp
  simp only [registryOf, List.mem_map, List.mem_range] at hp
  obtain ⟨i, _, e⟩ := hp
  rw [← e]
  rfl

theorem distinctIds_registryOf (jobs : List (Int × Int)) : DistinctIds (registryOf jobs) := by
  unfold DistinctIds registryOf
  rw [List.map_map]
  have e : (Process.id ∘ fun (i : Nat) =>
      Process.create (i : Int) (jobs.getD i (0, 0)).1 (jobs.getD i (0, 0)).2) =
      fun (i : Nat) => (i : Int) := by
    funext i
    rfl
  rw [e]
  exact List.Nodup.map (fun a b h => by exact_mod_cast h) (List.nodup_range _)

theorem jobs_getD_mem (jobs : List (Int × Int)) (i : Nat) (hi : i < jobs.length) :
    jobs.getD i (0, 0) ∈ jobs := by
  rw [List.getD_eq_getElem _ _ hi]
  exact List.getElem_mem hi

theorem inIntRange_registryOf (jobs : List (Int × Int)) (h : ∀ j ∈ jobs, j.1 ≤ INT_MAX) :
    InIntRange (registryOf jobs) := by
  intro p hp
  simp only [registryOf, List.mem_map, List.mem_range] at hp
  obtain ⟨i, hi, e⟩ := hp
  rw [← e]
  exact h _ (jobs_getD_mem jobs i hi)

theorem bursts_registryOf (jobs : List (Int × Int)) (h : ∀ j ∈ jobs, 1 ≤ j.2) :
    ∀ p ∈ registryOf jobs, 1 ≤ p.totalCpuTime := by
  intro p hp
  simp only [registryOf, List.mem_map, List.mem_range] at hp
  obtain ⟨i, hi, e⟩ := hp
  rw [← e]
  exact h _ (jobs_getD_mem jobs i hi)

theorem SameRun_init (jobs : List (Int × Int)) :
    SameRun (registryOf jobs) 0 (init_FIFO (batchRegistryOf jobs)) := by
  refine ⟨rfl, by simp [init_FIFO, registryOf_length, batchRegistryOf_length],
    by simp [init_FIFO, registryOf_length, batchRegistryOf_length], ?_, ?_, ?_, ?_, ?_⟩
  · intro i hi
    rw [registryOf_length] at hi
    simp only [init_FIFO, getD_batchRegistryOf jobs i hi, deref_registryOf jobs i hi]
    rfl
  · intro i hi
    rw [registryOf_length] at hi
    simp only [init_FIFO, getD_batchRegistryOf jobs i hi, deref_registryOf jobs i hi]
    rfl
  · intro i hi
    rw [registryOf_length] at hi
    simp only [init_FIFO, getD_batchRegistryOf jobs i hi, deref_registryOf jobs i hi]
    rfl
  · intro i hi
    rw [registryOf_length] at hi
    simp only [init_FIFO, deref_registryOf jobs i hi]
    have hi2 : i < (batchRegistryOf jobs).length := by rw [batchRegistryOf_length]; exact hi
    simp [List.getD_eq_getElem?_getD, hi2, Process.create]
  · intro i hi hc
    rw [registryOf_length] at hi
    rw [deref_registryOf jobs i hi] at hc
    exact absurd rfl hc

theorem body_SRT_snd (s : BatchState) : (body_SRT s).2 = false := by
  unfold body_SRT
  cases (scan_SRT s).1 with
  | none => rfl
  | some idx =>
    dsimp only
    split <;> rfl

theorem body_SJF_snd (s : BatchState) : (body_SJF s).2 = false := by
  unfold body_SJF
  cases (scan_SJF s).1 with
  | none => rfl
  | some idx => rfl

theorem iterLoop_one {σ : Type} (guard : σ → Bool) (body : σ → σ × Bool) (s : σ)
    (hg : guard s = true) (hb : (body s).2 = false) :
    iterLoop guard body 1 s = some (body s).1 := by
  simp [iterLoop, hg, hb]

/-- The scan of `simulate_SRT` finds the process that `simulateSRT` chooses,
when the ids are the positions. -/
theorem scan_SRT_agrees {ps0 ps1 : List Process} {s : SimState} {q1 : List Nat} {r : Nat}
    {bs : BatchState} (hd : DistinctIds ps0)
    (hid : ∀ i, i < ps0.length → (deref ps0 i).id = (i : Int))
    (hmax : ∀ i, i < ps0.length → (deref ps0 i).totalCpuTime < INT_MAX)
    (hok : s.Ok ps0) (hsame : ∀ i, ∃ b, deref ps1 i = { deref s.processes i with active := b })
    (hinv : Inv ps0 ps1 s.currentTime s.completedProcesses q1 (some r))
    (hch : chosenSRT s = some r) (hsr : SameRun ps1 s.currentTime bs) :
    (scan_SRT bs).1 = some r := by
  have hr := (hinv.r_valid r rfl).1
  have hlen := hinv.len
  have hpend := (hinv.pending_of_busy hr (Or.inr rfl)).2
  have harr := hinv.running_arrived
  have hEr : Eligible_SRT bs r := by
    refine ⟨?_, ?_, ?_⟩
    · by_contra hne
      have ht : bs.finished.getD r false = true := by simpa using hne
      exact (hsr.finished r hr).1 ht hpend
    · rw [hsr.arrival r hr, hsr.time]; exact harr
    · rw [hsr.remaining r hr]
      have := (hinv.procs r hr).pend_rem hpend
      omega
  have hlt : ∀ i, i < bs.procs.length → (bs.procs.getD i default).remaining < INT_MAX := by
    intro i hi
    rw [hsr.len_procs] at hi
    rw [hsr.remaining i hi]
    have P := hinv.procs i hi
    have h1 := P.rem_le
    have h2 := P.tot_eq
    have h3 := hmax i (by rw [← hlen]; exact hi)
    omega
  rcases scan_SRT_spec bs hlt with ⟨_, hnone⟩ | ⟨i, hi1, hi2, hEi, hmin⟩
  · exact absurd hEr (hnone r (by rw [hsr.len_procs]; exact hr))
  · rw [hi1]
    congr 1
    by_contra hne
    have hi3 : i < ps1.length := by rw [← hsr.len_procs]; exact hi2
    have hm := hmin r (by rw [hsr.len_procs]; exact hr) hEr
    rw [hsr.remaining r hr, hsr.remaining i hi3] at hm
    obtain ⟨_, _, _, hsel⟩ := chosenSRT_min hd 0 hok r hch
    obtain ⟨bi, ebi⟩ := hsame i
    obtain ⟨br, ebr⟩ := hsame r
    have hpi : (deref ps1 i).completionTime = -1 := by
      by_contra hc
      have := (hsr.finished i hi3).2 hc
      rw [hEi.1] at this
      exact Bool.false_ne_true this
    have hai : (deref ps1 i).arrivalTime ≤ s.currentTime := by
      rw [← hsr.arrival i hi3, ← hsr.time]; exact hEi.2.1
    have h1 := hsel i (by rw [← hlen]; exact hi3) hne
      (by rw [ebi] at hai; exact hai) (by rw [ebi] at hpi; exact hpi)
    have e1 : (deref s.processes i).remainingCpuTime = (deref ps1 i).remainingCpuTime := by
      rw [ebi]
    have e2 : (deref s.processes r).remainingCpuTime = (deref ps1 r).remainingCpuTime := by
      rw [ebr]
    have hlen2 : s.processes.length = ps0.length := hok.len
    have e3 : (deref s.processes i).id = (i : Int) := by
      rw [(hok.procs i (by rw [hlen2, ← hlen]; exact hi3)).id_eq]
      exact hid i (by rw [← hlen]; exact hi3)
    have e4 : (deref s.processes r).id = (r : Int) := by
      rw [(hok.procs r (by rw [hlen2, ← hlen]; exact hr)).id_eq]
      exact hid r (by rw [← hlen]; exact hr)
    rw [e1, e2, e3, e4] at h1
    have h2 := h1.2
    have h3 := hm.2
    have h4 := h1.1
    have h5 := hm.1
    have heq : (deref ps1 i).remainingCpuTime = (deref ps1 r).remainingCpuTime := by omega
    have h6 := h2 heq
    have h7 := h3 heq.symm
    omega

/-- One iteration of `simulateSRT` is matched by iterations of `simulate_SRT`:
one for a time unit of the chosen process, and as many as the clock jumps for
an idle iteration. -/
theorem srt_iteration_matched {ps0 : List Process} {s : SimState} {bs : BatchState}
    (hd : DistinctIds ps0) (hid : ∀ i, i < ps0.length → (deref ps0 i).id = (i : Int))
    (hmax : ∀ i, i < ps0.length → (deref ps0 i).totalCpuTime < INT_MAX)
    (hok : s.Ok ps0) (hsr : SameRun s.processes s.currentTime bs)
    (hc : s.completedProcesses < ps0.length) (n : Int) :
    ∃ mb t1, iterLoop unfinished body_SRT mb bs = some t1 ∧
      SameRun (bodySRT n s).1.processes (bodySRT n s).1.currentTime t1 := by
  have hun : unfinished bs = true := (SameRun.guard_iff hok hsr).2 hc
  obtain ⟨ps1, _, hsame, hlen, hcase⟩ := bodySRT_cases n hok
  have hsr1 := SameRun_same hsame hlen hsr
  rcases hcase with ⟨hinv, hadm, _, _, hb⟩ | ⟨q1, r, hinv, hch, hb⟩
  · have hi := idle_step hinv hadm (by rw [hinv.len]; exact hc)
    have hj := idle_jump hsame hlen hinv hadm hc
    rw [hb, idleSRT_found n _ _ hi.1]
    dsimp only
    have e : bs.t + (((nextArrival ps1 s.currentTime).1 - s.currentTime).toNat : Int) =
        (nextArrival ps1 s.currentTime).1 := by
      rw [hsr.time]
      have := hi.2.1
      omega
    refine ⟨((nextArrival ps1 s.currentTime).1 - s.currentTime).toNat, _,
      idle_iterations body_SRT body_SRT_idle _ bs ?_ hun, ?_⟩
    · intro i hib hf
      rw [e]
      have hi1 : i < ps1.length := by rw [← hsr1.len_procs]; exact hib
      have hpend : (deref ps1 i).completionTime = -1 := by
        by_contra hcne
        have := (hsr1.finished i hi1).2 hcne
        rw [hf] at this
        exact Bool.false_ne_true this
      rw [hsr1.arrival i hi1]
      obtain ⟨b, eb⟩ := hsame i
      have hmem : deref s.processes i ∈ s.processes :=
        (mem_iff_deref s.processes _).2 ⟨i, by rw [← hlen]; exact hi1, rfl⟩
      have := hj.2.2 _ hmem (by rw [eb] at hpend; exact hpend)
      rw [eb]
      exact this
    · rw [e]
      exact SameRun_jump _ hsr1
  · rw [hb]
    have hscan := scan_SRT_agrees hd hid hmax hok hsame hinv hch hsr1
    refine ⟨1, _, iterLoop_one unfinished body_SRT bs hun (body_SRT_snd bs), ?_⟩
    have hcur : (runUnit ps1 q1 (s.currentTime + 1) s.completedProcesses r).currentTime =
        s.currentTime + 1 := (runUnit_effect _ _ _ _ _ (hinv.r_valid r rfl).1).1
    rw [hcur]
    exact SameRun_runUnit hinv hsr1 hscan

theorem batch_fold (l : List BatchProcess) (acc : ℚ) :
    l.foldl (fun acc p => acc + (p.turnaround : ℚ)) acc =
      acc + (l.map (fun p => (p.turnaround : ℚ))).sum := by
  induction l generalizing acc with
  | nil => simp
  | cons p l ih =>
    rw [List.foldl_cons, ih, List.map_cons, List.sum_cons]
    ring

/-- When the loop of geminiversion.cpp has completed every process, a state of
SchedulingAlgorithms.cpp that describes the same run holds the same turnaround
times, and the two averages are equal. -/
theorem SameRun.results {ps0 gps : List Process} {t c : Int} {q : List Nat} {r : Option Nat}
    {bs : BatchState} (hinv : Inv ps0 gps t c q r) (hc : c = ps0.length)
    (hpos : 0 < ps0.length) (h : SameRun gps t bs) :
    bs.procs.map BatchProcess.turnaround = gps.map Process.turnaroundTime ∧
      batchATT ps0.length bs.procs = averageCompleted gps := by
  have hfin := hinv.final hc
  have hmap : bs.procs.map BatchProcess.turnaround = gps.map Process.turnaroundTime := by
    apply List.ext_getElem
    · simp [h.len_procs]
    · intro i h1 h2
      have hi : i < gps.length := by simpa using h2
      have hib : i < bs.procs.length := by simpa using h1
      have hdone : (deref gps i).completionTime ≠ -1 :=
        (hfin _ ((mem_iff_deref gps _).2 ⟨i, hi, rfl⟩)).1
      have := h.turnaround i hi hdone
      simp only [deref, List.getD_eq_getElem _ _ hi, List.getD_eq_getElem _ _ hib] at this
      simpa using this
  refine ⟨hmap, ?_⟩
  obtain ⟨h1, h2, _⟩ := Inv.sums hinv
  have hfil : gps.filter (fun p => decide (p.completionTime ≠ -1)) = gps := by
    rw [List.filter_eq_self]
    intro p hp
    simpa using (hfin p hp).1
  have hsum : completedTurnaround gps = (gps.map (fun p => (p.turnaroundTime : ℚ))).sum := by
    unfold completedTurnaround
    rw [hfil]
  have hb : (bs.procs.map (fun p => (p.turnaround : ℚ))).sum =
      (gps.map (fun p => (p.turnaroundTime : ℚ))).sum := by
    have e1 : bs.procs.map (fun p => (p.turnaround : ℚ)) =
        (bs.procs.map BatchProcess.turnaround).map (fun (z : Int) => (z : ℚ)) := by
      rw [List.map_map]; rfl
    have e2 : gps.map (fun p => (p.turnaroundTime : ℚ)) =
        (gps.map Process.turnaroundTime).map (fun (z : Int) => (z : ℚ)) := by
      rw [List.map_map]; rfl
    rw [e1, e2, hmap]
  have hposc : (0 : Int) < c := by rw [hc]; exact_mod_cast hpos
  unfold batchATT averageCompleted
  rw [batch_fold, zero_add, hb, h1, hsum, h2, if_pos hposc, hc]
  push_cast
  rfl

/-- Every run of the loop of `simulateSRT` that ends is matched by a run of
the loop of `simulate_SRT` that ends in a state describing the same run. -/
theorem loop_SRT_matches (jobs : List (Int × Int))
    (hjobs : ∀ j ∈ jobs, j.1 ≤ INT_MAX ∧ 1 ≤ j.2 ∧ j.2 < INT_MAX) (fuel : Nat) (gs : SimState)
    (hrun : loopSRT fuel (registryOf jobs) jobs.length = some gs) :
    ∃ fuelB bs, loop_SRT fuelB (batchRegistryOf jobs) = some bs ∧
      gs.Ok (registryOf jobs) ∧ SameRun gs.processes gs.currentTime bs := by
  have hlen := registryOf_length jobs
  have hd := distinctIds_registryOf jobs
  have hid : ∀ i, i < (registryOf jobs).length → (deref (registryOf jobs) i).id = (i : Int) := by
    intro i hi
    rw [hlen] at hi
    rw [deref_registryOf jobs i hi]
    rfl
  have hmax : ∀ i, i < (registryOf jobs).length →
      (deref (registryOf jobs) i).totalCpuTime < INT_MAX := by
    intro i hi
    rw [hlen] at hi
    rw [deref_registryOf jobs i hi]
    exact (hjobs _ (jobs_getD_mem jobs i hi)).2.2
  have h0 : (initSim (registryOf jobs)).Ok (registryOf jobs) :=
    Inv_init _ (fresh_registryOf jobs) (inIntRange_registryOf jobs (fun j hj => (hjobs j hj).1))
      (bursts_registryOf jobs (fun j hj => (hjobs j hj).2.1))
  have key := loops_in_step
    (fun s : SimState => decide (s.completedProcesses < (jobs.length : Int)))
    (bodySRT jobs.length) unfinished body_SRT
    (fun s bs => s.Ok (registryOf jobs) ∧ SameRun s.processes s.currentTime bs)
    (fun s bs hR hg => by
      have hc : s.completedProcesses < ((registryOf jobs).length : Int) := by
        rw [hlen]; simpa using hg
      have hp := bodySRT_progress (jobs.length : Int) hR.1 hc
      obtain ⟨mb, t1, hi, hs⟩ := srt_iteration_matched hd hid hmax hR.1 hR.2 hc (jobs.length : Int)
      exact ⟨1, _, mb, t1, Nat.one_pos, iterLoop_one _ _ s hg hp.1, hi, hp.2.1, hs⟩)
    (fun s bs hR hg => by
      have hc : ¬ s.completedProcesses < ((registryOf jobs).length : Int) := by
        rw [hlen]; simpa using hg
      by_contra hne
      have hu : unfinished bs = true := by simpa using hne
      exact hc ((SameRun.guard_iff hR.1 hR.2).1 hu))
    fuel (initSim (registryOf jobs)) (init_FIFO (batchRegistryOf jobs)) gs
    ⟨h0, SameRun_init jobs⟩ hrun
  obtain ⟨fuelB, bs, hb, hR⟩ := key
  exact ⟨fuelB, bs, hb, hR.1, hR.2⟩

theorem runBurst_spec : ∀ (k : Nat) (p : BatchProcess) (t : Int), p.remaining = (k : Int) →
    runBurst k p t = ({ p with remaining := 0 }, t + k) := by
  intro k
  induction k with
  | zero =>
    intro p t h
    obtain ⟨pid, arrival, total, remaining, turnaround, active⟩ := p
    simp only [Nat.cast_zero] at h
    subst h
    simp [runBurst]
  | succ k ih =>
    intro p t h
    have hpos : p.remaining > 0 := by rw [h]; push_cast; omega
    have hrec := ih { p with remaining := p.remaining - 1 } (t + 1)
      (by show p.remaining - 1 = (k : Int); rw [h]; push_cast; omega)
    simp only [runBurst, hpos, if_true, hrec]
    congr 1
    push_cast
    ring

/-- The burst of `simulateSJF`: from a state whose iteration runs the process
`r`, which needs `k + 1` more units, `k + 1` iterations serve `r` to completion
and nothing else. -/
theorem sjf_burst {ps0 : List Process} (r : Nat) :
    ∀ (k : Nat) (s : SimState), s.Ok ps0 → s.completedProcesses < ps0.length →
      (s.runningProcess = some r ∨ (s.runningProcess = none ∧ chosenSJF s = some r)) →
      (deref s.processes r).remainingCpuTime = (k : Int) + 1 →
      ∃ s2, iterLoop (fun s : SimState => decide (s.completedProcesses < (ps0.length : Int)))
          (bodySJF ps0.length) (k + 1) s = some s2 ∧
        s2.Ok ps0 ∧ s2.runningProcess = none ∧
        s2.currentTime = s.currentTime + ((k : Int) + 1) ∧
        Served s.processes s2.processes r (s.currentTime + ((k : Int) + 1)) := by
  intro k
  induction k with
  | zero =>
    intro s hok hc hpick hrem
    have hprog := bodySJF_progress (ps0.length : Int) hok hc
    obtain ⟨ps1, _, hsame, hlen, hcase⟩ := bodySJF_cases (ps0.length : Int) hok
    rcases hcase with ⟨_, _, hrn, hcn, _⟩ | ⟨q1, r1, hinv, hsel, hb⟩
    · rcases hpick with h1 | ⟨_, h2⟩
      · rw [hrn] at h1; exact absurd h1 (by simp)
      · rw [hcn] at h2; exact absurd h2 (by simp)
    · have er : r1 = r := by
        rcases hpick with h1 | ⟨h1, h2⟩
        · rcases hsel with h3 | ⟨h3, _⟩
          · rw [h1] at h3; exact (Option.some.inj h3).symm
          · rw [h1] at h3; exact absurd h3 (by simp)
        · rcases hsel with h3 | ⟨_, h4⟩
          · rw [h1] at h3; exact absurd h3 (by simp)
          · rw [h2] at h4; exact (Option.some.inj h4).symm
      subst er
      have hr := (hinv.r_valid r1 rfl).1
      obtain ⟨br, ebr⟩ := hsame r1
      have hrem1 : (deref ps1 r1).remainingCpuTime = 1 := by
        rw [ebr]; simpa using hrem
      have hz : (deref ps1 r1).remainingCpuTime - 1 = 0 := by omega
      have hg : (fun s : SimState => decide (s.completedProcesses < (ps0.length : Int))) s
          = true := by simpa using hc
      refine ⟨(bodySJF ps0.length s).1, iterLoop_one _ _ s hg hprog.1, hprog.2.1, ?_, ?_, ?_⟩
      · rw [hb]; simp [runUnit, hz]
      · rw [hb]; simp [runUnit, hz]
      · rw [hb]
        have e1 : (runUnit ps1 q1 (s.currentTime + 1) s.completedProcesses r1).processes =
            ps1.set r1 { deref ps1 r1 with
              remainingCpuTime := (deref ps1 r1).remainingCpuTime - 1,
              completionTime := s.currentTime + 1,
              turnaroundTime := s.currentTime + 1 - (deref ps1 r1).arrivalTime,
              active := false } := by
          simp [runUnit, hz]
        rw [e1]
        refine ⟨by simp [hlen], ?_, ?_, ?_, ?_, ?_, ?_⟩
        · intro i hi
          rw [deref_set]
          simp only [hi, false_and, if_false]
          exact hsame i
        · simp only [deref_set, hr, and_self, if_true]; rw [ebr]
        · simp only [deref_set, hr, and_self, if_true]; rw [ebr]
        · simp only [deref_set, hr, and_self, if_true]; exact hz
        · simp only [deref_set, hr, and_self, if_true]; simp
        · simp only [deref_set, hr, and_self, if_true]; rw [ebr]; simp
  | succ k ih =>
    intro s hok hc hpick hrem
    have hprog := bodySJF_progress (ps0.length : Int) hok hc
    obtain ⟨ps1, _, hsame, hlen, hcase⟩ := bodySJF_cases (ps0.length : Int) hok
    rcases hcase with ⟨_, _, hrn, hcn, _⟩ | ⟨q1, r1, hinv, hsel, hb⟩
    · rcases hpick with h1 | ⟨_, h2⟩
      · rw [hrn] at h1; exact absurd h1 (by simp)
      · rw [hcn] at h2; exact absurd h2 (by simp)
    · have er : r1 = r := by
        rcases hpick with h1 | ⟨h1, h2⟩
        · rcases hsel with h3 | ⟨h3, _⟩
          · rw [h1] at h3; exact (Option.some.inj h3).symm
          · rw [h1] at h3; exact absurd h3 (by simp)
        · rcases hsel with h3 | ⟨_, h4⟩
          · rw [h1] at h3; exact absurd h3 (by simp)
          · rw [h2] at h4; exact (Option.some.inj h4).symm
      subst er
      have hr := (hinv.r_valid r1 rfl).1
      obtain ⟨br, ebr⟩ := hsame r1
      have hrem1 : (deref ps1 r1).remainingCpuTime = (k : Int) + 1 + 1 := by
        rw [ebr]; simpa using hrem
      have hz : ¬ (deref ps1 r1).remainingCpuTime - 1 = 0 := by omega
      have hg : (fun s : SimState => decide (s.completedProcesses < (ps0.length : Int))) s
          = true := by simpa using hc
      have e1 : runUnit ps1 q1 (s.currentTime + 1) s.completedProcesses r1 =
          { processes := ps1.set r1 { deref ps1 r1 with
              remainingCpuTime := (deref ps1 r1).remainingCpuTime - 1 },
            currentTime := s.currentTime + 1, completedProcesses := s.completedProcesses,
            readyQueue := q1, runningProcess := some r1 } := by
        simp [runUnit, hz]
      have hok1 := hprog.2.1
      rw [hb, e1] at hok1
      have hrem2 : (deref (ps1.set r1 { deref ps1 r1 with
              remainingCpuTime := (deref ps1 r1).remainingCpuTime - 1 }) r1).remainingCpuTime =
          (k : Int) + 1 := by
        simp only [deref_set, hr, and_self, if_true]
        omega
      obtain ⟨s2, hi2, hok2, hrun2, ht2, hsv⟩ := ih _ hok1 hc (Or.inl rfl) hrem2
      refine ⟨s2, ?_, hok2, hrun2, ?_, ?_⟩
      · have hbs : (bodySJF (ps0.length : Int) s).2 = false := hprog.1
        have : iterLoop (fun s : SimState => decide (s.completedProcesses < (ps0.length : Int)))
            (bodySJF ps0.length) (k + 1 + 1) s =
            iterLoop (fun s : SimState => decide (s.completedProcesses < (ps0.length : Int)))
              (bodySJF ps0.length) (k + 1) (bodySJF ps0.length s).1 := by
          rw [iterLoop]
          simp only [hg, if_true, hbs, Bool.false_eq_true, if_false]
        rw [this, hb, e1]
        exact hi2
      · rw [ht2]; push_cast; ring
      · have hT : s.currentTime + 1 + ((k : Int) + 1) = s.currentTime + (((k + 1 : Nat) : Int) + 1) := by
          push_cast; ring
        dsimp only at hsv
        rw [hT] at hsv
        refine ⟨by rw [hsv.len]; simp [hlen], ?_, ?_, ?_, hsv.remaining, hsv.completion, ?_⟩
        · intro i hi
          obtain ⟨b2, e2⟩ := hsv.others i hi
          obtain ⟨b1, eb1⟩ := hsame i
          refine ⟨b2, ?_⟩
          rw [e2, deref_set]
          simp only [hi, false_and, if_false]
          rw [eb1]
        · rw [hsv.arrival]; simp only [deref_set, hr, and_self, if_true]; rw [ebr]
        · rw [hsv.total]; simp only [deref_set, hr, and_self, if_true]; rw [ebr]
        · rw [hsv.turnaround]; simp only [deref_set, hr, and_self, if_true]; rw [ebr]

theorem SameRun_served {ps0 gps gps2 : List Process} {t c : Int} {q : List Nat}
    {ro : Option Nat} {r : Nat} {bs : BatchState} (hinv : Inv ps0 gps t c q ro)
    (hr : r < gps.length) (hpend : (deref gps r).completionTime = -1)
    (h : SameRun gps t bs) (hscan : (scan_SJF bs).1 = some r)
    (hsv : Served gps gps2 r (t + (deref gps r).remainingCpuTime)) :
    SameRun gps2 (t + (deref gps r).remainingCpuTime) (body_SJF bs).1 := by
  have hrem := h.remaining r hr
  have harr := h.arrival r hr
  have htot := h.total r hr
  have hrb : r < bs.procs.length := by rw [h.len_procs]; exact hr
  have hrf : r < bs.finished.length := by rw [h.len_fin]; exact hr
  have ht := h.time
  have hpos := (hinv.procs r hr).pend_rem hpend
  have hk : (bs.procs.getD r default).remaining =
      (((bs.procs.getD r default).remaining.toNat : Nat) : Int) := by
    rw [hrem]; omega
  have hburst := runBurst_spec _ (bs.procs.getD r default) bs.t hk
  have e2 : (body_SJF bs).1 =
      { procs := bs.procs.set r { bs.procs.getD r default with
          remaining := 0,
          turnaround := bs.t + (bs.procs.getD r default).remaining -
            (bs.procs.getD r default).arrival },
        t := bs.t + (bs.procs.getD r default).remaining,
        finished := bs.finished.set r true } := by
    unfold body_SJF
    rw [hscan]
    dsimp only
    rw [hburst]
    dsimp only
    rw [← hk]
  rw [e2]
  refine ⟨by rw [ht, hrem], by simp [h.len_procs, hsv.len], by simp [h.len_fin, hsv.len],
    ?_, ?_, ?_, ?_, ?_⟩
  · intro i hi
    have hi1 : i < gps.length := by rw [← hsv.len]; exact hi
    by_cases e : i = r
    · subst e; simp only [getD_set, hrb, and_self, if_true]; rw [hsv.arrival]; exact harr
    · obtain ⟨b, eb⟩ := hsv.others i e
      simp only [getD_set, e, false_and, if_false]; rw [eb]; exact h.arrival i hi1
  · intro i hi
    have hi1 : i < gps.length := by rw [← hsv.len]; exact hi
    by_cases e : i = r
    · subst e; simp only [getD_set, hrb, and_self, if_true]; rw [hsv.total]; exact htot
    · obtain ⟨b, eb⟩ := hsv.others i e
      simp only [getD_set, e, false_and, if_false]; rw [eb]; exact h.total i hi1
  · intro i hi
    have hi1 : i < gps.length := by rw [← hsv.len]; exact hi
    by_cases e : i = r
    · subst e; simp only [getD_set, hrb, and_self, if_true]; rw [hsv.remaining]
    · obtain ⟨b, eb⟩ := hsv.others i e
      simp only [getD_set, e, false_and, if_false]; rw [eb]; exact h.remaining i hi1
  · intro i hi
    have hi1 : i < gps.length := by rw [← hsv.len]; exact hi
    by_cases e : i = r
    · subst e
      simp only [getD_set, hrf, and_self, if_true, true_iff]
      rw [hsv.completion]
      have := hinv.time_nonneg
      omega
    · obtain ⟨b, eb⟩ := hsv.others i e
      simp only [getD_set, e, false_and, if_false]; rw [eb]; exact h.finished i hi1
  · intro i hi
    have hi1 : i < gps.length := by rw [← hsv.len]; exact hi
    by_cases e : i = r
    · subst e
      simp only [getD_set, hrb, and_self, if_true]
      intro _
      rw [hsv.turnaround, ht, hrem, harr]
    · obtain ⟨b, eb⟩ := hsv.others i e
      simp only [getD_set, e, false_and, if_false]; rw [eb]; exact h.turnaround i hi1

/-- The scan of `simulate_SJF` finds the process that `simulateSJF` selects,
when the ids are the positions. -/
theorem scan_SJF_agrees {ps0 : List Process} {s : SimState} {r : Nat}
    {bs : BatchState} (hd : DistinctIds ps0)
    (hid : ∀ i, i < ps0.length → (deref ps0 i).id = (i : Int))
    (hmax : ∀ i, i < ps0.length → (deref ps0 i).totalCpuTime < INT_MAX)
    (hok : s.Ok ps0) (hpend : (deref s.processes r).completionTime = -1)
    (harr : (deref s.processes r).arrivalTime ≤ s.currentTime)
    (hch : chosenSJF s = some r) (hsr : SameRun s.processes s.currentTime bs) :
    (scan_SJF bs).1 = some r := by
  obtain ⟨hr0, _, _, hsel⟩ := chosenSJF_min hd 0 hok r hch
  have hlen : s.processes.length = ps0.length := hok.len
  have hr : r < s.processes.length := by rw [hlen]; exact hr0
  have hEr : Eligible_SJF bs r := by
    refine ⟨?_, ?_⟩
    · by_contra hne
      have ht : bs.finished.getD r false = true := by simpa using hne
      exact (hsr.finished r hr).1 ht hpend
    · rw [hsr.arrival r hr, hsr.time]; exact harr
  have hlt : ∀ i, i < bs.procs.length → (bs.procs.getD i default).total < INT_MAX := by
    intro i hi
    rw [hsr.len_procs] at hi
    rw [hsr.total i hi]
    have P := hok.procs i hi
    have h2 := P.tot_eq
    have h3 := hmax i (by rw [← hlen]; exact hi)
    omega
  rcases scan_SJF_spec bs hlt with ⟨_, hnone⟩ | ⟨i, hi1, hi2, hEi, hmin⟩
  · exact absurd hEr (hnone r (by rw [hsr.len_procs]; exact hr))
  · rw [hi1]
    congr 1
    by_contra hne
    have hi3 : i < s.processes.length := by rw [← hsr.len_procs]; exact hi2
    have hm := hmin r (by rw [hsr.len_procs]; exact hr) hEr
    rw [hsr.total r hr, hsr.total i hi3] at hm
    have hpi : (deref s.processes i).completionTime = -1 := by
      by_contra hc
      have := (hsr.finished i hi3).2 hc
      rw [hEi.1] at this
      exact Bool.false_ne_true this
    have hai : (deref s.processes i).arrivalTime ≤ s.currentTime := by
      rw [← hsr.arrival i hi3, ← hsr.time]; exact hEi.2
    have h1 := hsel i (by rw [← hlen]; exact hi3) hne hai hpi
    have e3 : (deref s.processes i).id = (i : Int) := by
      rw [(hok.procs i hi3).id_eq]
      exact hid i (by rw [← hlen]; exact hi3)
    have e4 : (deref s.processes r).id = (r : Int) := by
      rw [(hok.procs r hr).id_eq]
      exact hid r hr0
    rw [e3, e4] at h1
    have h2 := h1.2
    have h3 := hm.2
    have h4 := h1.1
    have h5 := hm.1
    have heq : (deref s.processes i).totalCpuTime = (deref s.processes r).totalCpuTime := by
      omega
    have h6 := h2 heq
    have h7 := h3 heq.symm
    omega

/-- From a state of `simulateSJF` with no running process, the iterations up
to the next such state are matched by iterations of `simulate_SJF`: the burst
of the selected process by one iteration, an idle jump by as many as the clock
jumps. -/
theorem sjf_iterations_matched {ps0 : List Process} {s : SimState} {bs : BatchState}
    (hd : DistinctIds ps0) (hid : ∀ i, i < ps0.length → (deref ps0 i).id = (i : Int))
    (hmax : ∀ i, i < ps0.length → (deref ps0 i).totalCpuTime < INT_MAX)
    (hok : s.Ok ps0) (hnone : s.runningProcess = none)
    (hsr : SameRun s.processes s.currentTime bs)
    (hc : s.completedProcesses < ps0.length) :
    ∃ mg s1 mb t1, 0 < mg ∧
      iterLoop (fun s : SimState => decide (s.completedProcesses < (ps0.length : Int)))
        (bodySJF ps0.length) mg s = some s1 ∧
      iterLoop unfinished body_SJF mb bs = some t1 ∧
      s1.Ok ps0 ∧ s1.runningProcess = none ∧ SameRun s1.processes s1.currentTime t1 := by
  have hun : unfinished bs = true := (SameRun.guard_iff hok hsr).2 hc
  have hg : (fun s : SimState => decide (s.completedProcesses < (ps0.length : Int))) s
      = true := by simpa using hc
  have hprog := bodySJF_progress (ps0.length : Int) hok hc
  obtain ⟨ps1, _, hsame, hlen, hcase⟩ := bodySJF_cases (ps0.length : Int) hok
  have hsr1 := SameRun_same hsame hlen hsr
  rcases hcase with ⟨hinv, hadm, _, _, hb⟩ | ⟨q1, r, hinv, hsel, hb⟩
  · have hi := idle_step hinv hadm (by rw [hinv.len]; exact hc)
    have hj := idle_jump hsame hlen hinv hadm hc
    have hok1 := hprog.2.1
    rw [hb, idleSJF_found _ _ _ _ hi.1] at hok1
    have hb1 : (bodySJF (ps0.length : Int) s).1 =
        ⟨ps1, (nextArrival ps1 s.currentTime).1, s.completedProcesses, [], none⟩ := by
      rw [hb, idleSJF_found _ _ _ _ hi.1]
    have e : bs.t + (((nextArrival ps1 s.currentTime).1 - s.currentTime).toNat : Int) =
        (nextArrival ps1 s.currentTime).1 := by
      rw [hsr.time]
      have := hi.2.1
      omega
    refine ⟨1, _, ((nextArrival ps1 s.currentTime).1 - s.currentTime).toNat, _, Nat.one_pos,
      iterLoop_one _ _ s hg hprog.1,
      idle_iterations body_SJF body_SJF_idle _ bs ?_ hun, ?_, ?_, ?_⟩
    · intro i hib hf
      rw [e]
      have hi1 : i < ps1.length := by rw [← hsr1.len_procs]; exact hib
      have hpend : (deref ps1 i).completionTime = -1 := by
        by_contra hcne
        have := (hsr1.finished i hi1).2 hcne
        rw [hf] at this
        exact Bool.false_ne_true this
      rw [hsr1.arrival i hi1]
      obtain ⟨b, eb⟩ := hsame i
      have hmem : deref s.processes i ∈ s.processes :=
        (mem_iff_deref s.processes _).2 ⟨i, by rw [← hlen]; exact hi1, rfl⟩
      have := hj.2.2 _ hmem (by rw [eb] at hpend; exact hpend)
      rw [eb]
      exact this
    · exact hprog.2.1
    · rw [hb1]
    · rw [hb1, e]
      exact SameRun_jump _ hsr1
  · have hch : chosenSJF s = some r := by
      rcases hsel with h1 | ⟨_, h2⟩
      · rw [hnone] at h1; exact absurd h1 (by simp)
      · exact h2
    have hr1 := (hinv.r_valid r rfl).1
    have hr : r < s.processes.length := by rw [← hlen]; exact hr1
    obtain ⟨br, ebr⟩ := hsame r
    have hpend1 := (hinv.pending_of_busy hr1 (Or.inr rfl)).2
    have hpend : (deref s.processes r).completionTime = -1 := by
      rw [ebr] at hpend1; exact hpend1
    have harr1 := hinv.running_arrived
    have harr : (deref s.processes r).arrivalTime ≤ s.currentTime := by
      rw [ebr] at harr1; exact harr1
    have hpos := (hok.procs r hr).pend_rem hpend
    have hk : (deref s.processes r).remainingCpuTime =
        ((((deref s.processes r).remainingCpuTime - 1).toNat : Nat) : Int) + 1 := by omega
    obtain ⟨s2, hi2, hok2, hrun2, ht2, hsv⟩ := sjf_burst r _ s hok hc (Or.inr ⟨hnone, hch⟩) hk
    rw [← hk] at ht2 hsv
    have hscan := scan_SJF_agrees hd hid hmax hok hpend harr hch hsr
    refine ⟨_, s2, 1, _, Nat.succ_pos _, hi2,
      iterLoop_one unfinished body_SJF bs hun (body_SJF_snd bs), hok2, hrun2, ?_⟩
    rw [ht2]
    exact SameRun_served hok hr hpend hsr hscan hsv

/-- Every run of the loop of `simulateSJF` that ends is matched by a run of
the loop of `simulate_SJF` that ends in a state describing the same run. -/
theorem loop_SJF_matches (jobs : List (Int × Int))
    (hjobs : ∀ j ∈ jobs, j.1 ≤ INT_MAX ∧ 1 ≤ j.2 ∧ j.2 < INT_MAX) (fuel : Nat) (gs : SimState)
    (hrun : loopSJF fuel (registryOf jobs) jobs.length = some gs) :
    ∃ fuelB bs, loop_SJF fuelB (batchRegistryOf jobs) = some bs ∧
      gs.Ok (registryOf jobs) ∧ SameRun gs.processes gs.currentTime bs := by
  have hlen := registryOf_length jobs
  have hd := distinctIds_registryOf jobs
  have hid : ∀ i, i < (registryOf jobs).length → (deref (registryOf jobs) i).id = (i : Int) := by
    intro i hi
    rw [hlen] at hi
    rw [deref_registryOf jobs i hi]
    rfl
  have hmax : ∀ i, i < (registryOf jobs).length →
      (deref (registryOf jobs) i).totalCpuTime < INT_MAX := by
    intro i hi
    rw [hlen] at hi
    rw [deref_registryOf jobs i hi]
    exact (hjobs _ (jobs_getD_mem jobs i hi)).2.2
  have h0 : (initSim (registryOf jobs)).Ok (registryOf jobs) :=
    Inv_init _ (fresh_registryOf jobs) (inIntRange_registryOf jobs (fun j hj => (hjobs j hj).1))
      (bursts_registryOf jobs (fun j hj => (hjobs j hj).2.1))
  rw [← hlen] at hrun
  have key := loops_in_step
    (fun s : SimState => decide (s.completedProcesses < ((registryOf jobs).length : Int)))
    (bodySJF (registryOf jobs).length) unfinished body_SJF
    (fun s bs => s.Ok (registryOf jobs) ∧ s.runningProcess = none ∧
      SameRun s.processes s.currentTime bs)
    (fun s bs hR hg => by
      have hc : s.completedProcesses < ((registryOf jobs).length : Int) := by
        simpa using hg
      obtain ⟨mg, s1, mb, t1, hpos, h1, h2, h3, h4, h5⟩ :=
        sjf_iterations_matched hd hid hmax hR.1 hR.2.1 hR.2.2 hc
      exact ⟨mg, s1, mb, t1, hpos, h1, h2, h3, h4, h5⟩)
    (fun s bs hR hg => by
      have hc : ¬ s.completedProcesses < ((registryOf jobs).length : Int) := by
        simpa using hg
      by_contra hne
      have hu : unfinished bs = true := by simpa using hne
      exact hc ((SameRun.guard_iff hR.1 hR.2.2).1 hu))
    fuel (initSim (registryOf jobs)) (init_FIFO (batchRegistryOf jobs)) gs
    ⟨h0, rfl, SameRun_init jobs⟩ hrun
  obtain ⟨fuelB, bs, hb, hR⟩ := key
  exact ⟨fuelB, bs, hb, hR.1, hR.2.2⟩

theorem capSum_nonneg (n : Nat) (a z : Nat → Int) (t θ : Int) (hθ : 0 ≤ θ)
    (hz : ∀ i, i < n → 0 ≤ z i) : 0 ≤ capSum n a z t θ := by
  unfold capSum
  apply Finset.sum_nonneg
  intro i hi
  have := hz i (by simpa using hi)
  by_cases h1 : a i ≤ t
  · simp only [h1, if_true]; omega
  · simp only [h1, if_false]; exact le_refl _

theorem workLeft_nonneg {ps0 ps : List Process} {t c : Int} {q : List Nat} {r : Option Nat}
    (h : Inv ps0 ps t c q r) : 0 ≤ workLeft ps := by
  unfold workLeft
  apply Finset.sum_nonneg
  intro i hi
  exact h.rem_nonneg i (by simpa using hi)

/-- A state that satisfies the loop invariant and whose makespan is at most
`INT_MAX`, from a registry without negative arrivals, is in the range of
`int`. -/
theorem intRange_of_clock {ps0 ps : List Process} {t c : Int} {q : List Nat}
    {r : Option Nat} (h : Inv ps0 ps t c q r) (h0 : ∀ p ∈ ps0, 0 ≤ p.arrivalTime)
    (ht : t ≤ INT_MAX) : IntRange ps t := by
  refine ⟨⟨h.time_nonneg, ht⟩, ?_, ?_⟩
  · intro p hp
    obtain ⟨i, hi, e⟩ := (mem_iff_deref ps p).1 hp
    have P := h.procs i hi
    rw [← e]
    by_cases hc : (deref ps i).completionTime = -1
    · rw [hc]; exact ⟨le_refl _, by unfold INT_MAX; omega⟩
    · have h1 := P.done_le hc
      have h2 := P.done_pos hc
      exact ⟨by omega, by omega⟩
  · intro p hp
    obtain ⟨i, hi, e⟩ := (mem_iff_deref ps p).1 hp
    have P := h.procs i hi
    have ha := h0 _ ((mem_iff_deref ps0 _).2 ⟨i, by rw [← h.len]; exact hi, rfl⟩)
    have ha1 := P.arr_eq
    rw [← e]
    by_cases hc : (deref ps i).completionTime = -1
    · rw [P.pend_ta hc]; exact ⟨le_refl _, by unfold INT_MAX; omega⟩
    · have h1 := P.done_le hc
      have h2 := P.done_ge hc
      have h3 := P.done_ta hc
      have h4 := P.tot_pos
      exact ⟨by omega, by omega⟩

theorem intRange_of_makespan {ps0 ps : List Process} {t c M : Int} {q : List Nat}
    {r : Option Nat} (h : Inv ps0 ps t c q r) (hm : IsMakespan ps t M)
    (h0 : ∀ p ∈ ps0, 0 ≤ p.arrivalTime) (hM : M ≤ INT_MAX) : IntRange ps t := by
  have h1 := hm.base_le
  have h2 := workLeft_nonneg h
  exact intRange_of_clock h h0 (by omega)

/-- With `n` at most the size, every state that the loop of `simulateFIFO`
reaches satisfies the loop invariant and has the makespan of the registry. -/
theorem reach_FIFO (ps : List Process) (hf : Fresh ps) (hr : InIntRange ps)
    (hcpu : ∀ p ∈ ps, 1 ≤ p.totalCpuTime) (n : Int) (hn : n ≤ ps.length) (k : Nat)
    (s : FIFOState)
    (hs : iterLoop (fun s => decide (s.completedProcesses < n)) (bodyFIFO n) k (initFIFO ps)
      = some s) :
    s.Ok ps ∧ IsMakespan s.processes s.currentTime (makespan ps 0) := by
  have h := iterLoop_invariant _ (bodyFIFO n)
    (fun s => (s.Ok ps ∧ NonPreempt s.processes s.currentTime none) ∧
      IsMakespan s.processes s.currentTime (makespan ps 0))
    (fun s h hg => by
      have hg1 : s.completedProcesses < ps.length := by
        have : s.completedProcesses < n := by simpa using hg
        omega
      exact ⟨⟨(bodyFIFO_progress _ h.1.1 hg1).2.1, bodyFIFO_nonPreempt _ h.1.1 h.1.2⟩,
        (bodyFIFO_makespan n h.1.1 h.1.2 hg1 h.2).1⟩)
    k (initFIFO ps) s
    ⟨⟨Inv_init ps hf hr hcpu, NonPreempt_init ps hf⟩, isMakespan_makespan ps 0⟩ hs
  exact ⟨h.1.1, h.2⟩

theorem reach_SJF (ps : List Process) (hf : Fresh ps) (hr : InIntRange ps)
    (hcpu : ∀ p ∈ ps, 1 ≤ p.totalCpuTime) (n : Int) (hn : n ≤ ps.length) (k : Nat)
    (s : SimState)
    (hs : iterLoop (fun s => decide (s.completedProcesses < n)) (bodySJF n) k (initSim ps)
      = some s) :
    s.Ok ps ∧ IsMakespan s.processes s.currentTime (makespan ps 0) :=
  iterLoop_invariant _ (bodySJF n)
    (fun s => s.Ok ps ∧ IsMakespan s.processes s.currentTime (makespan ps 0))
    (fun s h hg => by
      have hg1 : s.completedProcesses < ps.length := by
        have : s.completedProcesses < n := by simpa using hg
        omega
      exact ⟨bodySJF_ok _ h.1, (bodySJF_makespan n h.1 hg1 h.2).1⟩)
    k (initSim ps) s ⟨Inv_init ps hf hr hcpu, isMakespan_makespan ps 0⟩ hs

theorem reach_SRT (ps : List Process) (hf : Fresh ps) (hr : InIntRange ps)
    (hcpu : ∀ p ∈ ps, 1 ≤ p.totalCpuTime) (n : Int) (hn : n ≤ ps.length) (k : Nat)
    (s : SimState)
    (hs : iterLoop (fun s => decide (s.completedProcesses < n)) (bodySRT n) k (initSim ps)
      = some s) :
    s.Ok ps ∧ IsMakespan s.processes s.currentTime (makespan ps 0) :=
  iterLoop_invariant _ (bodySRT n)
    (fun s => s.Ok ps ∧ IsMakespan s.processes s.currentTime (makespan ps 0))
    (fun s h hg => by
      have hg1 : s.completedProcesses < ps.length := by
        have : s.completedProcesses < n := by simpa using hg
        omega
      exact ⟨bodySRT_ok _ h.1, (bodySRT_makespan n h.1 hg1 h.2).1⟩)
    k (initSim ps) s ⟨Inv_init ps hf hr hcpu, isMakespan_makespan ps 0⟩ hs

/-- Under `NoOverflow`, with `n` at most the size, the run of `simulateFIFO`
stays in the range of `int`. -/
theorem fifo_in_range (ps : List Process) (hf : Fresh ps) (hr : InIntRange ps)
    (hcpu : ∀ p ∈ ps, 1 ≤ p.totalCpuTime) (hno : NoOverflow ps) (n : Int)
    (hn : n ≤ ps.length) : FIFOInRange ps n := by
  intro k s hs
  obtain ⟨hok, hm⟩ := reach_FIFO ps hf hr hcpu n hn k s hs
  exact intRange_of_makespan hok hm hno.1 hno.2

/-- Under `NoOverflow`, with `n` at most the size, the run of `simulateSJF`
stays in the range of `int`. -/
theorem sjf_in_range (ps : List Process) (hf : Fresh ps) (hr : InIntRange ps)
    (hcpu : ∀ p ∈ ps, 1 ≤ p.totalCpuTime) (hno : NoOverflow ps) (n : Int)
    (hn : n ≤ ps.length) : SJFInRange ps n := by
  intro k s hs
  obtain ⟨hok, hm⟩ := reach_SJF ps hf hr hcpu n hn k s hs
  exact intRange_of_makespan hok hm hno.1 hno.2

/-- Under `NoOverflow`, with `n` at most the size, the run of `simulateSRT`
stays in the range of `int`. -/
theorem srt_in_range (ps : List Process) (hf : Fresh ps) (hr : InIntRange ps)
    (hcpu : ∀ p ∈ ps, 1 ≤ p.totalCpuTime) (hno : NoOverflow ps) (n : Int)
    (hn : n ≤ ps.length) : SRTInRange ps n := by
  intro k s hs
  obtain ⟨hok, hm⟩ := reach_SRT ps hf hr hcpu n hn k s hs
  exact intRange_of_makespan hok hm hno.1 hno.2

theorem iterLoop_split_at {σ : Type} (guard : σ → Bool) (body : σ → σ × Bool) :
    ∀ (j d : Nat) (s sf : σ), iterLoop guard body (j + d) s = some sf →
      ∃ s1, iterLoop guard body j s = some s1 ∧ iterLoop guard body d s1 = some sf := by
  intro j
  induction j with
  | zero =>
    intro d s sf h
    rw [Nat.zero_add] at h
    exact ⟨s, rfl, h⟩
  | succ j ih =>
    intro d s sf h
    rw [show j + 1 + d = (j + d) + 1 by omega] at h
    by_cases hg : guard s = true
    · by_cases hb : (body s).2 = true
      · simp [iterLoop, hg, hb] at h
      · simp only [iterLoop, hg, if_true, hb, Bool.false_eq_true, if_false] at h
        obtain ⟨s1, h1, h2⟩ := ih d _ sf h
        exact ⟨s1, by simp only [iterLoop, hg, if_true, hb, Bool.false_eq_true, if_false, h1],
          h2⟩
    · simp [iterLoop, hg] at h

theorem iterLoop_measure_mono {σ : Type} (guard : σ → Bool) (body : σ → σ × Bool)
    (I : σ → Prop) (μ : σ → Int) (hI : ∀ s, I s → guard s = true → I (body s).1)
    (hμ : ∀ s, I s → guard s = true → μ s ≤ μ (body s).1) :
    ∀ (d : Nat) (s sf : σ), I s → iterLoop guard body d s = some sf → μ s ≤ μ sf := by
  intro d
  induction d with
  | zero =>
    intro s sf _ h
    simp [iterLoop] at h
    rw [h]
  | succ d ih =>
    intro s sf hs h
    by_cases hg : guard s = true
    · by_cases hb : (body s).2 = true
      · simp [iterLoop, hg, hb] at h
      · simp only [iterLoop, hg, if_true, hb, Bool.false_eq_true, if_false] at h
        exact le_trans (hμ s hs hg) (ih _ sf (hI s hs hg) h)
    · simp [iterLoop, hg] at h

theorem runLoop_measure_mono {σ : Type} (guard : σ → Bool) (body : σ → σ × Bool)
    (μ : σ → Int) (hμ : ∀ s, μ s ≤ μ (body s).1) :
    ∀ (fuel : Nat) (s sf : σ), runLoop guard body fuel s = some sf → μ s ≤ μ sf := by
  intro fuel
  induction fuel with
  | zero => intro s sf h; simp [runLoop] at h
  | succ fuel ih =>
    intro s sf h
    by_cases hg : guard s = true
    · by_cases hb : (body s).2 = true
      · simp only [runLoop, hg, if_true, hb] at h
        rw [← Option.some.inj h]
        exact hμ s
      · simp only [runLoop, hg, if_true, hb, Bool.false_eq_true, if_false] at h
        exact le_trans (hμ s) (ih _ sf h)
    · simp only [runLoop, hg, Bool.false_eq_true, if_false] at h
      rw [← Option.some.inj h]

/-- The clock of `simulateSRT` never goes back. -/
theorem bodySRT_clock {ps0 : List Process} (n : Int) {s : SimState} (h : s.Ok ps0) :
    s.currentTime ≤ (bodySRT n s).1.currentTime := by
  obtain ⟨ps1, _, _, _, hcase⟩ := bodySRT_cases n h
  rcases hcase with ⟨hinv, _, _, _, hb⟩ | ⟨q1, r, hinv, _, hb⟩
  · rw [hb]
    exact idleSRT_ge n s.currentTime s.completedProcesses hinv.mem_arr_le
  · rw [hb, (runUnit_effect _ _ _ _ _ (hinv.r_valid r rfl).1).1]
    omega

/-- When the clock of `simulateSRT` is at most `INT_MAX` at the head of an
iteration, every earlier state of the run was in the range of `int`. -/
theorem srt_in_range_so_far (ps : List Process) (hf : Fresh ps) (hr : InIntRange ps)
    (hcpu : ∀ p ∈ ps, 1 ≤ p.totalCpuTime) (h0 : ∀ p ∈ ps, 0 ≤ p.arrivalTime)
    (n : Int) (k : Nat) (s : SimState)
    (hs : iterLoop (fun s => decide (s.completedProcesses < n)) (bodySRT n) k (initSim ps)
      = some s) (hclock : s.currentTime ≤ INT_MAX) (j : Nat) (hj : j ≤ k) (s1 : SimState)
    (hs1 : iterLoop (fun s => decide (s.completedProcesses < n)) (bodySRT n) j (initSim ps)
      = some s1) : IntRange s1.processes s1.currentTime := by
  have hok1 : s1.Ok ps := iterLoop_invariant _ (bodySRT n) (SimState.Ok ps)
    (fun s h _ => bodySRT_ok n h) j (initSim ps) s1 (Inv_init ps hf hr hcpu) hs1
  have hs2 := hs
  rw [show k = j + (k - j) by omega] at hs2
  obtain ⟨s1', h1, h2⟩ := iterLoop_split_at _ _ j (k - j) _ s hs2
  rw [hs1] at h1
  have e : s1 = s1' := Option.some.inj h1
  subst e
  have hmono := iterLoop_measure_mono _ (bodySRT n) (SimState.Ok ps)
    (fun s => s.currentTime) (fun s h _ => bodySRT_ok n h) (fun s h _ => bodySRT_clock n h)
    (k - j) s1 s hok1 h2
  exact intRange_of_clock hok1 h0 (le_trans hmono hclock)
theorem runBurst_clock : ∀ (k : Nat) (p : BatchProcess) (t : Int), t ≤ (runBurst k p t).2 := by
  intro k
  induction k with
  | zero => intro p t; simp [runBurst]
  | succ k ih =>
    intro p t
    by_cases h : p.remaining > 0
    · simp only [runBurst, h, if_true]
      have := ih { p with remaining := p.remaining - 1 } (t + 1)
      omega
    · simp only [runBurst, h, if_false]
      exact le_refl _

/-- The clock of `simulate_SRT` never goes back. -/
theorem body_SRT_clock (s : BatchState) : s.t ≤ (body_SRT s).1.t := by
  unfold body_SRT
  cases (scan_SRT s).1 with
  | none => dsimp only; omega
  | some idx =>
    dsimp only
    split <;> (dsimp only; omega)

/-- The clock of `simulate_SJF` never goes back. -/
theorem body_SJF_clock (s : BatchState) : s.t ≤ (body_SJF s).1.t := by
  unfold body_SJF
  cases (scan_SJF s).1 with
  | none => dsimp only; omega
  | some idx =>
    dsimp only
    exact runBurst_clock _ _ _

/-- A loop of SchedulingAlgorithms.cpp whose clock never goes back and ends at
or below `INT_MAX` keeps its clock in the range of `int`. -/
theorem batch_in_range (body : BatchState → BatchState × Bool)
    (hμ : ∀ s : BatchState, s.t ≤ (body s).1.t) (procs : List BatchProcess) (fuel : Nat)
    (sf : BatchState) (hrun : runLoop unfinished body fuel (init_FIFO procs) = some sf)
    (hsf : sf.t ≤ INT_MAX) : BatchInRange body procs := by
  intro k s hs
  constructor
  · have := iterLoop_measure_mono unfinished body (fun _ => True) (fun s => s.t)
      (fun _ _ _ => trivial) (fun s _ _ => hμ s) k _ s trivial hs
    exact this
  · obtain ⟨fuel0, h0⟩ := runLoop_of_iterLoop unfinished body k _ s fuel sf hs hrun
    exact le_trans (runLoop_measure_mono unfinished body (fun s => s.t) hμ fuel0 s sf h0) hsf

theorem final_SRT (ps : List Process) (hf : Fresh ps) (hr : InIntRange ps)
    (hcpu : ∀ p ∈ ps, 1 ≤ p.totalCpuTime) (hno : NoOverflow ps) (fuel : Nat) (s : SimState)
    (hs : loopSRT fuel ps ps.length = some s) : s.Ok ps ∧ s.currentTime ≤ INT_MAX := by
  have h := runLoop_invariant _ (bodySRT ps.length)
    (fun s => s.Ok ps ∧ IsMakespan s.processes s.currentTime (makespan ps 0))
    (fun s h hg => ⟨bodySRT_ok _ h.1,
      (bodySRT_makespan _ h.1 (by simpa using hg) h.2).1⟩)
    fuel (initSim ps) s ⟨Inv_init ps hf hr hcpu, isMakespan_makespan ps 0⟩ hs
  exact ⟨h.1, (intRange_of_makespan h.1 h.2 hno.1 hno.2).clock.2⟩

theorem final_SJF (ps : List Process) (hf : Fresh ps) (hr : InIntRange ps)
    (hcpu : ∀ p ∈ ps, 1 ≤ p.totalCpuTime) (hno : NoOverflow ps) (fuel : Nat) (s : SimState)
    (hs : loopSJF fuel ps ps.length = some s) : s.Ok ps ∧ s.currentTime ≤ INT_MAX := by
  have h := runLoop_invariant _ (bodySJF ps.length)
    (fun s => s.Ok ps ∧ IsMakespan s.processes s.currentTime (makespan ps 0))
    (fun s h hg => ⟨bodySJF_ok _ h.1,
      (bodySJF_makespan _ h.1 (by simpa using hg) h.2).1⟩)
    fuel (initSim ps) s ⟨Inv_init ps hf hr hcpu, isMakespan_makespan ps 0⟩ hs
  exact ⟨h.1, (intRange_of_makespan h.1 h.2 hno.1 hno.2).clock.2⟩

/-- Under `NoOverflow` the clock of `simulate_SRT` stays in the range of
`int`: it never goes back and ends at the final clock of `simulateSRT`. -/
theorem batch_SRT_in_range (jobs : List (Int × Int))
    (hjobs : ∀ j ∈ jobs, j.1 ≤ INT_MAX ∧ 1 ≤ j.2 ∧ j.2 < INT_MAX)
    (hno : NoOverflow (registryOf jobs)) : BatchInRange body_SRT (batchRegistryOf jobs) := by
  have hlen := registryOf_length jobs
  have hf := fresh_registryOf jobs
  have hr := inIntRange_registryOf jobs (fun j hj => (hjobs j hj).1)
  have hcpu := bursts_registryOf jobs (fun j hj => (hjobs j hj).2.1)
  obtain ⟨gs, hg, _, _⟩ := loopSRT_total (registryOf jobs) hf hr hcpu
    (potential (registryOf jobs) 0 + 1) (by omega)
  have hfin := final_SRT (registryOf jobs) hf hr hcpu hno _ gs hg
  rw [hlen] at hg
  obtain ⟨fuelB, bs, hb, _, hsr⟩ := loop_SRT_matches jobs hjobs _ gs hg
  exact batch_in_range body_SRT body_SRT_clock _ fuelB bs hb (by rw [hsr.time]; exact hfin.2)

/-- Under `NoOverflow` the clock of `simulate_SJF` stays in the range of
`int`: it never goes back and ends at the final clock of `simulateSJF`. -/
theorem batch_SJF_in_range (jobs : List (Int × Int))
    (hjobs : ∀ j ∈ jobs, j.1 ≤ INT_MAX ∧ 1 ≤ j.2 ∧ j.2 < INT_MAX)
    (hno : NoOverflow (registryOf jobs)) : BatchInRange body_SJF (batchRegistryOf jobs) := by
  have hlen := registryOf_length jobs
  have hf := fresh_registryOf jobs
  have hr := inIntRange_registryOf jobs (fun j hj => (hjobs j hj).1)
  have hcpu := bursts_registryOf jobs (fun j hj => (hjobs j hj).2.1)
  obtain ⟨gs, hg, _, _⟩ := loopSJF_total (registryOf jobs) hf hr hcpu
    (potential (registryOf jobs) 0 + 1) (by omega)
  have hfin := final_SJF (registryOf jobs) hf hr hcpu hno _ gs hg
  rw [hlen] at hg
  obtain ⟨fuelB, bs, hb, _, hsr⟩ := loop_SJF_matches jobs hjobs _ gs hg
  exact batch_in_range body_SJF body_SJF_clock _ fuelB bs hb (by rw [hsr.time]; exact hfin.2)

theorem noOverflow_scenario : NoOverflow scenario := ⟨by decide, by decide⟩

theorem noOverflow_scenario_jobs : NoOverflow (registryOf [(0, 5), (1, 3), (2, 1)]) :=
  ⟨by decide, by decide⟩

/-! ## Properties that depend on the values of the clock

Each theorem below takes the hypothesis that the run fits the range of `int`
and states, next to its property, that every state of the run is in that
range. -/

/-- C1: on a registry as the constructor builds it, with no negative arrival,
every burst time at least 1, a makespan of at most `INT_MAX` (so that the
`int` clock of the source does not overflow) and `n` the size of the registry:
every state that simulateFIFO, simulateSJF and simulateSRT reach is in the
range of `int`; each leaves its loop (with enough fuel the run returns a
value), and then `completedProcesses == n`, no process was added or removed,
and every process has a completion time other than `-1` and no remaining
time. -/
theorem simulators_terminate_all_completed (ps : List Process) (hf : Fresh ps)
    (hr : InIntRange ps) (hcpu : ∀ p ∈ ps, 1 ≤ p.totalCpuTime)
    (hno : NoOverflow ps) :
    (FIFOInRange ps ps.length ∧ SJFInRange ps ps.length ∧
      SRTInRange ps ps.length) ∧
    ((∃ fuel s, loopFIFO fuel ps ps.length = some s ∧
        (simulateFIFO fuel ps ps.length).isSome = true ∧
        s.completedProcesses = ps.length ∧ s.processes.length = ps.length ∧
        ∀ p ∈ s.processes, p.completionTime ≠ -1 ∧ p.remainingCpuTime = 0) ∧
    (∃ fuel s, loopSJF fuel ps ps.length = some s ∧
        (simulateSJF fuel ps ps.length).isSome = true ∧
        s.completedProcesses = ps.length ∧ s.processes.length = ps.length ∧
        ∀ p ∈ s.processes, p.completionTime ≠ -1 ∧ p.remainingCpuTime = 0) ∧
    (∃ fuel s, loopSRT fuel ps ps.length = some s ∧
        (simulateSRT fuel ps ps.length).isSome = true ∧
        s.completedProcesses = ps.length ∧ s.processes.length = ps.length ∧
        ∀ p ∈ s.processes, p.completionTime ≠ -1 ∧ p.remainingCpuTime = 0)) := by
  refine ⟨⟨fifo_in_range ps hf hr hcpu hno _ (le_refl _),
      sjf_in_range ps hf hr hcpu hno _ (le_refl _),
      srt_in_range ps hf hr hcpu hno _ (le_refl _)⟩, ?_⟩
  refine ⟨?_, ?_, ?_⟩
  · obtain ⟨s, hs, hI, hc⟩ := loopFIFO_total ps hf hr hcpu (potential ps 0 + 1) (by omega)
    exact ⟨_, s, hs, by simp [simulateFIFO, hs], hc, hI.len,
      fun p hp => ⟨(hI.final hc p hp).1, (hI.final hc p hp).2.1⟩⟩
  · obtain ⟨s, hs, hI, hc⟩ := loopSJF_total ps hf hr hcpu (potential ps 0 + 1) (by omega)
    exact ⟨_, s, hs, by simp [simulateSJF, hs], hc, hI.len,
      fun p hp => ⟨(hI.final hc p hp).1, (hI.final hc p hp).2.1⟩⟩
  · obtain ⟨s, hs, hI, hc⟩ := loopSRT_total ps hf hr hcpu (potential ps 0 + 1) (by omega)
    exact ⟨_, s, hs, by simp [simulateSRT, hs], hc, hI.len,
      fun p hp => ⟨(hI.final hc p hp).1, (hI.final hc p hp).2.1⟩⟩

/-- C1 at the scenario registry of the specification. -/
theorem simulators_terminate_all_completed_witness :
    Fresh scenario ∧ InIntRange scenario ∧ (∀ p ∈ scenario, 1 ≤ p.totalCpuTime) ∧
    NoOverflow scenario ∧
    ((FIFOInRange scenario scenario.length ∧ SJFInRange scenario scenario.length ∧
      SRTInRange scenario scenario.length) ∧
    (((∃ fuel s, loopFIFO fuel scenario scenario.length = some s ∧
        (simulateFIFO fuel scenario scenario.length).isSome = true ∧
        s.completedProcesses = scenario.length ∧ s.processes.length = scenario.length ∧
        ∀ p ∈ s.processes, p.completionTime ≠ -1 ∧ p.remainingCpuTime = 0) ∧
    (∃ fuel s, loopSJF fuel scenario scenario.length = some s ∧
        (simulateSJF fuel scenario scenario.length).isSome = true ∧
        s.completedProcesses = scenario.length ∧ s.processes.length = scenario.length ∧
        ∀ p ∈ s.processes, p.completionTime ≠ -1 ∧ p.remainingCpuTime = 0) ∧
    (∃ fuel s, loopSRT fuel scenario scenario.length = some s ∧
        (simulateSRT fuel scenario scenario.length).isSome = true ∧
        s.completedProcesses = scenario.length ∧ s.processes.length = scenario.length ∧
        ∀ p ∈ s.processes, p.completionTime ≠ -1 ∧ p.remainingCpuTime = 0)))) :=
  ⟨fresh_scenario, inIntRange_scenario, bursts_scenario, noOverflow_scenario,
    simulators_terminate_all_completed scenario fresh_scenario inIntRange_scenario
      bursts_scenario noOverflow_scenario⟩

/-- C2: on a registry as the constructor builds it, with no negative arrival,
every burst time at least 1, a makespan of at most `INT_MAX` (so that the
`int` clock of the source does not overflow) and `n` the size of the registry:
every state that simulateFIFO, simulateSJF and simulateSRT reach is in the
range of `int`, and each ends in a state where every process has
`turnaroundTime == completionTime - arrivalTime` and
`turnaroundTime >= totalCpuTime`. -/
theorem turnaround_is_completion_minus_arrival (ps : List Process) (hf : Fresh ps)
    (hr : InIntRange ps) (hcpu : ∀ p ∈ ps, 1 ≤ p.totalCpuTime)
    (hno : NoOverflow ps) :
    (FIFOInRange ps ps.length ∧ SJFInRange ps ps.length ∧
      SRTInRange ps ps.length) ∧
    ((∃ fuel s, loopFIFO fuel ps ps.length = some s ∧ s.processes.length = ps.length ∧
        ∀ p ∈ s.processes, p.turnaroundTime = p.completionTime - p.arrivalTime ∧
          p.totalCpuTime ≤ p.turnaroundTime) ∧
    (∃ fuel s, loopSJF fuel ps ps.length = some s ∧ s.processes.length = ps.length ∧
        ∀ p ∈ s.processes, p.turnaroundTime = p.completionTime - p.arrivalTime ∧
          p.totalCpuTime ≤ p.turnaroundTime) ∧
    (∃ fuel s, loopSRT fuel ps ps.length = some s ∧ s.processes.length = ps.length ∧
        ∀ p ∈ s.processes, p.turnaroundTime = p.completionTime - p.arrivalTime ∧
          p.totalCpuTime ≤ p.turnaroundTime)) := by
  refine ⟨⟨fifo_in_range ps hf hr hcpu hno _ (le_refl _),
      sjf_in_range ps hf hr hcpu hno _ (le_refl _),
      srt_in_range ps hf hr hcpu hno _ (le_refl _)⟩, ?_⟩
  refine ⟨?_, ?_, ?_⟩
  · obtain ⟨s, hs, hI, hc⟩ := loopFIFO_total ps hf hr hcpu (potential ps 0 + 1) (by omega)
    exact ⟨_, s, hs, hI.len, fun p hp => (hI.final hc p hp).2.2⟩
  · obtain ⟨s, hs, hI, hc⟩ := loopSJF_total ps hf hr hcpu (potential ps 0 + 1) (by omega)
    exact ⟨_, s, hs, hI.len, fun p hp => (hI.final hc p hp).2.2⟩
  · obtain ⟨s, hs, hI, hc⟩ := loopSRT_total ps hf hr hcpu (potential ps 0 + 1) (by omega)
    exact ⟨_, s, hs, hI.len, fun p hp => (hI.final hc p hp).2.2⟩

/-- C2 at the scenario registry of the specification. -/
theorem turnaround_is_completion_minus_arrival_witness :
    Fresh scenario ∧ InIntRange scenario ∧ (∀ p ∈ scenario, 1 ≤ p.totalCpuTime) ∧
    NoOverflow scenario ∧
    ((FIFOInRange scenario scenario.length ∧ SJFInRange scenario scenario.length ∧
      SRTInRange scenario scenario.length) ∧
    (((∃ fuel s, loopFIFO fuel scenario scenario.length = some s ∧
        s.processes.length = scenario.length ∧
        ∀ p ∈ s.processes, p.turnaroundTime = p.completionTime - p.arrivalTime ∧
          p.totalCpuTime ≤ p.turnaroundTime) ∧
    (∃ fuel s, loopSJF fuel scenario scenario.length = some s ∧
        s.processes.length = scenario.length ∧
        ∀ p ∈ s.processes, p.turnaroundTime = p.completionTime - p.arrivalTime ∧
          p.totalCpuTime ≤ p.turnaroundTime) ∧
    (∃ fuel s, loopSRT fuel scenario scenario.length = some s ∧
        s.processes.length = scenario.length ∧
        ∀ p ∈ s.processes, p.turnaroundTime = p.completionTime - p.arrivalTime ∧
          p.totalCpuTime ≤ p.turnaroundTime)))) :=
  ⟨fresh_scenario, inIntRange_scenario, bursts_scenario, noOverflow_scenario,
    turnaround_is_completion_minus_arrival scenario fresh_scenario inIntRange_scenario
      bursts_scenario noOverflow_scenario⟩

/-- C5: after simulateFIFO on a registry as the constructor builds it, with
pairwise distinct ids, no negative arrival, burst times at least 1, a makespan
of at most `INT_MAX` (so that the `int` clock of the source does not overflow)
and `n` the size of the registry: every state of the run is in the range of
`int`, and a process `a` with an earlier arrival than `b`, or the same arrival
and a smaller id, finishes before `b` starts:
`a.completionTime <= b.completionTime - b.totalCpuTime`. -/
theorem fifo_serves_in_arrival_order (ps : List Process) (hf : Fresh ps) (hr : InIntRange ps)
    (hcpu : ∀ p ∈ ps, 1 ≤ p.totalCpuTime) (hd : DistinctIds ps)
    (hno : NoOverflow ps) :
    (FIFOInRange ps ps.length) ∧
    (∃ fuel s, loopFIFO fuel ps ps.length = some s ∧ s.processes.length = ps.length ∧
      ∀ a b, a < ps.length → b < ps.length →
        ((deref s.processes a).arrivalTime < (deref s.processes b).arrivalTime ∨
          ((deref s.processes a).arrivalTime = (deref s.processes b).arrivalTime ∧
            (deref s.processes a).id < (deref s.processes b).id)) →
        (deref s.processes a).completionTime ≤
          (deref s.processes b).completionTime - (deref s.processes b).totalCpuTime) := by
  refine ⟨fifo_in_range ps hf hr hcpu hno _ (le_refl _), ?_⟩
  obtain ⟨s, hs, hI, hc⟩ := loopFIFO_total ps hf hr hcpu (potential ps 0 + 1) (by omega)
  have hboth : s.Ok ps ∧ FIFOOrder ps s :=
    runLoop_invariant _ (bodyFIFO ps.length) (fun s => s.Ok ps ∧ FIFOOrder ps s)
      (fun s h hg => ⟨(bodyFIFO_step h.1 (by simpa using hg)).2.1,
        bodyFIFO_order hd ps.length h.1 h.2⟩)
      _ (initFIFO ps) s ⟨Inv_init ps hf hr hcpu, FIFOOrder_init ps hf⟩ hs
  refine ⟨_, s, hs, hI.len, ?_⟩
  intro a b ha hb hlt
  have ha1 : a < s.processes.length := by rw [hI.len]; exact ha
  have hb1 : b < s.processes.length := by rw [hI.len]; exact hb
  have Pa := hI.procs a ha1
  have Pb := hI.procs b hb1
  have hbdone := (hI.final hc _ ((mem_iff_deref _ _).2 ⟨b, hb1, rfl⟩)).1
  have hcmp : Process.compareArrival (deref ps a) (deref ps b) = true := by
    rw [← hI.compareArrival_eq a b]
    simp only [Process.compareArrival]
    rcases hlt with h1 | ⟨h1, h2⟩
    · have hne : (deref s.processes a).arrivalTime ≠ (deref s.processes b).arrivalTime := by
        omega
      simp [hne, h1]
    · simp [h1, h2]
  have := (hboth.2.order a b ha hb hcmp hbdone).2
  have h2 := Pb.tot_eq
  omega

/-- C5 at the scenario registry of the specification. -/
theorem fifo_serves_in_arrival_order_witness :
    Fresh scenario ∧ InIntRange scenario ∧ (∀ p ∈ scenario, 1 ≤ p.totalCpuTime) ∧
    DistinctIds scenario ∧
    NoOverflow scenario ∧
    ((FIFOInRange scenario scenario.length) ∧
    (∃ fuel s, loopFIFO fuel scenario scenario.length = some s ∧
      s.processes.length = scenario.length ∧
      ∀ a b, a < scenario.length → b < scenario.length →
        ((deref s.processes a).arrivalTime < (deref s.processes b).arrivalTime ∨
          ((deref s.processes a).arrivalTime = (deref s.processes b).arrivalTime ∧
            (deref s.processes a).id < (deref s.processes b).id)) →
        (deref s.processes a).completionTime ≤
          (deref s.processes b).completionTime - (deref s.processes b).totalCpuTime)) :=
  ⟨fresh_scenario, inIntRange_scenario, bursts_scenario, distinctIds_scenario,
    noOverflow_scenario,
    fifo_serves_in_arrival_order scenario fresh_scenario inIntRange_scenario bursts_scenario
      distinctIds_scenario noOverflow_scenario⟩

/-- C12, amended: on a registry as the constructor builds it, with no negative
arrival, bursts at least 1 and a makespan of at most `INT_MAX` (so that the
`int` clock of the source does not overflow), and for every `n` from 0 to the
size of the registry: every state of the three runs is in the range of `int`,
and each simulator returns a value: exactly `n` processes then have a
completion time, and the value is the sum of their turnaround times divided by
`n` (0 when `n` is 0).  The processes without a completion time are left out
of the average. -/
theorem average_is_over_completed (ps : List Process) (hf : Fresh ps) (hr : InIntRange ps)
    (hcpu : ∀ p ∈ ps, 1 ≤ p.totalCpuTime) (n : Int) (hn0 : 0 ≤ n) (hn : n ≤ ps.length)
    (hno : NoOverflow ps) :
    (FIFOInRange ps n ∧ SJFInRange ps n ∧
      SRTInRange ps n) ∧
    (∃ fuel,
      (∃ s, loopFIFO fuel ps n = some s ∧ completedCount s.processes = n ∧
        simulateFIFO fuel ps n =
          some (if 0 < n then completedTurnaround s.processes / (n : ℚ) else 0)) ∧
      (∃ s, loopSJF fuel ps n = some s ∧ completedCount s.processes = n ∧
        simulateSJF fuel ps n =
          some (if 0 < n then completedTurnaround s.processes / (n : ℚ) else 0)) ∧
      (∃ s, loopSRT fuel ps n = some s ∧ completedCount s.processes = n ∧
        simulateSRT fuel ps n =
          some (if 0 < n then completedTurnaround s.processes / (n : ℚ) else 0))) := by
  refine ⟨⟨fifo_in_range ps hf hr hcpu hno _ hn,
      sjf_in_range ps hf hr hcpu hno _ hn,
      srt_in_range ps hf hr hcpu hno _ hn⟩, ?_⟩
  refine ⟨potential ps 0 + 1, ?_, ?_, ?_⟩
  · obtain ⟨s, hs, hI, hc⟩ := loopFIFO_total_le ps hf hr hcpu n hn0 hn
      (potential ps 0 + 1) (by omega)
    obtain ⟨h1, _, h3⟩ := Inv.sums hI
    refine ⟨s, hs, by rw [h3, hc], ?_⟩
    simp only [simulateFIFO, hs, Option.map_some', averageFIFO, hc, h1, gt_iff_lt]
  · obtain ⟨s, hs, hI, hc⟩ := loopSJF_total_le ps hf hr hcpu n hn0 hn
      (potential ps 0 + 1) (by omega)
    obtain ⟨h1, h2, h3⟩ := Inv.sums hI
    refine ⟨s, hs, by rw [h3, hc], ?_⟩
    simp only [simulateSJF, hs, Option.map_some', averageCompleted, h2, hc, h1, gt_iff_lt]
  · obtain ⟨s, hs, hI, hc⟩ := loopSRT_total_le ps hf hr hcpu n hn0 hn
      (potential ps 0 + 1) (by omega)
    obtain ⟨h1, h2, h3⟩ := Inv.sums hI
    refine ⟨s, hs, by rw [h3, hc], ?_⟩
    simp only [simulateSRT, hs, Option.map_some', averageCompleted, h2, hc, h1, gt_iff_lt]

/-- C12, amended, at the scenario registry with `n = 1`. -/
theorem average_is_over_completed_witness :
    Fresh scenario ∧ InIntRange scenario ∧ (∀ p ∈ scenario, 1 ≤ p.totalCpuTime) ∧
    (0 : Int) ≤ 1 ∧ (1 : Int) ≤ scenario.length ∧
    NoOverflow scenario ∧
    ((FIFOInRange scenario 1 ∧ SJFInRange scenario 1 ∧
      SRTInRange scenario 1) ∧
    (∃ fuel,
      (∃ s, loopFIFO fuel scenario 1 = some s ∧ completedCount s.processes = 1 ∧
        simulateFIFO fuel scenario 1 =
          some (if (0 : Int) < 1 then completedTurnaround s.processes / ((1 : Int) : ℚ)
            else 0)) ∧
      (∃ s, loopSJF fuel scenario 1 = some s ∧ completedCount s.processes = 1 ∧
        simulateSJF fuel scenario 1 =
          some (if (0 : Int) < 1 then completedTurnaround s.processes / ((1 : Int) : ℚ)
            else 0)) ∧
      (∃ s, loopSRT fuel scenario 1 = some s ∧ completedCount s.processes = 1 ∧
        simulateSRT fuel scenario 1 =
          some (if (0 : Int) < 1 then completedTurnaround s.processes / ((1 : Int) : ℚ)
            else 0)))) :=
  ⟨fresh_scenario, inIntRange_scenario, bursts_scenario, by decide, by decide,
    noOverflow_scenario,
    average_is_over_completed scenario fresh_scenario inIntRange_scenario bursts_scenario 1
      (by decide) (by decide) noOverflow_scenario⟩

/-- C13: on a non-empty registry as the constructor builds it, with no negative
arrival, bursts at least 1, a makespan of at most `INT_MAX` (so that the `int`
clock of the source does not overflow) and `n` the size of the registry: every
state of the three runs is in the range of `int`, and the value returned by
each of simulateFIFO, simulateSJF and simulateSRT, as a rational, is the sum
over all processes of `completionTime - arrivalTime` divided by `n`. -/
theorem average_is_mean_turnaround (ps : List Process) (hne : ps ≠ []) (hf : Fresh ps)
    (hr : InIntRange ps) (hcpu : ∀ p ∈ ps, 1 ≤ p.totalCpuTime)
    (hno : NoOverflow ps) :
    (FIFOInRange ps ps.length ∧ SJFInRange ps ps.length ∧
      SRTInRange ps ps.length) ∧
    (∃ fuel,
      (∃ s, loopFIFO fuel ps ps.length = some s ∧ s.processes.length = ps.length ∧
        simulateFIFO fuel ps ps.length = some
          ((s.processes.map (fun p => ((p.completionTime - p.arrivalTime : Int) : ℚ))).sum /
            (ps.length : ℚ))) ∧
      (∃ s, loopSJF fuel ps ps.length = some s ∧ s.processes.length = ps.length ∧
        simulateSJF fuel ps ps.length = some
          ((s.processes.map (fun p => ((p.completionTime - p.arrivalTime : Int) : ℚ))).sum /
            (ps.length : ℚ))) ∧
      (∃ s, loopSRT fuel ps ps.length = some s ∧ s.processes.length = ps.length ∧
        simulateSRT fuel ps ps.length = some
          ((s.processes.map (fun p => ((p.completionTime - p.arrivalTime : Int) : ℚ))).sum /
            (ps.length : ℚ)))) := by
  refine ⟨⟨fifo_in_range ps hf hr hcpu hno _ (le_refl _),
      sjf_in_range ps hf hr hcpu hno _ (le_refl _),
      srt_in_range ps hf hr hcpu hno _ (le_refl _)⟩, ?_⟩
  have hpos : (0 : Int) < ps.length := by
    have : 0 < ps.length := List.length_pos.2 hne
    omega
  refine ⟨potential ps 0 + 1, ?_, ?_, ?_⟩
  · obtain ⟨s, hs, hI, hc⟩ := loopFIFO_total ps hf hr hcpu (potential ps 0 + 1) (by omega)
    obtain ⟨h1, _, _⟩ := Inv.sums hI
    have hall := completedTurnaround_all s.processes
      (fun p hp => ⟨(hI.final hc p hp).1, (hI.final hc p hp).2.2.1⟩)
    refine ⟨s, hs, hI.len, ?_⟩
    simp [simulateFIFO, hs, averageFIFO, hc, h1, hall, hpos]
  · obtain ⟨s, hs, hI, hc⟩ := loopSJF_total ps hf hr hcpu (potential ps 0 + 1) (by omega)
    obtain ⟨h1, h2, _⟩ := Inv.sums hI
    have hall := completedTurnaround_all s.processes
      (fun p hp => ⟨(hI.final hc p hp).1, (hI.final hc p hp).2.2.1⟩)
    refine ⟨s, hs, hI.len, ?_⟩
    simp [simulateSJF, hs, averageCompleted, h2, hc, h1, hall, hpos]
  · obtain ⟨s, hs, hI, hc⟩ := loopSRT_total ps hf hr hcpu (potential ps 0 + 1) (by omega)
    obtain ⟨h1, h2, _⟩ := Inv.sums hI
    have hall := completedTurnaround_all s.processes
      (fun p hp => ⟨(hI.final hc p hp).1, (hI.final hc p hp).2.2.1⟩)
    refine ⟨s, hs, hI.len, ?_⟩
    simp [simulateSRT, hs, averageCompleted, h2, hc, h1, hall, hpos]

/-- C13 at the scenario registry of the specification. -/
theorem average_is_mean_turnaround_witness :
    scenario ≠ [] ∧ Fresh scenario ∧ InIntRange scenario ∧
    (∀ p ∈ scenario, 1 ≤ p.totalCpuTime) ∧
    NoOverflow scenario ∧
    ((FIFOInRange scenario scenario.length ∧ SJFInRange scenario scenario.length ∧
      SRTInRange scenario scenario.length) ∧
    (∃ fuel,
      (∃ s, loopFIFO fuel scenario scenario.length = some s ∧
        s.processes.length = scenario.length ∧
        simulateFIFO fuel scenario scenario.length = some
          ((s.processes.map (fun p => ((p.completionTime - p.arrivalTime : Int) : ℚ))).sum /
            (scenario.length : ℚ))) ∧
      (∃ s, loopSJF fuel scenario scenario.length = some s ∧
        s.processes.length = scenario.length ∧
        simulateSJF fuel scenario scenario.length = some
          ((s.processes.map (fun p => ((p.completionTime - p.arrivalTime : Int) : ℚ))).sum /
            (scenario.length : ℚ))) ∧
      (∃ s, loopSRT fuel scenario scenario.length = some s ∧
        s.processes.length = scenario.length ∧
        simulateSRT fuel scenario scenario.length = some
          ((s.processes.map (fun p => ((p.completionTime - p.arrivalTime : Int) : ℚ))).sum /
            (scenario.length : ℚ))))) :=
  ⟨scenario_ne_nil, fresh_scenario, inIntRange_scenario, bursts_scenario,
    noOverflow_scenario,
    average_is_mean_turnaround scenario scenario_ne_nil fresh_scenario inIntRange_scenario
      bursts_scenario noOverflow_scenario⟩

/-- C14: in simulateFIFO and simulateSJF, on a registry as the constructor
builds it with no negative arrival, bursts at least 1, a makespan of at most
`INT_MAX` (so that the `int` clock of the source does not overflow) and `n`
its size: every state of the two runs is in the range of `int`, and the loop
ends in a state where (1) every process that an iteration selected at time `s`
has the completion time `s + totalCpuTime`, and (2) for two distinct processes
`a` and `b`, `a.completionTime <= b.completionTime - b.totalCpuTime` or
`b.completionTime <= a.completionTime - a.totalCpuTime`. -/
theorem selected_process_runs_to_completion (ps : List Process) (hf : Fresh ps)
    (hr : InIntRange ps) (hcpu : ∀ p ∈ ps, 1 ≤ p.totalCpuTime)
    (hno : NoOverflow ps) :
    (FIFOInRange ps ps.length ∧ SJFInRange ps ps.length) ∧
    ((∃ fuel sf, loopFIFO fuel ps ps.length = some sf ∧ sf.processes.length = ps.length ∧
      (∀ (k : Nat) (s0 : FIFOState) (p : Nat),
        iterLoop (fun s => decide (s.completedProcesses < (ps.length : Int)))
          (bodyFIFO ps.length) k (initFIFO ps) = some s0 →
        s0.completedProcesses < ps.length → chosenFIFO s0 = some p →
        (deref sf.processes p).completionTime =
          s0.currentTime + (deref sf.processes p).totalCpuTime) ∧
      (∀ a b, a < ps.length → b < ps.length → a ≠ b →
        (deref sf.processes a).completionTime ≤
          (deref sf.processes b).completionTime - (deref sf.processes b).totalCpuTime ∨
        (deref sf.processes b).completionTime ≤
          (deref sf.processes a).completionTime - (deref sf.processes a).totalCpuTime)) ∧
    (∃ fuel sf, loopSJF fuel ps ps.length = some sf ∧ sf.processes.length = ps.length ∧
      (∀ (k : Nat) (s0 : SimState) (p : Nat),
        iterLoop (fun s => decide (s.completedProcesses < (ps.length : Int)))
          (bodySJF ps.length) k (initSim ps) = some s0 →
        s0.completedProcesses < ps.length → chosenSJF s0 = some p →
        (deref sf.processes p).completionTime =
          s0.currentTime + (deref sf.processes p).totalCpuTime) ∧
      (∀ a b, a < ps.length → b < ps.length → a ≠ b →
        (deref sf.processes a).completionTime ≤
          (deref sf.processes b).completionTime - (deref sf.processes b).totalCpuTime ∨
        (deref sf.processes b).completionTime ≤
          (deref sf.processes a).completionTime - (deref sf.processes a).totalCpuTime))) := by
  refine ⟨⟨fifo_in_range ps hf hr hcpu hno _ (le_refl _),
        sjf_in_range ps hf hr hcpu hno _ (le_refl _)⟩, ?_⟩
  constructor
  · obtain ⟨sf, hs, hI, hc⟩ := loopFIFO_total ps hf hr hcpu (potential ps 0 + 1) (by omega)
    have hstep : ∀ s : FIFOState, (s.Ok ps ∧ NonPreempt s.processes s.currentTime none) →
        (fun s : FIFOState => decide (s.completedProcesses < (ps.length : Int))) s = true →
        ((bodyFIFO ps.length s).1.Ok ps ∧
          NonPreempt (bodyFIFO ps.length s).1.processes (bodyFIFO ps.length s).1.currentTime
            none) :=
      fun s h hg => ⟨(bodyFIFO_progress _ h.1 (by simpa using hg)).2.1,
        bodyFIFO_nonPreempt _ h.1 h.2⟩
    have hinit : (initFIFO ps).Ok ps ∧
        NonPreempt (initFIFO ps).processes (initFIFO ps).currentTime none :=
      ⟨Inv_init ps hf hr hcpu, NonPreempt_init ps hf⟩
    have hfin := runLoop_invariant _ (bodyFIFO ps.length)
      (fun s => s.Ok ps ∧ NonPreempt s.processes s.currentTime none) hstep
      _ (initFIFO ps) sf hinit hs
    have hdone : ∀ i, i < ps.length → (deref sf.processes i).completionTime ≠ -1 := by
      intro i hi
      have hi1 : i < sf.processes.length := by rw [hI.len]; exact hi
      exact (hI.final hc _ ((mem_iff_deref _ _).2 ⟨i, hi1, rfl⟩)).1
    refine ⟨_, sf, hs, hI.len, ?_, ?_⟩
    · intro k s0 p hk hg hch
      have h0 := iterLoop_invariant _ (bodyFIFO ps.length)
        (fun s => s.Ok ps ∧ NonPreempt s.processes s.currentTime none) hstep
        k (initFIFO ps) s0 hinit hk
      obtain ⟨f0, hf0⟩ := runLoop_of_iterLoop _ _ k _ s0 _ sf hk hs
      have hprog := bodyFIFO_progress (ps.length : Int) h0.1 hg
      obtain ⟨f1, hf1⟩ := runLoop_after_step _ _ s0 sf f0 (by simpa using hg) hprog.1 hf0
      have hp : p < ps.length := by
        obtain ⟨ps1, _, _, _, hcase⟩ := bodyFIFO_cases (ps.length : Int) h0.1
        rcases hcase with ⟨_, _, hnone, _, _⟩ | ⟨cur, rest, hinv, hsome, _⟩
        · rw [hch] at hnone; simp at hnone
        · rw [hch] at hsome
          simp only [Option.some.injEq] at hsome
          subst hsome
          rw [← hinv.len]
          exact hinv.q_valid p (List.mem_cons_self _ _)
      have htr := runLoop_invariant _ (bodyFIFO ps.length)
        (fun s => s.Ok ps ∧ Tracked p s0.currentTime s.processes s.currentTime none)
        (fun s h hg => ⟨(bodyFIFO_progress _ h.1 (by simpa using hg)).2.1,
          bodyFIFO_tracked _ h.1 h.2⟩)
        f1 _ sf ⟨hprog.2.1, bodyFIFO_tracked_start _ h0.1 hch⟩ hf1
      exact Tracked_final hI hc hp htr.2
    · intro a b ha hb hab
      have ha1 : a < sf.processes.length := by rw [hI.len]; exact ha
      have hb1 : b < sf.processes.length := by rw [hI.len]; exact hb
      exact hfin.2.apart a b ha1 hb1 hab (hdone a ha) (hdone b hb)
  · obtain ⟨sf, hs, hI, hc⟩ := loopSJF_total ps hf hr hcpu (potential ps 0 + 1) (by omega)
    have hstep : ∀ s : SimState,
        (s.Ok ps ∧ NonPreempt s.processes s.currentTime s.runningProcess) →
        (fun s : SimState => decide (s.completedProcesses < (ps.length : Int))) s = true →
        ((bodySJF ps.length s).1.Ok ps ∧
          NonPreempt (bodySJF ps.length s).1.processes (bodySJF ps.length s).1.currentTime
            (bodySJF ps.length s).1.runningProcess) :=
      fun s h _ => ⟨bodySJF_ok _ h.1, bodySJF_nonPreempt _ h.1 h.2⟩
    have hinit : (initSim ps).Ok ps ∧
        NonPreempt (initSim ps).processes (initSim ps).currentTime
          (initSim ps).runningProcess :=
      ⟨Inv_init ps hf hr hcpu, NonPreempt_init ps hf⟩
    have hfin := runLoop_invariant _ (bodySJF ps.length)
      (fun s => s.Ok ps ∧ NonPreempt s.processes s.currentTime s.runningProcess) hstep
      _ (initSim ps) sf hinit hs
    have hdone : ∀ i, i < ps.length → (deref sf.processes i).completionTime ≠ -1 := by
      intro i hi
      have hi1 : i < sf.processes.length := by rw [hI.len]; exact hi
      exact (hI.final hc _ ((mem_iff_deref _ _).2 ⟨i, hi1, rfl⟩)).1
    refine ⟨_, sf, hs, hI.len, ?_, ?_⟩
    · intro k s0 p hk hg hch
      have h0 := iterLoop_invariant _ (bodySJF ps.length)
        (fun s => s.Ok ps ∧ NonPreempt s.processes s.currentTime s.runningProcess) hstep
        k (initSim ps) s0 hinit hk
      obtain ⟨f0, hf0⟩ := runLoop_of_iterLoop _ _ k _ s0 _ sf hk hs
      have hprog := bodySJF_progress (ps.length : Int) h0.1 hg
      obtain ⟨f1, hf1⟩ := runLoop_after_step _ _ s0 sf f0 (by simpa using hg) hprog.1 hf0
      have hp : p < ps.length := (chosenSJF_min_valid h0.1 hch)
      have htr := runLoop_invariant _ (bodySJF ps.length)
        (fun s => s.Ok ps ∧
          Tracked p s0.currentTime s.processes s.currentTime s.runningProcess)
        (fun s h _ => ⟨bodySJF_ok _ h.1, bodySJF_tracked _ h.1 h.2⟩)
        f1 _ sf ⟨hprog.2.1, bodySJF_tracked_start _ h0.1 h0.2 hch⟩ hf1
      exact Tracked_final hI hc hp htr.2
    · intro a b ha hb hab
      have ha1 : a < sf.processes.length := by rw [hI.len]; exact ha
      have hb1 : b < sf.processes.length := by rw [hI.len]; exact hb
      exact hfin.2.apart a b ha1 hb1 hab (hdone a ha) (hdone b hb)

/-- C14 at the scenario registry of the specification. -/
theorem selected_process_runs_to_completion_witness :
    Fresh scenario ∧ InIntRange scenario ∧ (∀ p ∈ scenario, 1 ≤ p.totalCpuTime) ∧
    NoOverflow scenario ∧
    ((FIFOInRange scenario scenario.length ∧
      SJFInRange scenario scenario.length) ∧
    (((∃ fuel sf, loopFIFO fuel scenario scenario.length = some sf ∧
      sf.processes.length = scenario.length ∧
      (∀ (k : Nat) (s0 : FIFOState) (p : Nat),
        iterLoop (fun s => decide (s.completedProcesses < (scenario.length : Int)))
          (bodyFIFO scenario.length) k (initFIFO scenario) = some s0 →
        s0.completedProcesses < scenario.length → chosenFIFO s0 = some p →
        (deref sf.processes p).completionTime =
          s0.currentTime + (deref sf.processes p).totalCpuTime) ∧
      (∀ a b, a < scenario.length → b < scenario.length → a ≠ b →
        (deref sf.processes a).completionTime ≤
          (deref sf.processes b).completionTime - (deref sf.processes b).totalCpuTime ∨
        (deref sf.processes b).completionTime ≤
          (deref sf.processes a).completionTime - (deref sf.processes a).totalCpuTime)) ∧
    (∃ fuel sf, loopSJF fuel scenario scenario.length = some sf ∧
      sf.processes.length = scenario.length ∧
      (∀ (k : Nat) (s0 : SimState) (p : Nat),
        iterLoop (fun s => decide (s.completedProcesses < (scenario.length : Int)))
          (bodySJF scenario.length) k (initSim scenario) = some s0 →
        s0.completedProcesses < scenario.length → chosenSJF s0 = some p →
        (deref sf.processes p).completionTime =
          s0.currentTime + (deref sf.processes p).totalCpuTime) ∧
      (∀ a b, a < scenario.length → b < scenario.length → a ≠ b →
        (deref sf.processes a).completionTime ≤
          (deref sf.processes b).completionTime - (deref sf.processes b).totalCpuTime ∨
        (deref sf.processes b).completionTime ≤
          (deref sf.processes a).completionTime - (deref sf.processes a).totalCpuTime))))) :=
  ⟨fresh_scenario, inIntRange_scenario, bursts_scenario, noOverflow_scenario,
    selected_process_runs_to_completion scenario fresh_scenario inIntRange_scenario
      bursts_scenario noOverflow_scenario⟩

/-- C15: at the head of every iteration of the loop of simulateSRT, and when
the loop is left, from a registry as the constructor builds it with no
negative arrival and bursts at least 1, for every `n`, as long as the clock has
not passed `INT_MAX` (the clock never goes back, so the `int` clock of the
source has not overflowed): the states of the run so far are in the range of
`int`, every process has `0 <= remainingCpuTime <= totalCpuTime`, its
completion time is set exactly when its remaining time is 0, and
`completedProcesses` is the number of processes whose completion time is
set. -/
theorem srt_loop_invariant (ps : List Process) (hf : Fresh ps) (hr : InIntRange ps)
    (hcpu : ∀ p ∈ ps, 1 ≤ p.totalCpuTime) (n : Int) (k : Nat) (s : SimState)
    (hs : iterLoop (fun s => decide (s.completedProcesses < n)) (bodySRT n) k (initSim ps)
      = some s)
    (h0 : ∀ p ∈ ps, 0 ≤ p.arrivalTime)
    (hclock : s.currentTime ≤ INT_MAX) :
    (∀ (j : Nat) (s1 : SimState), j ≤ k →
      iterLoop (fun s => decide (s.completedProcesses < n)) (bodySRT n) j (initSim ps)
        = some s1 → IntRange s1.processes s1.currentTime) ∧
    (s.processes.length = ps.length ∧
    (∀ p ∈ s.processes, 0 ≤ p.remainingCpuTime ∧ p.remainingCpuTime ≤ p.totalCpuTime ∧
      (p.completionTime ≠ -1 ↔ p.remainingCpuTime = 0)) ∧
    s.completedProcesses = completedCount s.processes) := by
  refine ⟨fun j s1 hj hs1 =>
      srt_in_range_so_far ps hf hr hcpu h0 n k s hs hclock j hj s1 hs1, ?_⟩
  have hok : s.Ok ps := iterLoop_invariant _ (bodySRT n) (SimState.Ok ps)
    (fun s h _ => bodySRT_ok n h) k (initSim ps) s (Inv_init ps hf hr hcpu) hs
  refine ⟨hok.len, ?_, (Inv.sums hok).2.2.symm⟩
  intro p hp
  obtain ⟨i, hi, e⟩ := (mem_iff_deref s.processes p).1 hp
  have P := hok.procs i hi
  rw [← e]
  by_cases hc : (deref s.processes i).completionTime = -1
  · have h1 := P.pend_rem hc
    refine ⟨by omega, P.rem_le, ?_⟩
    constructor
    · intro hne; exact absurd hc hne
    · intro h0; omega
  · have h1 := P.done_rem hc
    have h2 := P.rem_le
    exact ⟨by omega, h2, fun _ => h1, fun _ => hc⟩

/-- C15 at the scenario registry, after the three iterations that complete
P2. -/
theorem srt_loop_invariant_witness :
    Fresh scenario ∧ InIntRange scenario ∧ (∀ p ∈ scenario, 1 ≤ p.totalCpuTime) ∧
    iterLoop (fun s => decide (s.completedProcesses < 3)) (bodySRT 3) 3 (initSim scenario)
      = some scenarioAfterThreeSRT ∧
    (∀ p ∈ scenario, 0 ≤ p.arrivalTime) ∧
    scenarioAfterThreeSRT.currentTime ≤ INT_MAX ∧
    ((∀ (j : Nat) (s1 : SimState), j ≤ 3 →
      iterLoop (fun s => decide (s.completedProcesses < 3)) (bodySRT 3) j (initSim scenario)
        = some s1 → IntRange s1.processes s1.currentTime) ∧
    ((scenarioAfterThreeSRT.processes.length = scenario.length ∧
      (∀ p ∈ scenarioAfterThreeSRT.processes,
        0 ≤ p.remainingCpuTime ∧ p.remainingCpuTime ≤ p.totalCpuTime ∧
        (p.completionTime ≠ -1 ↔ p.remainingCpuTime = 0)) ∧
      scenarioAfterThreeSRT.completedProcesses =
        completedCount scenarioAfterThreeSRT.processes))) :=
  ⟨fresh_scenario, inIntRange_scenario, bursts_scenario, rfl, by decide, by decide,
    srt_loop_invariant scenario fresh_scenario inIntRange_scenario bursts_scenario 3 3
      scenarioAfterThreeSRT rfl (by decide) (by decide)⟩

/-- C19: on a non-empty registry as the constructor builds it, with no negative
arrival, bursts at least 1, a makespan of at most `INT_MAX` (so that the `int`
clock of the source does not overflow) and `n` its size: every state of the
three runs is in the range of `int`, and the largest completion time after
simulateFIFO, after simulateSJF and after simulateSRT is the same value, the
makespan of the registry from time 0, which depends on the arrivals and bursts
only. -/
theorem largest_completion_is_policy_independent (ps : List Process) (hne : ps ≠ [])
    (hf : Fresh ps) (hr : InIntRange ps) (hcpu : ∀ p ∈ ps, 1 ≤ p.totalCpuTime)
    (hno : NoOverflow ps) :
    (FIFOInRange ps ps.length ∧ SJFInRange ps ps.length ∧
      SRTInRange ps ps.length) ∧
    (∃ fuel sF sJ sR, loopFIFO fuel ps ps.length = some sF ∧
      loopSJF fuel ps ps.length = some sJ ∧ loopSRT fuel ps ps.length = some sR ∧
      ((∀ p ∈ sF.processes, p.completionTime ≤ makespan ps 0) ∧
        (∃ p ∈ sF.processes, p.completionTime = makespan ps 0)) ∧
      ((∀ p ∈ sJ.processes, p.completionTime ≤ makespan ps 0) ∧
        (∃ p ∈ sJ.processes, p.completionTime = makespan ps 0)) ∧
      ((∀ p ∈ sR.processes, p.completionTime ≤ makespan ps 0) ∧
        (∃ p ∈ sR.processes, p.completionTime = makespan ps 0))) := by
  refine ⟨⟨fifo_in_range ps hf hr hcpu hno _ (le_refl _),
      sjf_in_range ps hf hr hcpu hno _ (le_refl _),
      srt_in_range ps hf hr hcpu hno _ (le_refl _)⟩, ?_⟩
  obtain ⟨sF, hsF, hIF, hcF⟩ := loopFIFO_total ps hf hr hcpu (potential ps 0 + 1) (by omega)
  obtain ⟨sJ, hsJ, hIJ, hcJ⟩ := loopSJF_total ps hf hr hcpu (potential ps 0 + 1) (by omega)
  obtain ⟨sR, hsR, hIR, hcR⟩ := loopSRT_total ps hf hr hcpu (potential ps 0 + 1) (by omega)
  have hm0 := isMakespan_makespan ps 0
  have hl0 := LastAt_init ps hne hf
  have hF := runLoop_invariant _ (bodyFIFO ps.length)
    (fun s => (s.Ok ps ∧ NonPreempt s.processes s.currentTime none) ∧
      IsMakespan s.processes s.currentTime (makespan ps 0) ∧
      LastAt s.processes s.currentTime)
    (fun s h hg => by
      have hg1 : s.completedProcesses < ps.length := by simpa using hg
      exact ⟨⟨(bodyFIFO_progress _ h.1.1 hg1).2.1, bodyFIFO_nonPreempt _ h.1.1 h.1.2⟩,
        bodyFIFO_makespan _ h.1.1 h.1.2 hg1 h.2.1⟩)
    _ (initFIFO ps) sF ⟨⟨Inv_init ps hf hr hcpu, NonPreempt_init ps hf⟩, hm0, hl0⟩ hsF
  have hJ := runLoop_invariant _ (bodySJF ps.length)
    (fun s => s.Ok ps ∧ IsMakespan s.processes s.currentTime (makespan ps 0) ∧
      LastAt s.processes s.currentTime)
    (fun s h hg => by
      have hg1 : s.completedProcesses < ps.length := by simpa using hg
      exact ⟨bodySJF_ok _ h.1, bodySJF_makespan _ h.1 hg1 h.2.1⟩)
    _ (initSim ps) sJ ⟨Inv_init ps hf hr hcpu, hm0, hl0⟩ hsJ
  have hR := runLoop_invariant _ (bodySRT ps.length)
    (fun s => s.Ok ps ∧ IsMakespan s.processes s.currentTime (makespan ps 0) ∧
      LastAt s.processes s.currentTime)
    (fun s h hg => by
      have hg1 : s.completedProcesses < ps.length := by simpa using hg
      exact ⟨bodySRT_ok _ h.1, bodySRT_makespan _ h.1 hg1 h.2.1⟩)
    _ (initSim ps) sR ⟨Inv_init ps hf hr hcpu, hm0, hl0⟩ hsR
  exact ⟨_, sF, sJ, sR, hsF, hsJ, hsR, last_completion hIF hcF hF.2.1 hF.2.2,
    last_completion hIJ hcJ hJ.2.1 hJ.2.2, last_completion hIR hcR hR.2.1 hR.2.2⟩

/-- C19 at the scenario registry of the specification. -/
theorem largest_completion_is_policy_independent_witness :
    scenario ≠ [] ∧ Fresh scenario ∧ InIntRange scenario ∧
    (∀ p ∈ scenario, 1 ≤ p.totalCpuTime) ∧
    NoOverflow scenario ∧
    ((FIFOInRange scenario scenario.length ∧ SJFInRange scenario scenario.length ∧
      SRTInRange scenario scenario.length) ∧
    (∃ fuel sF sJ sR, loopFIFO fuel scenario scenario.length = some sF ∧
      loopSJF fuel scenario scenario.length = some sJ ∧
      loopSRT fuel scenario scenario.length = some sR ∧
      ((∀ p ∈ sF.processes, p.completionTime ≤ makespan scenario 0) ∧
        (∃ p ∈ sF.processes, p.completionTime = makespan scenario 0)) ∧
      ((∀ p ∈ sJ.processes, p.completionTime ≤ makespan scenario 0) ∧
        (∃ p ∈ sJ.processes, p.completionTime = makespan scenario 0)) ∧
      ((∀ p ∈ sR.processes, p.completionTime ≤ makespan scenario 0) ∧
        (∃ p ∈ sR.processes, p.completionTime = makespan scenario 0)))) :=
  ⟨scenario_ne_nil, fresh_scenario, inIntRange_scenario, bursts_scenario,
    noOverflow_scenario,
    largest_completion_is_policy_independent scenario scenario_ne_nil fresh_scenario
      inIntRange_scenario bursts_scenario noOverflow_scenario⟩

/-- C17: for a non-empty list of jobs with `1 <= total < INT_MAX`, laid out
with the ids equal to the positions, with no negative arrival and a makespan
of at most `INT_MAX` (so that the `int` clocks of the two sources do not
overflow): every state of `simulateSRT` (geminiversion.cpp, `n` the size) and
every clock value of `simulate_SRT` (SchedulingAlgorithms.cpp) is in the range
of `int`; there is an amount of fuel from which both loops end, the turnaround
times of the two final vectors are the same, position by position, and the two
functions compute the same average. -/
theorem simulate_SRT_agrees_with_simulateSRT (jobs : List (Int × Int)) (hne : jobs ≠ [])
    (hjobs : ∀ j ∈ jobs, j.1 ≤ INT_MAX ∧ 1 ≤ j.2 ∧ j.2 < INT_MAX)
    (hno : NoOverflow (registryOf jobs)) :
    (SRTInRange (registryOf jobs) jobs.length ∧
      BatchInRange body_SRT (batchRegistryOf jobs)) ∧
    (∃ fuel0, ∀ fuel, fuel0 ≤ fuel →
      ∃ gs bs, loopSRT fuel (registryOf jobs) jobs.length = some gs ∧
        loop_SRT fuel (batchRegistryOf jobs) = some bs ∧
        bs.procs.map BatchProcess.turnaround = gs.processes.map Process.turnaroundTime ∧
        simulate_SRT fuel (batchRegistryOf jobs) =
          simulateSRT fuel (registryOf jobs) jobs.length ∧
        simulate_SRT fuel (batchRegistryOf jobs) = some (averageCompleted gs.processes)) := by
  refine ⟨⟨srt_in_range (registryOf jobs) (fresh_registryOf jobs)
        (inIntRange_registryOf jobs (fun j hj => (hjobs j hj).1))
        (bursts_registryOf jobs (fun j hj => (hjobs j hj).2.1)) hno _
        (by rw [registryOf_length]),
        batch_SRT_in_range jobs hjobs hno⟩, ?_⟩
  have hlen := registryOf_length jobs
  obtain ⟨gs, hg, hok, hc⟩ := loopSRT_total (registryOf jobs) (fresh_registryOf jobs)
    (inIntRange_registryOf jobs (fun j hj => (hjobs j hj).1))
    (bursts_registryOf jobs (fun j hj => (hjobs j hj).2.1))
    (potential (registryOf jobs) 0 + 1) (by omega)
  rw [hlen] at hg
  obtain ⟨fuelB, bs, hb, _, hsr⟩ := loop_SRT_matches jobs hjobs _ gs hg
  have hpos : 0 < (registryOf jobs).length := by
    rw [hlen]; exact List.length_pos.2 hne
  obtain ⟨hmap, hatt⟩ := SameRun.results hok hc hpos hsr
  refine ⟨max (potential (registryOf jobs) 0 + 1) fuelB, ?_⟩
  intro fuel hfuel
  have hg1 : loopSRT fuel (registryOf jobs) jobs.length = some gs := by
    have := runLoop_mono _ _ (potential (registryOf jobs) 0 + 1)
      (fuel - (potential (registryOf jobs) 0 + 1)) _ _ hg
    rw [show potential (registryOf jobs) 0 + 1 + (fuel - (potential (registryOf jobs) 0 + 1)) =
      fuel by omega] at this
    exact this
  have hb1 : loop_SRT fuel (batchRegistryOf jobs) = some bs := by
    have := runLoop_mono _ _ fuelB (fuel - fuelB) _ _ hb
    rw [show fuelB + (fuel - fuelB) = fuel by omega] at this
    exact this
  have hbl : (batchRegistryOf jobs).length = (registryOf jobs).length := by
    rw [batchRegistryOf_length, hlen]
  refine ⟨gs, bs, hg1, hb1, hmap, ?_, ?_⟩
  · simp only [simulate_SRT, simulateSRT, hg1, hb1, Option.map_some', hbl, hatt]
  · simp only [simulate_SRT, hb1, Option.map_some', hbl, hatt]

/-- C17 at the jobs of the scenario of the specification. -/
theorem simulate_SRT_agrees_with_simulateSRT_witness :
    ([(0, 5), (1, 3), (2, 1)] : List (Int × Int)) ≠ [] ∧
    NoOverflow (registryOf [(0, 5), (1, 3), (2, 1)]) ∧
    ((SRTInRange (registryOf [(0, 5), (1, 3), (2, 1)])
        ([(0, 5), (1, 3), (2, 1)] : List (Int × Int)).length ∧
      BatchInRange body_SRT (batchRegistryOf [(0, 5), (1, 3), (2, 1)])) ∧
    (∃ fuel0, ∀ fuel, fuel0 ≤ fuel →
      ∃ gs bs, loopSRT fuel (registryOf [(0, 5), (1, 3), (2, 1)])
          ([(0, 5), (1, 3), (2, 1)] : List (Int × Int)).length = some gs ∧
        loop_SRT fuel (batchRegistryOf [(0, 5), (1, 3), (2, 1)]) = some bs ∧
        bs.procs.map BatchProcess.turnaround = gs.processes.map Process.turnaroundTime ∧
        simulate_SRT fuel (batchRegistryOf [(0, 5), (1, 3), (2, 1)]) =
          simulateSRT fuel (registryOf [(0, 5), (1, 3), (2, 1)])
            ([(0, 5), (1, 3), (2, 1)] : List (Int × Int)).length ∧
        simulate_SRT fuel (batchRegistryOf [(0, 5), (1, 3), (2, 1)]) =
          some (averageCompleted gs.processes))) :=
  ⟨by decide, noOverflow_scenario_jobs,
    simulate_SRT_agrees_with_simulateSRT [(0, 5), (1, 3), (2, 1)] (by decide)
    (by
      intro j hj
      simp only [List.mem_cons, List.mem_singleton, List.not_mem_nil, or_false] at hj
      rcases hj with rfl | rfl | rfl <;> simp [INT_MAX]) noOverflow_scenario_jobs⟩

/-- C18: for a non-empty list of jobs with `1 <= total < INT_MAX`, laid out
with the ids equal to the positions, with no negative arrival and a makespan
of at most `INT_MAX` (so that the `int` clocks of the two sources do not
overflow): every state of `simulateSJF` (geminiversion.cpp, `n` the size) and
every clock value of `simulate_SJF` (SchedulingAlgorithms.cpp) is in the range
of `int`; there is an amount of fuel from which both loops end, the turnaround
times of the two final vectors are the same, position by position, and the two
functions compute the same average. -/
theorem simulate_SJF_agrees_with_simulateSJF (jobs : List (Int × Int)) (hne : jobs ≠ [])
    (hjobs : ∀ j ∈ jobs, j.1 ≤ INT_MAX ∧ 1 ≤ j.2 ∧ j.2 < INT_MAX)
    (hno : NoOverflow (registryOf jobs)) :
    (SJFInRange (registryOf jobs) jobs.length ∧
      BatchInRange body_SJF (batchRegistryOf jobs)) ∧
    (∃ fuel0, ∀ fuel, fuel0 ≤ fuel →
      ∃ gs bs, loopSJF fuel (registryOf jobs) jobs.length = some gs ∧
        loop_SJF fuel (batchRegistryOf jobs) = some bs ∧
        bs.procs.map BatchProcess.turnaround = gs.processes.map Process.turnaroundTime ∧
        simulate_SJF fuel (batchRegistryOf jobs) =
          simulateSJF fuel (registryOf jobs) jobs.length ∧
        simulate_SJF fuel (batchRegistryOf jobs) = some (averageCompleted gs.processes)) := by
  refine ⟨⟨sjf_in_range (registryOf jobs) (fresh_registryOf jobs)
        (inIntRange_registryOf jobs (fun j hj => (hjobs j hj).1))
        (bursts_registryOf jobs (fun j hj => (hjobs j hj).2.1)) hno _
        (by rw [registryOf_length]),
        batch_SJF_in_range jobs hjobs hno⟩, ?_⟩
  have hlen := registryOf_length jobs
  obtain ⟨gs, hg, hok, hc⟩ := loopSJF_total (registryOf jobs) (fresh_registryOf jobs)
    (inIntRange_registryOf jobs (fun j hj => (hjobs j hj).1))
    (bursts_registryOf jobs (fun j hj => (hjobs j hj).2.1))
    (potential (registryOf jobs) 0 + 1) (by omega)
  rw [hlen] at hg
  obtain ⟨fuelB, bs, hb, _, hsr⟩ := loop_SJF_matches jobs hjobs _ gs hg
  have hpos : 0 < (registryOf jobs).length := by
    rw [hlen]; exact List.length_pos.2 hne
  obtain ⟨hmap, hatt⟩ := SameRun.results hok hc hpos hsr
  refine ⟨max (potential (registryOf jobs) 0 + 1) fuelB, ?_⟩
  intro fuel hfuel
  have hg1 : loopSJF fuel (registryOf jobs) jobs.length = some gs := by
    have := runLoop_mono _ _ (potential (registryOf jobs) 0 + 1)
      (fuel - (potential (registryOf jobs) 0 + 1)) _ _ hg
    rw [show potential (registryOf jobs) 0 + 1 + (fuel - (potential (registryOf jobs) 0 + 1)) =
      fuel by omega] at this
    exact this
  have hb1 : loop_SJF fuel (batchRegistryOf jobs) = some bs := by
    have := runLoop_mono _ _ fuelB (fuel - fuelB) _ _ hb
    rw [show fuelB + (fuel - fuelB) = fuel by omega] at this
    exact this
  have hbl : (batchRegistryOf jobs).length = (registryOf jobs).length := by
    rw [batchRegistryOf_length, hlen]
  refine ⟨gs, bs, hg1, hb1, hmap, ?_, ?_⟩
  · simp only [simulate_SJF, simulateSJF, hg1, hb1, Option.map_some', hbl, hatt]
  · simp only [simulate_SJF, hb1, Option.map_some', hbl, hatt]

/-- C18 at the jobs of the scenario of the specification. -/
theorem simulate_SJF_agrees_with_simulateSJF_witness :
    ([(0, 5), (1, 3), (2, 1)] : List (Int × Int)) ≠ [] ∧
    NoOverflow (registryOf [(0, 5), (1, 3), (2, 1)]) ∧
    ((SJFInRange (registryOf [(0, 5), (1, 3), (2, 1)])
        ([(0, 5), (1, 3), (2, 1)] : List (Int × Int)).length ∧
      BatchInRange body_SJF (batchRegistryOf [(0, 5), (1, 3), (2, 1)])) ∧
    (∃ fuel0, ∀ fuel, fuel0 ≤ fuel →
      ∃ gs bs, loopSJF fuel (registryOf [(0, 5), (1, 3), (2, 1)])
          ([(0, 5), (1, 3), (2, 1)] : List (Int × Int)).length = some gs ∧
        loop_SJF fuel (batchRegistryOf [(0, 5), (1, 3), (2, 1)]) = some bs ∧
        bs.procs.map BatchProcess.turnaround = gs.processes.map Process.turnaroundTime ∧
        simulate_SJF fuel (batchRegistryOf [(0, 5), (1, 3), (2, 1)]) =
          simulateSJF fuel (registryOf [(0, 5), (1, 3), (2, 1)])
            ([(0, 5), (1, 3), (2, 1)] : List (Int × Int)).length ∧
        simulate_SJF fuel (batchRegistryOf [(0, 5), (1, 3), (2, 1)]) =
          some (averageCompleted gs.processes))) :=
  ⟨by decide, noOverflow_scenario_jobs,
    simulate_SJF_agrees_with_simulateSJF [(0, 5), (1, 3), (2, 1)] (by decide)
    (by
      intro j hj
      simp only [List.mem_cons, List.mem_singleton, List.not_mem_nil, or_false] at hj
      rcases hj with rfl | rfl | rfl <;> simp [INT_MAX]) noOverflow_scenario_jobs⟩

end SuperSchedulers
